import Mathlib

/-! AT-command transport of the Sequans LTE modem controller.

A shallow embedding of `src/lte/sequans_controller.cpp`.

* Bytes are natural numbers; a value stored into a `char` or `uint8_t` is
  reduced modulo 256 at the store.
* A C array is a `List Nat`.  A C string is the part of an array before its
  first zero byte.  A scan that would have to read past the end of the array
  it was given has no result in the model (`none`, or `Outcome.undefined`):
  what the machine does then depends on memory the function does not own.
* The serial link is a schedule of observations.  For the receive side it is a
  `List (Option Nat)`, one entry per evaluation of `sequansControllerIsRxReady`:
  `none` is "nothing available", `some b` is "available, and the byte read is
  `b`".  For the transmit side it is a `List Bool`, one entry per evaluation of
  `sequansControllerIsTxReady`.  A call that is still polling when the schedule
  ends is reported as such (`Outcome.polling`), never as a return value.
* The field extractor reads and writes through a null pointer on some paths
  (`strrchr` and `strlen` of a null `value`, the store through a null
  `value_end`).  These accesses do not reach the response, the copy or the
  output buffer, so the model lets the call go on and records them in
  `ExtractRun.null_access`.
-/

namespace SequansController

/-! ## Constants -/

abbrev LINE_FEED : Nat := 10
abbrev CARRIAGE_RETURN : Nat := 13
/-- The one-character delimiter string `","`. -/
abbrev RESPONSE_DELIMITER : Nat := 44
abbrev DATA_START_CHARACTER : Nat := 58
abbrev SPACE_CHARACTER : Nat := 32

abbrev SEQUANS_CONTROLLER_DEFAULT_RETRIES : Nat := 5
abbrev SEQUANS_CONTROLLER_DEFAULT_RETRY_SLEEP_MS : Nat := 10

/-- The characters of `"OK\r\n"`. -/
abbrev OK_TERMINATION : List Nat := [79, 75, 13, 10]
/-- The characters of `"ERROR\r\n"`. -/
abbrev ERROR_TERMINATION : List Nat := [69, 82, 82, 79, 82, 13, 10]

/-- The result codes of the blocking read operations. -/
inductive ResponseResult where
  | OK
  | ERROR
  | TIMEOUT
  | BUFFER_OVERFLOW
deriving DecidableEq, Repr

/-- How a run over a schedule ended: the call returned, the schedule ended
while the call was still polling, or a string scan left its array. -/
inductive Outcome where
  | returned (r : ResponseResult)
  | polling
  | undefined
deriving DecidableEq, Repr

/-! ## C library routines -/

/-- The C routine `strstr(haystack, needle)` for a needle without zero bytes,
scanning left to right: `some (some k)` is a match at offset `k`, `some none`
is the null pointer (the terminating zero was reached first), and `none` means
the scan ran off the end of the array. -/
def strstr (needle : List Nat) : List Nat → Option (Option Nat)
  | [] => none
  | b :: m =>
    if needle.isPrefixOf (b :: m) then some (some 0)
    else if b = 0 then some none
    else (strstr needle m).map (Option.map (· + 1))

/-- The C routine `memset(p + k, 0, n)` on the array `p`. -/
def memsetZero (p : List Nat) (k n : Nat) : List Nat :=
  p.take k ++ List.replicate n 0 ++ p.drop (k + n)

/-! ## Response reader -/

/-- State of `sequansControllerReadResponse` when a run stops. `consumed` is
the number of bytes taken from the receive path. -/
structure ReadRun where
  result : Outcome
  out_buffer : List Nat
  consumed : Nat
  retry_count : Nat
deriving DecidableEq, Repr

/-- The `for` loop of `sequansControllerReadResponse`, one schedule entry per
iteration; `i` is the loop index and `retry_count` the 8-bit retry counter. -/
def readLoop (number_of_retries buffer_size : Nat) :
    List (Option Nat) → List Nat → Nat → Nat → ReadRun
  | [], out_buffer, i, retry_count =>
    if i < buffer_size then ⟨.polling, out_buffer, i, retry_count⟩
    else ⟨.returned .BUFFER_OVERFLOW, out_buffer, i, retry_count⟩
  | none :: sched, out_buffer, i, retry_count =>
    if i < buffer_size then
      if (retry_count + 1) % 256 = number_of_retries then
        ⟨.returned .TIMEOUT, out_buffer, i, (retry_count + 1) % 256⟩
      else
        readLoop number_of_retries buffer_size sched out_buffer i ((retry_count + 1) % 256)
    else ⟨.returned .BUFFER_OVERFLOW, out_buffer, i, retry_count⟩
  | some b :: sched, out_buffer, i, retry_count =>
    if i < buffer_size then
      let buf := out_buffer.set i (b % 256)
      if 1 ≤ i ∧ buf[i - 1]? = some CARRIAGE_RETURN ∧ buf[i]? = some LINE_FEED then
        match strstr OK_TERMINATION buf with
        | none => ⟨.undefined, buf, i + 1, 0⟩
        | some (some k) =>
          if k ≤ buffer_size then
            ⟨.returned .OK, memsetZero buf k (buffer_size - k), i + 1, 0⟩
          else ⟨.undefined, buf, i + 1, 0⟩
        | some none =>
          match strstr ERROR_TERMINATION buf with
          | none => ⟨.undefined, buf, i + 1, 0⟩
          | some (some k) =>
            if k ≤ buffer_size then
              ⟨.returned .ERROR, memsetZero buf k (buffer_size - k), i + 1, 0⟩
            else ⟨.undefined, buf, i + 1, 0⟩
          | some none => readLoop number_of_retries buffer_size sched buf (i + 1) 0
      else readLoop number_of_retries buffer_size sched buf (i + 1) 0
    else ⟨.returned .BUFFER_OVERFLOW, out_buffer, i, retry_count⟩

/-- The function `sequansControllerReadResponse(out_buffer, buffer_size)` run
against a receive schedule, with `number_of_retries` the configured count. -/
def sequansControllerReadResponse (number_of_retries : Nat) (out_buffer : List Nat)
    (buffer_size : Nat) (sched : List (Option Nat)) : ReadRun :=
  readLoop number_of_retries buffer_size sched out_buffer 0 0


/-! ## Flush reader -/

/-- State of `sequansControllerFlushResponse` when a run stops. -/
structure FlushRun where
  result : Outcome
  termination_buffer : List Nat
  consumed : Nat
  retry_count : Nat
deriving DecidableEq, Repr

/-- The inner `for` loop of the flush reader followed by the store of the new
byte: the first `termination_buffer_size` (7) bytes move one place down and
the byte goes into the last of them; the terminating zero stays. -/
def shiftIn (termination_buffer : List Nat) (byte : Nat) : List Nat :=
  (termination_buffer.drop 1).take 6 ++ [byte % 256] ++ termination_buffer.drop 7

/-- The `while` loop of `sequansControllerFlushResponse`, one schedule entry per
iteration that polls. -/
def flushLoop (number_of_retries : Nat) :
    List (Option Nat) → List Nat → Nat → Nat → FlushRun
  | [], termination_buffer, consumed, retry_count =>
    if retry_count < number_of_retries then
      ⟨.polling, termination_buffer, consumed, retry_count⟩
    else ⟨.returned .TIMEOUT, termination_buffer, consumed, retry_count⟩
  | none :: sched, termination_buffer, consumed, retry_count =>
    if retry_count < number_of_retries then
      flushLoop number_of_retries sched termination_buffer consumed ((retry_count + 1) % 256)
    else ⟨.returned .TIMEOUT, termination_buffer, consumed, retry_count⟩
  | some b :: sched, termination_buffer, consumed, retry_count =>
    if retry_count < number_of_retries then
      let buf := shiftIn termination_buffer b
      if buf[5]? = some CARRIAGE_RETURN ∧ buf[6]? = some LINE_FEED then
        match strstr OK_TERMINATION buf with
        | none => ⟨.undefined, buf, consumed + 1, 0⟩
        | some (some _) => ⟨.returned .OK, buf, consumed + 1, 0⟩
        | some none =>
          match strstr ERROR_TERMINATION buf with
          | none => ⟨.undefined, buf, consumed + 1, 0⟩
          | some (some _) => ⟨.returned .ERROR, buf, consumed + 1, 0⟩
          | some none => flushLoop number_of_retries sched buf (consumed + 1) 0
      else flushLoop number_of_retries sched buf (consumed + 1) 0
    else ⟨.returned .TIMEOUT, termination_buffer, consumed, retry_count⟩

/-- The function `sequansControllerFlushResponse()` run against a receive
schedule: the termination buffer starts as seven spaces and a zero. -/
def sequansControllerFlushResponse (number_of_retries : Nat)
    (sched : List (Option Nat)) : FlushRun :=
  flushLoop number_of_retries sched (List.replicate 7 SPACE_CHARACTER ++ [0]) 0 0

/-! ## Byte transport -/

/-- State of a write operation when a run stops: `result` is the returned
boolean (`none` while still polling at the end of the schedule), `ready` the
unused rest of the transmit-ready schedule, `sent` the bytes handed to
`SerialAT.write`, oldest first. -/
structure WriteRun where
  result : Option Bool
  ready : List Bool
  sent : List Nat
deriving DecidableEq, Repr

/-- The `while (!sequansControllerIsTxReady())` loop of
`sequansControllerWriteByte` and the write after it. -/
def writeByteLoop (number_of_retries data : Nat) :
    List Bool → Nat → List Nat → WriteRun
  | [], _, sent => ⟨none, [], sent⟩
  | true :: ready, _, sent => ⟨some true, ready, sent ++ [data % 256]⟩
  | false :: ready, retry_count, sent =>
    if (retry_count + 1) % 256 = number_of_retries then ⟨some false, ready, sent⟩
    else writeByteLoop number_of_retries data ready ((retry_count + 1) % 256) sent

/-- The function `sequansControllerWriteByte(data)`. -/
def sequansControllerWriteByte (number_of_retries data : Nat) (ready : List Bool)
    (sent : List Nat) : WriteRun :=
  writeByteLoop number_of_retries data ready 0 sent

/-- The `for` loop shared by `sequansControllerWriteCommand` and
`sequansControllerWriteBytes`, and the final write of `'\r'`. -/
def writeAll (number_of_retries : Nat) : List Nat → List Bool → List Nat → WriteRun
  | [], ready, sent =>
    sequansControllerWriteByte number_of_retries CARRIAGE_RETURN ready sent
  | b :: data, ready, sent =>
    match sequansControllerWriteByte number_of_retries b ready sent with
    | ⟨some true, ready1, sent1⟩ => writeAll number_of_retries data ready1 sent1
    | ⟨some false, ready1, sent1⟩ => ⟨some false, ready1, sent1⟩
    | ⟨none, ready1, sent1⟩ => ⟨none, ready1, sent1⟩

/-- The function `sequansControllerWriteCommand(command)`: `command` holds the
characters of the caller's array, and `strlen` stops at its first zero. -/
def sequansControllerWriteCommand (number_of_retries : Nat) (command : List Nat)
    (ready : List Bool) (sent : List Nat) : WriteRun :=
  writeAll number_of_retries (command.takeWhile (· ≠ 0)) ready sent

/-- The function `sequansControllerWriteBytes(data, buffer_size)`. -/
def sequansControllerWriteBytes (number_of_retries : Nat) (data : List Nat)
    (buffer_size : Nat) (ready : List Bool) (sent : List Nat) : WriteRun :=
  writeAll number_of_retries (data.take buffer_size) ready sent

/-! ## Field extractor -/

/-- The C routine `strrchr(s, c)` for `c ≠ 0` on the characters of a string:
the offset of the last `c`, or `none` for the null pointer. -/
def strrchr (c : Nat) : List Nat → Option Nat
  | [] => none
  | b :: s =>
    match strrchr c s with
    | some k => some (k + 1)
    | none => if b = c then some 0 else none

/-- The C routine `strchr(p, c)` for `c ≠ 0` on an array: `some (some q)` is the
array from the first `c` on, `some none` the null pointer, and `none` means the
scan ran off the end of the array. -/
def strchr (c : Nat) : List Nat → Option (Option (List Nat))
  | [] => none
  | b :: p =>
    if b = c then some (some (b :: p))
    else if b = 0 then some none
    else strchr c p

/-- The loop `while (*data == ':' || *data == ' ') data++;`, with `none` when
it runs off the end of the array. -/
def skipDataStart : List Nat → Option (List Nat)
  | [] => none
  | b :: data =>
    if b = DATA_START_CHARACTER ∨ b = SPACE_CHARACTER then skipDataStart data
    else some (b :: data)

/-- The span of a token: the characters before the next delimiter or zero, and
the array from that delimiter or zero on (`none` when there is neither). -/
def tokenSpan : List Nat → Option (List Nat × List Nat)
  | [] => none
  | b :: p =>
    if b = RESPONSE_DELIMITER ∨ b = 0 then some ([], b :: p)
    else (tokenSpan p).map (fun r => (b :: r.1, r.2))

/-- The C routine `strtok` with the delimiter `","`, on the array from the
position it resumes at: leading delimiters are skipped; at a zero the result
is the null pointer and the position stays; otherwise the token is returned
(its delimiter overwritten by a zero) and the position moves past it. Returns
the token (`none` for the null pointer) and the new position; the outer `none`
means the scan ran off the end of the array. -/
def strtok : List Nat → Option (Option (List Nat) × List Nat)
  | [] => none
  | b :: p =>
    if b = RESPONSE_DELIMITER then strtok p
    else if b = 0 then some (none, b :: p)
    else
      match tokenSpan (b :: p) with
      | none => none
      | some (tok, []) => some (some tok, [])
      | some (tok, d :: rest) =>
        if d = RESPONSE_DELIMITER then some (some tok, rest) else some (some tok, d :: rest)

/-- The loop `while (value != NULL && value_index <= index)` with its calls of
`strtok(NULL, ",")`; `value_index` is an 8-bit counter. The first argument
bounds the number of iterations. -/
def tokenLoop (index : Nat) :
    Nat → Option (List Nat) → List Nat → Nat → Option (Option (List Nat))
  | 0, _, _, _ => none
  | fuel + 1, value, saved, value_index =>
    match value with
    | none => some none
    | some tok =>
      if value_index ≤ index then
        match strtok saved with
        | none => none
        | some (value1, saved1) => tokenLoop index fuel value1 saved1 ((value_index + 1) % 256)
      else some (some tok)

/-- The private copy made by the extractor: the response up to and including
its last carriage return, or up to and including its terminating zero when it
has no carriage return. -/
def responseCopy (response : List Nat) : List Nat :=
  let text := response.takeWhile (· ≠ 0)
  let response_end := (strrchr CARRIAGE_RETURN text).getD text.length
  let response_size := response_end + 1
  (text ++ [0]).take response_size

/-- Lines 351 to 366 of the extractor, from the pointer `data` that `strchr`
found: the token `value` points at when the selection loop ends, `some none`
for the null pointer. The first argument bounds the loop. -/
def selectValue (fuel : Nat) (data : List Nat) (index : Nat) : Option (Option (List Nat)) :=
  match skipDataStart data with
  | none => none
  | some data1 =>
    match strtok data1 with
    | none => none
    | some (value, saved) => tokenLoop index fuel value saved 1

/-- Lines 368 to 374 of the extractor for a non-null `value`: the token cut at
its last carriage return, and whether `value_end` was null when it was written
through. -/
def cutAtCarriageReturn (value : List Nat) : List Nat × Bool :=
  match strrchr CARRIAGE_RETURN value with
  | some value_end => (value.take value_end, false)
  | none => (value, true)

/-- What a call of the extractor leaves behind: the returned boolean, the
caller's output buffer, and whether the call read or wrote through a null
pointer on the way. -/
structure ExtractRun where
  ok : Bool
  buffer : List Nat
  null_access : Bool
deriving DecidableEq, Repr

/-- The C routine `memcpy(dst, src, n)` on the array `dst`. -/
def memcpy (dst src : List Nat) (n : Nat) : List Nat :=
  src.take n ++ dst.drop n

/-- The function `sequansControllerExtractValueFromCommandResponse(response,
index, buffer, buffer_size)`; `response` holds the characters of the caller's
string and ends at its first zero. The result is `none` when a scan leaves
`response_copy`. -/
def sequansControllerExtractValueFromCommandResponse (response : List Nat) (index : Nat)
    (buffer : List Nat) (buffer_size : Nat) : Option ExtractRun :=
  let response_copy := responseCopy response
  match strchr DATA_START_CHARACTER response_copy with
  | none => none
  | some none => some ⟨false, buffer, false⟩
  | some (some data) =>
    match selectValue (response_copy.length + 2) data index with
    | none => none
    | some none => some ⟨false, buffer, true⟩
    | some (some value) =>
      let value_length := (cutAtCarriageReturn value).1.length
      if value_length ≥ buffer_size then
        some ⟨false, buffer, (cutAtCarriageReturn value).2⟩
      else
        some ⟨true, memcpy buffer (cutAtCarriageReturn value).1 value_length,
          (cutAtCarriageReturn value).2⟩

/-- The string `value` points at when the extractor reaches its capacity check
(line 376), if the call gets there with a non-null `value`. -/
def selectedToken (response : List Nat) (index : Nat) : Option (List Nat) :=
  match strchr DATA_START_CHARACTER (responseCopy response) with
  | some (some data) =>
    match selectValue ((responseCopy response).length + 2) data index with
    | some (some value) => some (cutAtCarriageReturn value).1
    | _ => none
  | _ => none

/-! ## Vocabulary of the statements -/

/-- The bytes a receive schedule delivers, as they are stored. -/
def received (sched : List (Option Nat)) : List Nat :=
  sched.filterMap (Option.map (· % 256))

/-- The number of consecutive not-ready observations after which a retry loop
that compares its 8-bit counter for equality with `number_of_retries` gives
up. -/
def retryBudget (number_of_retries : Nat) : Nat :=
  if number_of_retries = 0 then 256 else number_of_retries

/-- A transmit-ready schedule in which the `j`-th byte sees `gaps[j]` not-ready
observations and then a ready one. -/
def readyAfter (gaps : List Nat) : List Bool :=
  (gaps.map (fun g => List.replicate g false ++ [true])).flatten

/-- The characters of a string literal as bytes. -/
def bytes (s : String) : List Nat := s.toList.map Char.toNat

/-- A zero-initialised buffer of `buffer_size` bytes after the bytes `recv` have
been stored at its start. -/
def filled (buffer_size : Nat) (recv : List Nat) : List Nat :=
  recv ++ List.replicate (buffer_size - recv.length) 0

/-- The termination buffer of the flush reader after the bytes `recv`: the last
seven bytes of seven spaces followed by `recv`, and the terminating zero. -/
def window (recv : List Nat) : List Nat :=
  (List.replicate 7 SPACE_CHARACTER ++ recv).drop recv.length ++ [0]

/-- The text made of the given tokens, each followed by the delimiter. -/
def commaTerminated (toks : List (List Nat)) : List Nat :=
  (toks.map (· ++ [RESPONSE_DELIMITER])).flatten

/-! ## Retry configuration -/

/-- The two file-scope variables `number_of_retries` (8 bits) and
`sleep_between_retries_ms`. The sleep is kept in whole milliseconds; the delay
itself is not modelled and no result depends on it. -/
structure RetryConfiguration where
  number_of_retries : Nat
  sleep_between_retries_ms : Nat
deriving DecidableEq, Repr

/-- The values the two variables are initialised with. -/
def defaultRetryConfiguration : RetryConfiguration :=
  ⟨SEQUANS_CONTROLLER_DEFAULT_RETRIES, SEQUANS_CONTROLLER_DEFAULT_RETRY_SLEEP_MS⟩

/-- The function `sequansControllerSetRetryConfiguration(num_retries, sleep_ms)`;
`num_retries` is an 8-bit parameter. -/
def sequansControllerSetRetryConfiguration (num_retries sleep_ms : Nat) : RetryConfiguration :=
  ⟨num_retries % 256, sleep_ms⟩

/-! ## Further vocabulary of the field extractor -/

/-- The token `value` points at when the selection loop of the extractor has
ended (line 366) with a non-null `value`, before the cut at the carriage
return. -/
def selectedValue (response : List Nat) (index : Nat) : Option (List Nat) :=
  match strchr DATA_START_CHARACTER (responseCopy response) with
  | some (some data) =>
    match selectValue ((responseCopy response).length + 2) data index with
    | some (some value) => some value
    | _ => none
  | _ => none

/-! ## Link driver: flow control -/

/-- What the flow control of the link driver works on. A pin is `true` when it
is driven HIGH; RTS is active low, so it is asserted when `rts_pin` is `false`.
`rx_buffer` holds the bytes waiting in the receive buffer of `SerialAT`, oldest
first; its length is what `SerialAT.available()` returns. -/
structure LinkDriver where
  rx_buffer : List Nat
  rts_pin : Bool
  reset_pin : Bool
deriving DecidableEq, Repr

/-- The function `flowControlUpdate()`. `SERIAL_RX_BUFFER_SIZE` is a constant of
the serial driver and is taken as a parameter; `RX_BUFFER_ALMOST_FULL` expands
to `SERIAL_RX_BUFFER_SIZE - 2`, and the comparison is one of signed integers. -/
def flowControlUpdate (SERIAL_RX_BUFFER_SIZE : Nat) (s : LinkDriver) : LinkDriver :=
  if (s.rx_buffer.length : Int) < (SERIAL_RX_BUFFER_SIZE : Int) - 2 then
    ⟨s.rx_buffer, false, s.reset_pin⟩
  else
    ⟨s.rx_buffer, true, s.reset_pin⟩

/-- The function `sequansControllerBegin()` as far as it touches the levels of
the RTS and reset pins and the receive buffer: RTS is driven HIGH, reset LOW,
the serial channel is opened and the flow control is computed. What
`SerialAT.begin` does to the receive buffer belongs to the serial driver and
is the parameter `serial_begin`. -/
def sequansControllerBegin (SERIAL_RX_BUFFER_SIZE : Nat) (serial_begin : List Nat → List Nat)
    (s : LinkDriver) : LinkDriver :=
  let s1 : LinkDriver := ⟨s.rx_buffer, true, s.reset_pin⟩
  let s2 : LinkDriver := ⟨s1.rx_buffer, s1.rts_pin, false⟩
  let s3 : LinkDriver := ⟨serial_begin s2.rx_buffer, s2.rts_pin, s2.reset_pin⟩
  flowControlUpdate SERIAL_RX_BUFFER_SIZE s3

/-- The call `SerialAT.read()` of the serial driver: the oldest waiting byte,
which leaves the receive buffer, or `-1` when nothing is waiting. -/
def serialRead : List Nat → Int × List Nat
  | [] => (-1, [])
  | b :: rx_buffer => ((b : Int), rx_buffer)

/-- The function `sequansControllerReadByte()`: the flow control is computed
first, then the byte is read. -/
def sequansControllerReadByte (SERIAL_RX_BUFFER_SIZE : Nat) (s : LinkDriver) :
    Int × LinkDriver :=
  let s1 := flowControlUpdate SERIAL_RX_BUFFER_SIZE s
  ((serialRead s1.rx_buffer).1, ⟨(serialRead s1.rx_buffer).2, s1.rts_pin, s1.reset_pin⟩)

/-! ## Link driver: the CTS edge handler -/

/-- Bit mask `PIN6_bm` of the device header: the CTS pin is pin 6 of port C. -/
abbrev CTS_PIN_bm : Nat := 0x40
/-- Bit mask `PORT_INT6_bm` of the device header. -/
abbrev CTS_INT_bm : Nat := 0x40

/-- The registers the interrupt handler of port C reads and writes
(`VPORTC.INTFLAGS`, `VPORTC.IN`, `HWSERIALAT.CTRLA`, eight bits each), and the
bytes waiting in the transmit buffer of `SerialAT`, which are the pending
transmit data. -/
structure Registers where
  intflags : Nat
  port_in : Nat
  ctrla : Nat
  tx_buffer : List Nat
deriving DecidableEq, Repr

/-- The handler `ISR(PORTC_PORT_vect)`. The bit position `USART_DREIE_bp` of the
device header is taken as a parameter. The operands of `&=` and `|=` are
promoted to 16-bit `int`s and the result is stored into the 8-bit register;
the final store of `0xff` into `VPORTC.INTFLAGS` is recorded as written. -/
def PORTC_PORT_vect (USART_DREIE_bp : Nat) (r : Registers) : Registers :=
  let ctrla :=
    if r.intflags &&& CTS_INT_bm ≠ 0 then
      if r.port_in &&& CTS_PIN_bm ≠ 0 then
        (r.ctrla &&& (0xFFFF ^^^ ((1 <<< USART_DREIE_bp) % 65536))) % 256
      else
        (r.ctrla ||| ((1 <<< USART_DREIE_bp) % 65536)) % 256
    else r.ctrla
  ⟨0xff, r.port_in, ctrla, r.tx_buffer⟩

/-- Whether the data-register-empty interrupt is enabled in `CTRLA`. -/
def dataRegisterEmptyInterruptEnabled (USART_DREIE_bp : Nat) (r : Registers) : Bool :=
  r.ctrla.testBit USART_DREIE_bp

/-! ## HTTP client: reading the response body

The function `httpClientReadResponseBody` of `src/lte/http_client.cpp` calls
the transport several times in a row, so each operation is followed by what it
leaves of the receive schedule. An entry `some b` stays at the head of the
schedule until the byte is read; an entry `none` is used up by the observation
that finds nothing. -/

abbrev HTTP_RECEIVE_START_CHARACTER : Nat := 60
abbrev HTTP_BODY_BUFFER_MIN_SIZE : Nat := 64
abbrev HTTP_BODY_BUFFER_MAX_SIZE : Nat := 1500

/-- The C routine `strlen` on an array: `none` when the array holds no zero. -/
def strlen : List Nat → Option Nat
  | [] => none
  | b :: s => if b = 0 then some 0 else (strlen s).map (· + 1)

/-- The conversion of a 16-bit `size_t` value to `int16_t`. -/
def toInt16 (v : Int) : Int :=
  if v % 65536 < 32768 then v % 65536 else v % 65536 - 65536

/-- The part of the receive schedule that `flushLoop` leaves unused; it follows
`flushLoop` branch by branch. -/
def flushLoopRest (number_of_retries : Nat) :
    List (Option Nat) → List Nat → Nat → List (Option Nat)
  | [], _, _ => []
  | none :: sched, termination_buffer, retry_count =>
    if retry_count < number_of_retries then
      flushLoopRest number_of_retries sched termination_buffer ((retry_count + 1) % 256)
    else none :: sched
  | some b :: sched, termination_buffer, retry_count =>
    if retry_count < number_of_retries then
      let buf := shiftIn termination_buffer b
      if buf[5]? = some CARRIAGE_RETURN ∧ buf[6]? = some LINE_FEED then
        match strstr OK_TERMINATION buf with
        | none => sched
        | some (some _) => sched
        | some none =>
          match strstr ERROR_TERMINATION buf with
          | none => sched
          | some (some _) => sched
          | some none => flushLoopRest number_of_retries sched buf 0
      else flushLoopRest number_of_retries sched buf 0
    else some b :: sched

/-- The part of the receive schedule that `readLoop` leaves unused; it follows
`readLoop` branch by branch. -/
def readLoopRest (number_of_retries buffer_size : Nat) :
    List (Option Nat) → List Nat → Nat → Nat → List (Option Nat)
  | [], _, _, _ => []
  | none :: sched, out_buffer, i, retry_count =>
    if i < buffer_size then
      if (retry_count + 1) % 256 = number_of_retries then sched
      else readLoopRest number_of_retries buffer_size sched out_buffer i ((retry_count + 1) % 256)
    else none :: sched
  | some b :: sched, out_buffer, i, _ =>
    if i < buffer_size then
      let buf := out_buffer.set i (b % 256)
      if 1 ≤ i ∧ buf[i - 1]? = some CARRIAGE_RETURN ∧ buf[i]? = some LINE_FEED then
        match strstr OK_TERMINATION buf with
        | none => sched
        | some (some _) => sched
        | some none =>
          match strstr ERROR_TERMINATION buf with
          | none => sched
          | some (some _) => sched
          | some none => readLoopRest number_of_retries buffer_size sched buf (i + 1) 0
      else readLoopRest number_of_retries buffer_size sched buf (i + 1) 0
    else some b :: sched

/-- How a call of `httpClientReadResponseBody` ended: it returned a value, the
schedule ended while it was waiting, a string scan left its array, or the
bound on the iterations of the clearing loop was reached. -/
inductive BodyResult where
  | returned (value : Int)
  | polling
  | undefined
  | unfinished
deriving DecidableEq, Repr

/-- What a call of `httpClientReadResponseBody` leaves behind: its result, the
caller's buffer, the unused rest of the receive and transmit-ready schedules,
the bytes sent to the modem, and whether the final `memset` stored before the
start of the caller's buffer. -/
structure BodyRun where
  result : BodyResult
  buffer : List Nat
  rx : List (Option Nat)
  ready : List Bool
  sent : List Nat
  stored_before_buffer : Bool
deriving DecidableEq, Repr

/-- The loop `while (sequansControllerIsRxReady()) { sequansControllerFlushResponse(); }`:
how the call ended inside the loop (`none` when the loop was left) and the
rest of the receive schedule at that point. The first argument bounds the
number of iterations (a flush that returns without reading leaves the loop
condition true). -/
def clearReceiveBuffer (number_of_retries : Nat) :
    Nat → List (Option Nat) → Option BodyResult × List (Option Nat)
  | _, [] => (some .polling, [])
  | _, none :: rx => (none, rx)
  | 0, some b :: rx => (some .unfinished, some b :: rx)
  | fuel + 1, some b :: rx =>
    match (sequansControllerFlushResponse number_of_retries (some b :: rx)).result with
    | .polling => (some .polling, [])
    | .undefined =>
      (some .undefined, flushLoopRest number_of_retries (some b :: rx)
        (List.replicate 7 SPACE_CHARACTER ++ [0]) 0)
    | .returned _ =>
      clearReceiveBuffer number_of_retries fuel
        (flushLoopRest number_of_retries (some b :: rx)
          (List.replicate 7 SPACE_CHARACTER ++ [0]) 0)

/-- The array `command` after `sprintf(command, HTTP_RECEIVE, buffer_size)`: 32
bytes, zero-initialised, holding `"AT+SQNHTTPRCV=0,"` and the decimal digits of
the 16 bits that `%u` takes of `buffer_size`. -/
def receiveCommand (buffer_size : Nat) : List Nat :=
  let text := bytes "AT+SQNHTTPRCV=0," ++ bytes (toString (buffer_size % 65536))
  text ++ List.replicate (32 - text.length) 0

/-- The loop `while (!sequansControllerIsRxReady()) {}`: the receive schedule
from the first available byte on, `none` when the schedule ends first. -/
def waitForFirstByte : List (Option Nat) → Option (List (Option Nat))
  | [] => none
  | none :: rx => waitForFirstByte rx
  | some b :: rx => some (some b :: rx)

/-- The loop `while (start_bytes > 0)`: each iteration calls
`sequansControllerReadByte`, which returns `-1` when nothing is available, and
counts the byte when it is `'<'`. The result is the rest of the receive
schedule, `none` when the schedule ends first. -/
def skipStartBytes : List (Option Nat) → Nat → Option (List (Option Nat))
  | rx, 0 => some rx
  | [], _ + 1 => none
  | none :: rx, start_bytes + 1 => skipStartBytes rx (start_bytes + 1)
  | some b :: rx, start_bytes + 1 =>
    if b % 256 = HTTP_RECEIVE_START_CHARACTER then skipStartBytes rx start_bytes
    else skipStartBytes rx (start_bytes + 1)

/-- The function `httpClientReadResponseBody(buffer, buffer_size)` run against
a receive schedule `rx` and a transmit-ready schedule `ready`, with `sent` the
bytes sent to the modem so far and `number_of_retries` the configured count. -/
def httpClientReadResponseBody (number_of_retries fuel : Nat) (buffer : List Nat)
    (buffer_size : Nat) (rx : List (Option Nat)) (ready : List Bool) (sent : List Nat) :
    BodyRun :=
  if buffer_size < HTTP_BODY_BUFFER_MIN_SIZE ∨ buffer_size > HTTP_BODY_BUFFER_MAX_SIZE then
    ⟨.returned (-1), buffer, rx, ready, sent, false⟩
  else
    match clearReceiveBuffer number_of_retries fuel rx with
    | (some e, rx1) => ⟨e, buffer, rx1, ready, sent, false⟩
    | (none, rx1) =>
      let w := sequansControllerWriteCommand number_of_retries (receiveCommand buffer_size)
        ready sent
      match w.result with
      | none => ⟨.polling, buffer, rx1, w.ready, w.sent, false⟩
      | some _ =>
        match waitForFirstByte rx1 with
        | none => ⟨.polling, buffer, [], w.ready, w.sent, false⟩
        | some rx2 =>
          match skipStartBytes rx2 3 with
          | none => ⟨.polling, buffer, [], w.ready, w.sent, false⟩
          | some rx3 =>
            let run := sequansControllerReadResponse number_of_retries buffer
              (buffer_size % 65536) rx3
            let rx4 := readLoopRest number_of_retries (buffer_size % 65536) rx3 buffer 0 0
            match run.result with
            | .polling => ⟨.polling, run.out_buffer, rx4, w.ready, w.sent, false⟩
            | .undefined => ⟨.undefined, run.out_buffer, rx4, w.ready, w.sent, false⟩
            | .returned .ERROR => ⟨.returned 0, run.out_buffer, rx4, w.ready, w.sent, false⟩
            | .returned _ =>
              match strlen run.out_buffer with
              | none => ⟨.undefined, run.out_buffer, rx4, w.ready, w.sent, false⟩
              | some response_length =>
                if 2 ≤ response_length then
                  ⟨.returned (toInt16 ((response_length : Int) - 2)),
                    memsetZero run.out_buffer (response_length - 2) 2, rx4, w.ready, w.sent,
                    false⟩
                else
                  ⟨.returned (toInt16 ((response_length : Int) - 2)),
                    List.replicate response_length 0 ++ run.out_buffer.drop response_length,
                    rx4, w.ready, w.sent, true⟩

/-! ## Field extractor: the stores into memory

The extractor tokenises in place: `strtok` stores a zero over the delimiter
that ends a token, and the cut stores a zero over a carriage return. Here the
same function is followed on the memory that starts at the first byte of
`response_copy`: the copy, then the bytes `adjacent` that follow it. Pointers
are offsets into this memory. -/

/-- The number of delimiters at the start of `p`: what `strtok` skips. -/
def delimiterRun : List Nat → Nat
  | [] => 0
  | b :: p => if b = RESPONSE_DELIMITER then delimiterRun p + 1 else 0

/-- The number of bytes of `p` before its first delimiter or zero, `none` when
it has neither. -/
def tokenLength : List Nat → Option Nat
  | [] => none
  | b :: p =>
    if b = RESPONSE_DELIMITER ∨ b = 0 then some 0 else (tokenLength p).map (· + 1)

/-- The C routine `strtok` with the delimiter `","`, resumed at the offset
`saved`: the offset of the token (`none` for the null pointer), the offset it
resumes at next time, and the memory after its store. The result is `none`
when the scan runs off the end of the memory. -/
def strtokAt (memory : List Nat) (saved : Nat) : Option (Option Nat × Nat × List Nat) :=
  let start := saved + delimiterRun (memory.drop saved)
  match memory[start]? with
  | none => none
  | some b =>
    if b = 0 then some (none, start, memory)
    else
      match tokenLength (memory.drop start) with
      | none => none
      | some n =>
        if memory[start + n]? = some RESPONSE_DELIMITER then
          some (some start, start + n + 1, memory.set (start + n) 0)
        else some (some start, start + n, memory)

/-- The loop `while (value != NULL && value_index <= index)` on the memory. The
first argument bounds the number of iterations. -/
def tokenLoopAt (index : Nat) :
    Nat → Option Nat → Nat → List Nat → Nat → Option (Option Nat × List Nat)
  | 0, _, _, _, _ => none
  | fuel + 1, value, saved, memory, value_index =>
    match value with
    | none => some (none, memory)
    | some v =>
      if value_index ≤ index then
        match strtokAt memory saved with
        | none => none
        | some (value1, saved1, memory1) =>
          tokenLoopAt index fuel value1 saved1 memory1 ((value_index + 1) % 256)
      else some (some v, memory)

/-- What a call of the extractor leaves behind when its stores are followed:
the returned boolean, the caller's output buffer, the memory from the first
byte of `response_copy` on, and whether the call read or wrote through a null
pointer. -/
structure MemoryRun where
  ok : Bool
  buffer : List Nat
  memory : List Nat
  null_access : Bool
deriving DecidableEq, Repr

/-- The function `sequansControllerExtractValueFromCommandResponse(response,
index, buffer, buffer_size)` on the memory `response_copy ++ adjacent`, for a
caller's output buffer that lies apart from this memory (the run with the
buffer inside it is `extractValueBehindCopy`). The result is `none` when a
scan runs off the end of this memory. -/
def extractValueInMemory (response : List Nat) (index : Nat) (buffer : List Nat)
    (buffer_size : Nat) (adjacent : List Nat) : Option MemoryRun :=
  let memory := responseCopy response ++ adjacent
  match strchr DATA_START_CHARACTER memory with
  | none => none
  | some none => some ⟨false, buffer, memory, false⟩
  | some (some data) =>
    match skipDataStart data with
    | none => none
    | some data1 =>
      match strtokAt memory (memory.length - data1.length) with
      | none => none
      | some (value, saved, memory1) =>
        match tokenLoopAt index (memory.length + 2) value saved memory1 1 with
        | none => none
        | some (none, memory2) => some ⟨false, buffer, memory2, true⟩
        | some (some v, memory2) =>
          match strlen (memory2.drop v) with
          | none => none
          | some n =>
            let cut := strrchr CARRIAGE_RETURN ((memory2.drop v).take n)
            let memory3 := match cut with
              | some value_end => memory2.set (v + value_end) 0
              | none => memory2
            let value_length := (cut.getD n)
            if value_length ≥ buffer_size then
              some ⟨false, buffer, memory3, cut.isNone⟩
            else
              some ⟨true, memcpy buffer (memory3.drop v) value_length, memory3, cut.isNone⟩

/-! ## Timeout timer

The class `TimeoutTimer` of `src/timeout_timer.cpp`. Its two members are
32-bit unsigned integers, as is the value of `millis()`. -/

/-- The members of a `TimeoutTimer`. -/
structure TimeoutTimer where
  interval_ms : Nat
  start_ms : Nat
deriving DecidableEq, Repr

/-- The constructor `TimeoutTimer::TimeoutTimer(ms)`, with `millis` the value
`millis()` returns at that moment. -/
def TimeoutTimer.create (ms millis : Nat) : TimeoutTimer :=
  ⟨ms % 2 ^ 32, millis % 2 ^ 32⟩

/-- The method `TimeoutTimer::hasTimedOut()`, with `millis` the value `millis()`
returns at that moment; the subtraction is one of 32-bit unsigned integers. -/
def TimeoutTimer.hasTimedOut (t : TimeoutTimer) (millis : Nat) : Bool :=
  decide ((millis % 2 ^ 32 + 2 ^ 32 - t.start_ms % 2 ^ 32) % 2 ^ 32 > t.interval_ms % 2 ^ 32)

/-! ## HTTP client: the response line of a request -/

abbrev HTTP_RESPONSE_MAX_LENGTH : Nat := 128
abbrev HTTP_RESPONSE_STATUS_CODE_INDEX : Nat := 1
abbrev HTTP_RESPONSE_STATUS_CODE_LENGTH : Nat := 3
abbrev HTTP_RESPONSE_DATA_SIZE_INDEX : Nat := 3
abbrev HTTP_RESPONSE_DATA_SIZE_LENGTH : Nat := 16

/-- The captured line `"<front>: p,s,t,n\r\n"`. -/
def responseLine (front p s t n : List Nat) : List Nat :=
  front ++ [DATA_START_CHARACTER, SPACE_CHARACTER] ++ p ++ [RESPONSE_DELIMITER]
    ++ s ++ [RESPONSE_DELIMITER] ++ t ++ [RESPONSE_DELIMITER] ++ n
    ++ [CARRIAGE_RETURN, LINE_FEED]

/-! ## Vocabulary of the statements on runs of commas -/

/-- Two texts that differ by one comma of a run: `p` has a comma more than `q`
next to a comma of `q`, or in front of `q` (where a comma has just been
consumed), or the two are the same. -/
def CommaStep (p q : List Nat) : Prop :=
  p = q ∨ p = RESPONSE_DELIMITER :: q ∨
    ∃ a c, p = a ++ RESPONSE_DELIMITER :: RESPONSE_DELIMITER :: c ∧
      q = a ++ RESPONSE_DELIMITER :: c

/-! ## Field extractor: the output buffer behind the copy

The caller's output buffer can itself lie in the memory that follows
`response_copy` (the callers in `http_client.cpp` keep it in their own stack
frame). Here the extractor is followed on the one memory
`response_copy ++ adjacent` with the buffer starting `buffer_at` bytes into
`adjacent`, so that every store of the call lands in the same memory. -/

/-- The C routine `memcpy` inside one memory, by offsets: the `n` source bytes
are read, then stored from `dst` on. -/
def memcpyAt (memory : List Nat) (dst src n : Nat) : List Nat :=
  memory.take dst ++ (memory.drop src).take n ++ memory.drop (dst + n)

/-- What such a call leaves behind: the returned boolean, the memory behind the
copy (the output buffer included), and whether the call read or wrote through
a null pointer. -/
structure BehindRun where
  ok : Bool
  adjacent : List Nat
  null_access : Bool
deriving DecidableEq, Repr

/-- The function `sequansControllerExtractValueFromCommandResponse(response,
index, buffer, buffer_size)` on the memory `response_copy ++ adjacent`, with
`buffer` the address `buffer_at` bytes behind the copy. The result is `none`
when a scan or the final copy runs off the end of this memory. -/
def extractValueBehindCopy (response : List Nat) (index buffer_at buffer_size : Nat)
    (adjacent : List Nat) : Option BehindRun :=
  let response_size := (responseCopy response).length
  let memory := responseCopy response ++ adjacent
  match strchr DATA_START_CHARACTER memory with
  | none => none
  | some none => some ⟨false, memory.drop response_size, false⟩
  | some (some data) =>
    match skipDataStart data with
    | none => none
    | some data1 =>
      match strtokAt memory (memory.length - data1.length) with
      | none => none
      | some (value, saved, memory1) =>
        match tokenLoopAt index (memory.length + 2) value saved memory1 1 with
        | none => none
        | some (none, memory2) => some ⟨false, memory2.drop response_size, true⟩
        | some (some v, memory2) =>
          match strlen (memory2.drop v) with
          | none => none
          | some n =>
            let cut := strrchr CARRIAGE_RETURN ((memory2.drop v).take n)
            let memory3 := match cut with
              | some value_end => memory2.set (v + value_end) 0
              | none => memory2
            let value_length := (cut.getD n)
            if value_length ≥ buffer_size then
              some ⟨false, memory3.drop response_size, cut.isNone⟩
            else if response_size + buffer_at + value_length ≤ memory3.length then
              some ⟨true,
                (memcpyAt memory3 (response_size + buffer_at) v value_length).drop response_size,
                cut.isNone⟩
            else none

/-! ## Facts about the C library routines -/

theorem prefix_of_append_zero {needle xs rest : List Nat} (hn : ∀ x ∈ needle, x ≠ 0)
    (h : needle <+: xs ++ 0 :: rest) : needle <+: xs := by
  induction xs generalizing needle with
  | nil =>
    cases needle with
    | nil => exact List.nil_prefix
    | cons a t =>
      rw [List.nil_append, List.cons_prefix_cons] at h
      exact absurd h.1 (hn a (List.mem_cons_self _ _))
  | cons x xs ih =>
    cases needle with
    | nil => exact List.nil_prefix
    | cons a t =>
      rw [List.cons_append, List.cons_prefix_cons] at h
      rw [List.cons_prefix_cons]
      exact ⟨h.1, ih (fun y hy => hn y (List.mem_cons_of_mem _ hy)) h.2⟩

theorem strstr_append_zero (needle : List Nat) (hne : needle ≠ []) (hn : ∀ x ∈ needle, x ≠ 0)
    (xs rest : List Nat) (hx : ∀ x ∈ xs, x ≠ 0) :
    (¬ needle <:+: xs → strstr needle (xs ++ 0 :: rest) = some none) ∧
    (needle <:+: xs → ∃ k, strstr needle (xs ++ 0 :: rest) = some (some k) ∧
      k + needle.length ≤ xs.length) := by
  induction xs with
  | nil =>
    have hp : ¬ needle <+: 0 :: rest := by
      intro h
      have := @prefix_of_append_zero needle [] rest hn (by simpa using h)
      exact hne (List.prefix_nil.mp this)
    constructor
    · intro _
      simp [strstr, hp]
    · intro h
      exact absurd (List.infix_nil.mp h) hne
  | cons x xs ih =>
    have hx' : ∀ y ∈ xs, y ≠ 0 := fun y hy => hx y (List.mem_cons_of_mem _ hy)
    have hx0 : x ≠ 0 := hx x (List.mem_cons_self _ _)
    obtain ⟨ih1, ih2⟩ := ih hx'
    by_cases hp : needle <+: x :: (xs ++ 0 :: rest)
    · have hp' : needle <+: x :: xs := prefix_of_append_zero hn (by simpa using hp)
      constructor
      · intro h
        exact absurd hp'.isInfix h
      · intro _
        refine ⟨0, ?_, ?_⟩
        · simp [strstr, hp]
        · simpa using hp'.length_le
    · have hp' : ¬ needle <+: x :: xs := by
        intro h
        apply hp
        have := h.trans (List.prefix_append (x :: xs) (0 :: rest))
        simpa using this
      constructor
      · intro h
        have h' : ¬ needle <:+: xs := fun hh => h (List.infix_cons hh)
        simp [strstr, hp, hx0, ih1 h']
      · intro h
        have h' : needle <:+: xs := by
          rcases List.infix_cons_iff.mp h with h1 | h1
          · exact absurd h1 hp'
          · exact h1
        obtain ⟨k, hk, hlen⟩ := ih2 h'
        refine ⟨k + 1, ?_, ?_⟩
        · simp [strstr, hp, hx0, hk]
        · simp only [List.length_cons]; omega

theorem strstr_found {needle : List Nat} {m : List Nat} {k : Nat}
    (h : strstr needle m = some (some k)) :
    needle <+: m.drop k ∧ ∀ x ∈ m.take k, x ≠ 0 := by
  induction m generalizing k with
  | nil => simp [strstr] at h
  | cons b m ih =>
    by_cases hp : needle <+: b :: m
    · simp [strstr, hp] at h
      subst h
      simpa using hp
    · by_cases hb : b = 0
      · simp [strstr, hp, hb] at h
        rw [hb] at hp
        simp [hp] at h
      · simp only [strstr, List.isPrefixOf_iff_prefix, hp, if_false, hb] at h
        cases hrec : strstr needle m with
        | none => simp [hrec] at h
        | some o =>
          cases o with
          | none => simp [hrec] at h
          | some j =>
            simp [hrec] at h
            subst h
            obtain ⟨h1, h2⟩ := ih hrec
            refine ⟨by simpa using h1, ?_⟩
            intro x hx
            simp only [List.take_succ_cons, List.mem_cons] at hx
            rcases hx with rfl | hx
            · exact hb
            · exact h2 x hx

/-! ## The response reader on a zero-initialised buffer -/

theorem filled_nil (cap : Nat) : filled cap [] = List.replicate cap 0 := by
  simp [filled]

theorem filled_length {cap : Nat} {recv : List Nat} (h : recv.length ≤ cap) :
    (filled cap recv).length = cap := by
  simp [filled]; omega

theorem filled_set {cap : Nat} {recv : List Nat} (v : Nat) (h : recv.length < cap) :
    (filled cap recv).set recv.length v = filled cap (recv ++ [v]) := by
  unfold filled
  obtain ⟨m, hm⟩ : ∃ m, cap - recv.length = m + 1 := ⟨cap - recv.length - 1, by omega⟩
  have hm' : cap - (recv ++ [v]).length = m := by simp; omega
  rw [hm, hm', List.replicate_succ, List.set_append_right _ _ (le_refl _)]
  simp

theorem filled_get_last {cap : Nat} (recv : List Nat) (v : Nat) :
    (filled cap (recv ++ [v]))[recv.length]? = some v := by
  unfold filled
  rw [List.append_assoc, List.getElem?_append_right (le_refl _)]
  simp

theorem filled_get_prev {cap : Nat} (recv : List Nat) (v : Nat) (h : 1 ≤ recv.length) :
    (filled cap (recv ++ [v]))[recv.length - 1]? = recv.getLast? := by
  unfold filled
  rw [List.append_assoc, List.getElem?_append_left (by omega)]
  rw [List.getLast?_eq_getElem?]

/-- The test `i >= 1 && out_buffer[i - 1] == '\r' && out_buffer[i] == '\n'` on a
zero-initialised buffer, in terms of the bytes received. -/
theorem crlf_test_iff {cap : Nat} (recv : List Nat) (v : Nat) :
    (1 ≤ recv.length ∧ (filled cap (recv ++ [v]))[recv.length - 1]? = some CARRIAGE_RETURN ∧
      (filled cap (recv ++ [v]))[recv.length]? = some LINE_FEED) ↔
    [CARRIAGE_RETURN, LINE_FEED] <:+ recv ++ [v] := by
  rw [filled_get_last]
  constructor
  · rintro ⟨h1, h2, h3⟩
    rw [filled_get_prev recv v h1] at h2
    obtain ⟨l, a, rfl⟩ : ∃ l a, recv = l ++ [a] := by
      rcases List.eq_nil_or_concat recv with h | ⟨l, a, h⟩
      · simp [h] at h1
      · exact ⟨l, a, by simpa using h⟩
    simp at h2 h3
    subst h2 h3
    exact ⟨l, by simp⟩
  · rintro ⟨l, hl⟩
    have hl' : (l ++ [CARRIAGE_RETURN]) ++ [LINE_FEED] = recv ++ [v] := by simpa using hl
    obtain ⟨h1, h2⟩ := List.append_inj' hl' rfl
    subst h1
    simp at h2
    subst h2
    refine ⟨by simp, ?_, rfl⟩
    rw [filled_get_prev _ _ (by simp)]
    simp

theorem suffix_of_new_occurrence {needle xs : List Nat} {v : Nat}
    (h : needle <:+: xs ++ [v]) (hno : ¬ needle <:+: xs) : needle <:+ xs ++ [v] := by
  obtain ⟨s, t, hst⟩ := h
  rcases List.eq_nil_or_concat t with ht | ⟨t', a, ht⟩
  · subst ht
    exact ⟨s, by simpa using hst⟩
  · exfalso
    apply hno
    rw [ht, List.concat_eq_append, ← List.append_assoc] at hst
    obtain ⟨h1, _⟩ := List.append_inj' hst rfl
    exact ⟨s, t', h1⟩

theorem crlf_of_ok_suffix {xs : List Nat} (h : OK_TERMINATION <:+ xs) :
    [CARRIAGE_RETURN, LINE_FEED] <:+ xs :=
  List.IsSuffix.trans ⟨[79, 75], rfl⟩ h

theorem crlf_of_error_suffix {xs : List Nat} (h : ERROR_TERMINATION <:+ xs) :
    [CARRIAGE_RETURN, LINE_FEED] <:+ xs :=
  List.IsSuffix.trans ⟨[69, 82, 82, 79, 82], rfl⟩ h

theorem filled_eq_append_zero {cap : Nat} {recv : List Nat} (h : recv.length < cap) :
    filled cap recv = recv ++ 0 :: List.replicate (cap - recv.length - 1) 0 := by
  unfold filled
  obtain ⟨m, hm⟩ : ∃ m, cap - recv.length = m + 1 := ⟨cap - recv.length - 1, by omega⟩
  rw [hm, List.replicate_succ]
  simp

/-- One iteration of the reader that takes a byte, when the buffer was
zero-initialised, keeps a free byte after the new one, and has so far received
no zero byte and no terminator. -/
theorem readLoop_byte_step (N cap : Nat) (recv : List Nat) (b : Nat)
    (t : List (Option Nat)) (r : Nat)
    (hcap : recv.length + 1 < cap) (hz : ∀ x ∈ recv, x ≠ 0) (hb : b % 256 ≠ 0)
    (hok : ¬ OK_TERMINATION <:+: recv) (herr : ¬ ERROR_TERMINATION <:+: recv) :
    (OK_TERMINATION <:+ recv ++ [b % 256] →
      (readLoop N cap (some b :: t) (filled cap recv) recv.length r).result
          = .returned .OK ∧
      (readLoop N cap (some b :: t) (filled cap recv) recv.length r).consumed
          = recv.length + 1) ∧
    (¬ OK_TERMINATION <:+ recv ++ [b % 256] → ERROR_TERMINATION <:+ recv ++ [b % 256] →
      (readLoop N cap (some b :: t) (filled cap recv) recv.length r).result
          = .returned .ERROR ∧
      (readLoop N cap (some b :: t) (filled cap recv) recv.length r).consumed
          = recv.length + 1) ∧
    (¬ OK_TERMINATION <:+ recv ++ [b % 256] → ¬ ERROR_TERMINATION <:+ recv ++ [b % 256] →
      readLoop N cap (some b :: t) (filled cap recv) recv.length r
        = readLoop N cap t (filled cap (recv ++ [b % 256])) (recv.length + 1) 0) := by
  have hi : recv.length < cap := by omega
  have hz' : ∀ x ∈ recv ++ [b % 256], x ≠ 0 := by
    intro x hx
    rcases List.mem_append.mp hx with h | h
    · exact hz x h
    · simp at h; rw [h]; exact hb
  have hlen : (recv ++ [b % 256]).length < cap := by simp; omega
  have hfz := filled_eq_append_zero hlen
  have hOK := strstr_append_zero OK_TERMINATION (by simp) (by simp) (recv ++ [b % 256])
    (List.replicate (cap - (recv ++ [b % 256]).length - 1) 0) hz'
  have hERR := strstr_append_zero ERROR_TERMINATION (by simp) (by simp) (recv ++ [b % 256])
    (List.replicate (cap - (recv ++ [b % 256]).length - 1) 0) hz'
  rw [← hfz] at hOK hERR
  have hunf : readLoop N cap (some b :: t) (filled cap recv) recv.length r =
      if [CARRIAGE_RETURN, LINE_FEED] <:+ recv ++ [b % 256] then
        match strstr OK_TERMINATION (filled cap (recv ++ [b % 256])) with
        | none => ⟨.undefined, filled cap (recv ++ [b % 256]), recv.length + 1, 0⟩
        | some (some k) =>
          if k ≤ cap then
            ⟨.returned .OK, memsetZero (filled cap (recv ++ [b % 256])) k (cap - k),
              recv.length + 1, 0⟩
          else ⟨.undefined, filled cap (recv ++ [b % 256]), recv.length + 1, 0⟩
        | some none =>
          match strstr ERROR_TERMINATION (filled cap (recv ++ [b % 256])) with
          | none => ⟨.undefined, filled cap (recv ++ [b % 256]), recv.length + 1, 0⟩
          | some (some k) =>
            if k ≤ cap then
              ⟨.returned .ERROR, memsetZero (filled cap (recv ++ [b % 256])) k (cap - k),
                recv.length + 1, 0⟩
            else ⟨.undefined, filled cap (recv ++ [b % 256]), recv.length + 1, 0⟩
          | some none => readLoop N cap t (filled cap (recv ++ [b % 256])) (recv.length + 1) 0
      else readLoop N cap t (filled cap (recv ++ [b % 256])) (recv.length + 1) 0 := by
    rw [readLoop]
    simp only [hi, if_true, filled_set _ hi, crlf_test_iff]
  rw [hunf]
  by_cases hcrlf : [CARRIAGE_RETURN, LINE_FEED] <:+ recv ++ [b % 256]
  · simp only [hcrlf, if_true]
    by_cases h1 : OK_TERMINATION <:+: recv ++ [b % 256]
    · obtain ⟨k, hk, hkl⟩ := hOK.2 h1
      have hkc : k ≤ cap := by omega
      have hs := suffix_of_new_occurrence h1 hok
      rw [hk]
      simp [hkc, hs]
    · have hns : ¬ OK_TERMINATION <:+ recv ++ [b % 256] := fun h => h1 h.isInfix
      rw [hOK.1 h1]
      by_cases h2 : ERROR_TERMINATION <:+: recv ++ [b % 256]
      · obtain ⟨k, hk, hkl⟩ := hERR.2 h2
        have hkc : k ≤ cap := by omega
        have hs := suffix_of_new_occurrence h2 herr
        rw [hk]
        simp [hkc, hs, hns]
      · have hns2 : ¬ ERROR_TERMINATION <:+ recv ++ [b % 256] := fun h => h2 h.isInfix
        rw [hERR.1 h2]
        simp [hns, hns2]
  · have hns : ¬ OK_TERMINATION <:+ recv ++ [b % 256] := fun h => hcrlf (crlf_of_ok_suffix h)
    have hns2 : ¬ ERROR_TERMINATION <:+ recv ++ [b % 256] :=
      fun h => hcrlf (crlf_of_error_suffix h)
    simp [hcrlf, hns, hns2]

/-! ## Retry counters under a quiet-enough schedule -/

theorem retry_step_ne {N r : Nat} (hN : N < 256) (h : r + 1 < retryBudget N) :
    (r + 1) % 256 ≠ N ∧ (r + 1) % 256 = r + 1 := by
  unfold retryBudget at h
  split at h <;> omega

theorem retryBudget_pos (N : Nat) : 0 < retryBudget N := by
  unfold retryBudget; split <;> omega

theorem leading_none_bound {α : Type} {B : Nat} {sched : List (Option α)}
    (h : ¬ List.replicate B none <:+: sched) :
    ∀ m, List.replicate m none <+: sched → 0 + m < B := by
  intro m hm
  by_contra hlt
  apply h
  have hBm : B ≤ m := by omega
  have : List.replicate B (none : Option α) <+: List.replicate m none := by
    refine ⟨List.replicate (m - B) none, ?_⟩
    rw [← List.replicate_add]
    congr 1; omega
  exact (this.trans hm).isInfix

theorem leading_none_tail {α : Type} {B r : Nat} {t : List (Option α)}
    (h : ∀ m, List.replicate m none <+: none :: t → r + m < B) :
    r + 1 < B ∧ ∀ m, List.replicate m none <+: t → (r + 1) + m < B := by
  constructor
  · exact h 1 (by simp [List.replicate])
  · intro m hm
    have := h (m + 1) (by rw [List.replicate_succ]; exact (List.cons_prefix_cons).mpr ⟨rfl, hm⟩)
    omega

theorem not_infix_tail {α : Type} {p : List α} {a : α} {t : List α}
    (h : ¬ p <:+: a :: t) : ¬ p <:+: t :=
  fun hh => h (List.infix_cons hh)

theorem terminators_exclusive {xs : List Nat} (h1 : OK_TERMINATION <:+ xs)
    (h2 : ERROR_TERMINATION <:+ xs) : False := by
  obtain ⟨a, ha⟩ := h1
  obtain ⟨b, hb⟩ := h2
  have h : (a ++ [79]) ++ [75, 13, 10] = (b ++ [69, 82, 82, 79]) ++ [82, 13, 10] := by
    simp [ha, hb]
  have := (List.append_inj' h rfl).2
  simp at this

theorem infix_dropLast_of_append {needle recv rest : List Nat} (hrest : rest ≠ [])
    (h : needle <:+: recv) : needle <:+: (recv ++ rest).dropLast := by
  rw [List.dropLast_append_of_ne_nil _ hrest]
  exact h.trans (List.prefix_append _ _).isInfix

/-- The reader on a zero-initialised buffer larger than a zero-free stream
that is delivered within the retry budget and whose only terminator is at its
very end. -/
theorem readLoop_reaches_terminator (N cap : Nat) (hN : N < 256) :
    ∀ (sched : List (Option Nat)) (recv : List Nat) (r : Nat),
      ¬ List.replicate (retryBudget N) none <:+: sched →
      (∀ m, List.replicate m none <+: sched → r + m < retryBudget N) →
      (∀ x ∈ recv ++ received sched, x ≠ 0) →
      (recv ++ received sched).length < cap →
      received sched ≠ [] →
      ¬ OK_TERMINATION <:+: (recv ++ received sched).dropLast →
      ¬ ERROR_TERMINATION <:+: (recv ++ received sched).dropLast →
      (OK_TERMINATION <:+ recv ++ received sched →
        (readLoop N cap sched (filled cap recv) recv.length r).result = .returned .OK) ∧
      (ERROR_TERMINATION <:+ recv ++ received sched →
        (readLoop N cap sched (filled cap recv) recv.length r).result = .returned .ERROR) := by
  intro sched
  induction sched with
  | nil => intro recv r _ _ _ _ hne; simp [received] at hne
  | cons o t ih =>
    intro recv r hq hI hz hlen hne hok herr
    cases o with
    | none =>
      have hrec : received (none :: t) = received t := by simp [received]
      rw [hrec] at hz hlen hne hok herr ⊢
      obtain ⟨h1, h2⟩ := leading_none_tail hI
      obtain ⟨hm1, hm2⟩ := retry_step_ne hN h1
      have hi : recv.length < cap := by
        simp only [List.length_append] at hlen; omega
      have hstep : readLoop N cap (none :: t) (filled cap recv) recv.length r =
          readLoop N cap t (filled cap recv) recv.length (r + 1) := by
        have hm3 : r + 1 ≠ N := by rw [← hm2]; exact hm1
        rw [readLoop]; simp only [hi, if_true, hm2, hm3, if_false]
      rw [hstep]
      exact ih recv (r + 1) (not_infix_tail hq) h2 hz hlen hne hok herr
    | some b =>
      have hrec : received (some b :: t) = (b % 256) :: received t := by simp [received]
      have hfull : recv ++ received (some b :: t) = (recv ++ [b % 256]) ++ received t := by
        rw [hrec]; simp
      rw [hfull] at hz hlen hok herr ⊢
      have hcap : recv.length + 1 < cap := by
        simp only [List.length_append, List.length_singleton] at hlen; omega
      have hzr : ∀ x ∈ recv, x ≠ 0 := fun x hx =>
        hz x (List.mem_append_left _ (List.mem_append_left _ hx))
      have hb : b % 256 ≠ 0 :=
        hz _ (List.mem_append_left _ (List.mem_append_right _ (List.mem_singleton_self _)))
      have hokr : ¬ OK_TERMINATION <:+: recv := by
        intro h
        apply hok
        rw [List.append_assoc]
        exact infix_dropLast_of_append (by simp) h
      have herrr : ¬ ERROR_TERMINATION <:+: recv := by
        intro h
        apply herr
        rw [List.append_assoc]
        exact infix_dropLast_of_append (by simp) h
      obtain ⟨s1, s2, s3⟩ := readLoop_byte_step N cap recv b t r hcap hzr hb hokr herrr
      by_cases hlast : received t = []
      · rw [hlast, List.append_nil]
        constructor
        · intro h; exact (s1 h).1
        · intro h
          exact (s2 (fun h' => terminators_exclusive h' h) h).1
      · have hnok : ¬ OK_TERMINATION <:+ recv ++ [b % 256] :=
          fun h => hok (infix_dropLast_of_append hlast h.isInfix)
        have hnerr : ¬ ERROR_TERMINATION <:+ recv ++ [b % 256] :=
          fun h => herr (infix_dropLast_of_append hlast h.isInfix)
        rw [s3 hnok hnerr]
        have := ih (recv ++ [b % 256]) 0 (not_infix_tail hq)
          (leading_none_bound (not_infix_tail hq)) hz hlen hlast hok herr
        simpa using this

/-! ## Byte transport -/

theorem readyAfter_cons (g : Nat) (gs : List Nat) :
    readyAfter (g :: gs) = List.replicate g false ++ true :: readyAfter gs := by
  simp [readyAfter]

theorem writeByteLoop_ready (N d : Nat) (hN : N < 256) (rest : List Bool) (sent : List Nat) :
    ∀ (g r : Nat), r + g < retryBudget N →
      writeByteLoop N d (List.replicate g false ++ true :: rest) r sent
        = ⟨some true, rest, sent ++ [d % 256]⟩ := by
  intro g
  induction g with
  | zero => intro r _; simp [writeByteLoop]
  | succ g ih =>
    intro r h
    obtain ⟨h1, h2⟩ := retry_step_ne (r := r) hN (by omega)
    have h3 : r + 1 ≠ N := by rw [← h2]; exact h1
    rw [List.replicate_succ, List.cons_append, writeByteLoop]
    simp only [h2, h3, if_false]
    exact ih (r + 1) (by omega)

theorem writeAll_ready (N : Nat) (hN : N < 256) (rest : List Bool) :
    ∀ (data gaps : List Nat) (sent : List Nat), gaps.length = data.length + 1 →
      (∀ g ∈ gaps, g < retryBudget N) →
      writeAll N data (readyAfter gaps ++ rest) sent
        = ⟨some true, rest, sent ++ data.map (· % 256) ++ [CARRIAGE_RETURN]⟩ := by
  intro data
  induction data with
  | nil =>
    intro gaps sent hlen hg
    match gaps, hlen with
    | [g], _ =>
      have hb := hg g (List.mem_singleton_self _)
      rw [writeAll, sequansControllerWriteByte, readyAfter_cons]
      have : readyAfter [] = [] := rfl
      rw [this, List.append_assoc, List.cons_append, List.nil_append,
        writeByteLoop_ready N _ hN rest sent g 0 (by omega)]
      simp
      decide
  | cons b data ih =>
    intro gaps sent hlen hg
    match gaps, hlen with
    | g :: gs, hlen =>
      have hb := hg g (List.mem_cons_self _ _)
      rw [writeAll, sequansControllerWriteByte, readyAfter_cons, List.append_assoc,
        List.cons_append,
        writeByteLoop_ready N _ hN (readyAfter gs ++ rest) sent g 0 (by omega)]
      simp only
      rw [ih gs (sent ++ [b % 256]) (by simpa using hlen)
        (fun x hx => hg x (List.mem_cons_of_mem _ hx))]
      simp

/-! ## Retry bound of a single write and partial writes -/

theorem writeByteLoop_sent (N d : Nat) :
    ∀ (ready : List Bool) (r : Nat) (sent : List Nat),
      ((writeByteLoop N d ready r sent).result = some true →
        (writeByteLoop N d ready r sent).sent = sent ++ [d % 256]) ∧
      ((writeByteLoop N d ready r sent).result ≠ some true →
        (writeByteLoop N d ready r sent).sent = sent) := by
  intro ready
  induction ready with
  | nil => intro r sent; simp [writeByteLoop]
  | cons o t ih =>
    intro r sent
    cases o with
    | true => simp [writeByteLoop]
    | false =>
      rw [writeByteLoop]
      split
      · simp
      · exact ih _ sent

theorem writeByteLoop_false_iff (N d : Nat) (hN : N < 256) :
    ∀ (ready : List Bool) (r : Nat) (sent : List Nat), r < N →
      ((writeByteLoop N d ready r sent).result = some false ↔
        List.replicate (N - r) false <+: ready) := by
  intro ready
  induction ready with
  | nil =>
    intro r sent hr
    have : N - r ≠ 0 := by omega
    simp [writeByteLoop, this]
  | cons o t ih =>
    intro r sent hr
    obtain ⟨m, hm⟩ : ∃ m, N - r = m + 1 := ⟨N - r - 1, by omega⟩
    cases o with
    | true => simp [writeByteLoop, hm, List.replicate_succ]
    | false =>
      have hmod : (r + 1) % 256 = r + 1 := by omega
      rw [writeByteLoop, hmod, hm, List.replicate_succ, List.cons_prefix_cons]
      by_cases hlast : r + 1 = N
      · have : m = 0 := by omega
        simp [hlast, this]
      · have hm' : N - (r + 1) = m := by omega
        simp only [hlast, if_false, true_and]
        rw [ih (r + 1) sent (by omega), hm']

theorem writeByteLoop_true_iff (N d : Nat) (hN : N < 256) :
    ∀ (ready : List Bool) (r : Nat) (sent : List Nat), r < N →
      ((writeByteLoop N d ready r sent).result = some true ↔
        ∃ k, k < N - r ∧ ready[k]? = some true) := by
  intro ready
  induction ready with
  | nil =>
    intro r sent hr
    simp [writeByteLoop]
  | cons o t ih =>
    intro r sent hr
    cases o with
    | true =>
      simp only [writeByteLoop, true_iff]
      exact ⟨0, by omega, by simp⟩
    | false =>
      have hmod : (r + 1) % 256 = r + 1 := by omega
      rw [writeByteLoop, hmod]
      by_cases hlast : r + 1 = N
      · simp only [hlast, if_true]
        constructor
        · intro h; simp at h
        · rintro ⟨k, hk, hk2⟩
          have : k = 0 := by omega
          subst this
          simp at hk2
      · simp only [hlast, if_false]
        rw [ih (r + 1) sent (by omega)]
        constructor
        · rintro ⟨k, hk, hk2⟩
          exact ⟨k + 1, by omega, by simpa using hk2⟩
        · rintro ⟨k, hk, hk2⟩
          cases k with
          | zero => simp at hk2
          | succ k => exact ⟨k, by omega, by simpa using hk2⟩

theorem writeByteLoop_gives_up (N d : Nat) (hN : N < 256) (rest : List Bool) (sent : List Nat) :
    ∀ (m r : Nat), r + m = retryBudget N → 1 ≤ m →
      writeByteLoop N d (List.replicate m false ++ rest) r sent = ⟨some false, rest, sent⟩ := by
  intro m
  induction m with
  | zero => intro r _ h; omega
  | succ m ih =>
    intro r hrm _
    rw [List.replicate_succ, List.cons_append, writeByteLoop]
    by_cases hm : m = 0
    · subst hm
      have : (r + 1) % 256 = N := by
        unfold retryBudget at hrm
        split at hrm <;> omega
      simp [this]
    · obtain ⟨h1, h2⟩ := retry_step_ne (r := r) hN (by omega)
      have h3 : r + 1 ≠ N := by rw [← h2]; exact h1
      simp only [h2, h3, if_false]
      exact ih (r + 1) (by omega) (by omega)

/-- A write of `data` followed by the carriage return that returns false has
sent a proper prefix of the bytes it was to send. -/
theorem writeAll_false_sent_before (N : Nat) :
    ∀ (data : List Nat) (ready : List Bool) (sent : List Nat),
      (writeAll N data ready sent).result = some false →
      ∃ j, j < (data.map (· % 256) ++ [CARRIAGE_RETURN]).length ∧
        (writeAll N data ready sent).sent
          = sent ++ (data.map (· % 256) ++ [CARRIAGE_RETURN]).take j := by
  intro data
  induction data with
  | nil =>
    intro ready sent h
    rw [writeAll, sequansControllerWriteByte] at h ⊢
    have hs := (writeByteLoop_sent N CARRIAGE_RETURN ready 0 sent).2 (by rw [h]; simp)
    exact ⟨0, by simp, by simpa using hs⟩
  | cons b data ih =>
    intro ready sent h
    have hs := writeByteLoop_sent N b ready 0 sent
    rw [writeAll, sequansControllerWriteByte] at h ⊢
    generalize writeByteLoop N b ready 0 sent = run at h hs ⊢
    obtain ⟨res, ready1, sent1⟩ := run
    cases res with
    | none => simp at h
    | some ok =>
      cases ok with
      | false =>
        have h1 : sent1 = sent := by simpa using hs.2
        exact ⟨0, by simp, by simp [h1]⟩
      | true =>
        have hsent : sent1 = sent ++ [b % 256] := by simpa using hs.1
        simp only at h ⊢
        obtain ⟨j, hj, hj2⟩ := ih ready1 sent1 h
        refine ⟨j + 1, by simpa using hj, ?_⟩
        rw [hj2, hsent]
        simp

/-- When the first `gaps.length` bytes find the transmitter ready in time and
the next one does not, the write returns false with exactly those bytes sent. -/
theorem writeAll_fails_at (N : Nat) (hN : N < 256) (rest : List Bool) :
    ∀ (data gaps : List Nat) (sent : List Nat), gaps.length ≤ data.length →
      (∀ g ∈ gaps, g < retryBudget N) →
      writeAll N data
          (readyAfter gaps ++ (List.replicate (retryBudget N) false ++ rest)) sent
        = ⟨some false, rest,
            sent ++ (data.map (· % 256) ++ [CARRIAGE_RETURN]).take gaps.length⟩ := by
  intro data
  induction data with
  | nil =>
    intro gaps sent hlen _
    have hg : gaps = [] := by simpa using hlen
    subst hg
    have : readyAfter [] = [] := rfl
    rw [this, List.nil_append, writeAll, sequansControllerWriteByte,
      writeByteLoop_gives_up N _ hN rest sent (retryBudget N) 0 (by omega) (retryBudget_pos N)]
    simp
  | cons b data ih =>
    intro gaps sent hlen hg
    cases gaps with
    | nil =>
      have : readyAfter [] = [] := rfl
      rw [this, List.nil_append, writeAll, sequansControllerWriteByte,
        writeByteLoop_gives_up N _ hN rest sent (retryBudget N) 0 (by omega) (retryBudget_pos N)]
      simp
    | cons g gs =>
      have hb := hg g (List.mem_cons_self _ _)
      rw [writeAll, sequansControllerWriteByte, readyAfter_cons, List.append_assoc,
        List.cons_append,
        writeByteLoop_ready N _ hN _ sent g 0 (by omega)]
      simp only
      rw [ih gs (sent ++ [b % 256]) (by simpa using hlen)
        (fun x hx => hg x (List.mem_cons_of_mem _ hx))]
      simp

/-! ## Timeouts of the two readers -/

/-- An iteration of the response reader that takes a byte either goes on with
the rest of the schedule or stops with a result other than TIMEOUT, whatever
the rest of the schedule is. -/
theorem readLoop_byte_cases (N cap b : Nat) (buf : List Nat) (i r : Nat) (hi : i < cap) :
    (∀ t, readLoop N cap (some b :: t) buf i r
        = readLoop N cap t (buf.set i (b % 256)) (i + 1) 0) ∨
    (∃ run : ReadRun, run.result ≠ .polling ∧ run.result ≠ .returned .TIMEOUT ∧
      ∀ t, readLoop N cap (some b :: t) buf i r = run) := by
  by_cases hc : 1 ≤ i ∧ (buf.set i (b % 256))[i - 1]? = some CARRIAGE_RETURN ∧
      (buf.set i (b % 256))[i]? = some LINE_FEED
  · cases h1 : strstr OK_TERMINATION (buf.set i (b % 256)) with
    | none =>
      right
      exact ⟨⟨.undefined, buf.set i (b % 256), i + 1, 0⟩, by simp, by simp,
        fun t => by rw [readLoop]; simp only [hi, if_true, hc, and_self, h1]⟩
    | some o =>
      cases o with
      | some k =>
        right
        by_cases hk : k ≤ cap
        · exact ⟨⟨.returned .OK, memsetZero (buf.set i (b % 256)) k (cap - k), i + 1, 0⟩,
            by simp, by simp,
            fun t => by rw [readLoop]; simp only [hi, if_true, hc, and_self, h1, hk]⟩
        · exact ⟨⟨.undefined, buf.set i (b % 256), i + 1, 0⟩, by simp, by simp,
            fun t => by rw [readLoop]; simp only [hi, if_true, hc, and_self, h1, hk, if_false]⟩
      | none =>
        cases h2 : strstr ERROR_TERMINATION (buf.set i (b % 256)) with
        | none =>
          right
          exact ⟨⟨.undefined, buf.set i (b % 256), i + 1, 0⟩, by simp, by simp,
            fun t => by rw [readLoop]; simp only [hi, if_true, hc, and_self, h1, h2]⟩
        | some o =>
          cases o with
          | some k =>
            right
            by_cases hk : k ≤ cap
            · exact ⟨⟨.returned .ERROR, memsetZero (buf.set i (b % 256)) k (cap - k), i + 1, 0⟩,
                by simp, by simp,
                fun t => by rw [readLoop]; simp only [hi, if_true, hc, and_self, h1, h2, hk]⟩
            · exact ⟨⟨.undefined, buf.set i (b % 256), i + 1, 0⟩, by simp, by simp,
                fun t => by
                  rw [readLoop]; simp only [hi, if_true, hc, and_self, h1, h2, hk, if_false]⟩
          | none =>
            left
            intro t
            rw [readLoop]; simp only [hi, if_true, hc, and_self, h1, h2]
  · left
    intro t
    rw [readLoop]; simp only [hi, if_true, hc, if_false]

theorem readLoop_full (N cap : Nat) (sched : List (Option Nat)) (buf : List Nat) (i r : Nat)
    (hi : ¬ i < cap) :
    readLoop N cap sched buf i r = ⟨.returned .BUFFER_OVERFLOW, buf, i, r⟩ := by
  cases sched with
  | nil => rw [readLoop]; simp only [hi, if_false]
  | cons o t =>
    cases o with
    | none => rw [readLoop]; simp only [hi, if_false]
    | some b => rw [readLoop]; simp only [hi, if_false]

theorem readLoop_none_step (N cap : Nat) (t : List (Option Nat)) (buf : List Nat) (i r : Nat)
    (hi : i < cap) (hm : (r + 1) % 256 ≠ N) :
    readLoop N cap (none :: t) buf i r = readLoop N cap t buf i ((r + 1) % 256) := by
  rw [readLoop]; simp only [hi, if_true, hm, if_false]

theorem readLoop_none_timeout (N cap : Nat) (t : List (Option Nat)) (buf : List Nat) (i r : Nat)
    (hi : i < cap) (hm : (r + 1) % 256 = N) :
    readLoop N cap (none :: t) buf i r = ⟨.returned .TIMEOUT, buf, i, (r + 1) % 256⟩ := by
  rw [readLoop]; simp only [hi, if_true, hm]

/-- A run that is still polling at the end of a schedule goes on from there
when the schedule is extended. -/
theorem readLoop_append (N cap : Nat) (rest : List (Option Nat)) :
    ∀ (pre : List (Option Nat)) (buf : List Nat) (i r : Nat),
      (readLoop N cap pre buf i r).result = .polling →
      readLoop N cap (pre ++ rest) buf i r
        = readLoop N cap rest (readLoop N cap pre buf i r).out_buffer
            (readLoop N cap pre buf i r).consumed (readLoop N cap pre buf i r).retry_count := by
  intro pre
  induction pre with
  | nil =>
    intro buf i r h
    by_cases hi : i < cap
    · simp [readLoop, hi]
    · rw [readLoop_full N cap [] buf i r hi] at h
      simp at h
  | cons o t ih =>
    intro buf i r h
    by_cases hi : i < cap
    · cases o with
      | none =>
        by_cases hm : (r + 1) % 256 = N
        · rw [readLoop_none_timeout N cap t buf i r hi hm] at h
          simp at h
        · rw [readLoop_none_step N cap t buf i r hi hm] at h ⊢
          rw [List.cons_append, readLoop_none_step N cap _ buf i r hi hm]
          exact ih buf i _ h
      | some b =>
        rcases readLoop_byte_cases N cap b buf i r hi with hgo | ⟨run, h1, _, hrun⟩
        · rw [hgo t] at h ⊢
          rw [List.cons_append, hgo]
          exact ih _ _ _ h
        · rw [hrun t] at h
          exact absurd h h1
    · rw [readLoop_full N cap _ buf i r hi] at h
      simp at h

theorem readLoop_polling_inv (N cap : Nat) (hN : N < 256) :
    ∀ (sched : List (Option Nat)) (buf : List Nat) (i r : Nat), r < N →
      (readLoop N cap sched buf i r).result = .polling →
      (readLoop N cap sched buf i r).consumed < cap ∧
      (readLoop N cap sched buf i r).retry_count < N := by
  intro sched
  induction sched with
  | nil =>
    intro buf i r hr h
    by_cases hi : i < cap
    · simp [readLoop, hi, hr]
    · rw [readLoop_full N cap [] buf i r hi] at h
      simp at h
  | cons o t ih =>
    intro buf i r hr h
    by_cases hi : i < cap
    · cases o with
      | none =>
        by_cases hm : (r + 1) % 256 = N
        · rw [readLoop_none_timeout N cap t buf i r hi hm] at h
          simp at h
        · rw [readLoop_none_step N cap t buf i r hi hm] at h ⊢
          exact ih buf i _ (by omega) h
      | some b =>
        rcases readLoop_byte_cases N cap b buf i r hi with hgo | ⟨run, h1, _, hrun⟩
        · rw [hgo t] at h ⊢
          exact ih _ _ _ (by omega) h
        · rw [hrun t] at h
          exact absurd h h1
    · rw [readLoop_full N cap _ buf i r hi] at h
      simp at h

theorem readLoop_nones_timeout (N cap : Nat) (hN : N < 256) (rest : List (Option Nat))
    (buf : List Nat) (i : Nat) (hi : i < cap) :
    ∀ (m r : Nat), r + m = N → 1 ≤ m →
      (readLoop N cap (List.replicate m none ++ rest) buf i r).result
        = .returned .TIMEOUT := by
  intro m
  induction m with
  | zero => intro r _ h; omega
  | succ m ih =>
    intro r hrm _
    rw [List.replicate_succ, List.cons_append]
    by_cases hm : m = 0
    · subst hm
      rw [readLoop_none_timeout N cap _ buf i r hi (by omega)]
    · rw [readLoop_none_step N cap _ buf i r hi (by omega)]
      have : (r + 1) % 256 = r + 1 := by omega
      rw [this]
      exact ih (r + 1) (by omega) (by omega)

theorem readLoop_timeout_split (N cap : Nat) (hN : N < 256) :
    ∀ (sched : List (Option Nat)) (buf : List Nat) (i r : Nat), r < N →
      (readLoop N cap sched buf i r).result = .returned .TIMEOUT →
      (∃ rest, sched = List.replicate (N - r) none ++ rest ∧ i < cap) ∨
      (∃ pre rest, sched = pre ++ List.replicate N none ++ rest ∧
        (readLoop N cap pre buf i r).result = .polling) := by
  intro sched
  induction sched with
  | nil =>
    intro buf i r _ h
    by_cases hi : i < cap
    · simp [readLoop, hi] at h
    · rw [readLoop_full N cap [] buf i r hi] at h
      simp at h
  | cons o t ih =>
    intro buf i r hr h
    by_cases hi : i < cap
    · cases o with
      | none =>
        by_cases hm : (r + 1) % 256 = N
        · left
          have : N - r = 1 := by omega
          exact ⟨t, by rw [this]; rfl, hi⟩
        · rw [readLoop_none_step N cap t buf i r hi hm] at h
          have hr1 : (r + 1) % 256 = r + 1 := by omega
          rw [hr1] at h
          rcases ih buf i (r + 1) (by omega) h with ⟨rest, h1, _⟩ | ⟨pre, rest, h1, h2⟩
          · left
            refine ⟨rest, ?_, hi⟩
            have : N - r = (N - (r + 1)) + 1 := by omega
            rw [this, List.replicate_succ, List.cons_append, h1]
          · right
            refine ⟨none :: pre, rest, by rw [h1]; simp, ?_⟩
            rw [readLoop_none_step N cap pre buf i r hi hm, hr1]
            exact h2
      | some b =>
        rcases readLoop_byte_cases N cap b buf i r hi with hgo | ⟨run, _, h1, hrun⟩
        · rw [hgo t] at h
          rcases ih _ (i + 1) 0 (by omega) h with ⟨rest, h1, hi1⟩ | ⟨pre, rest, h1, h2⟩
          · right
            refine ⟨[some b], rest, by rw [h1]; simp, ?_⟩
            rw [hgo []]
            simp [readLoop, hi1]
          · right
            refine ⟨some b :: pre, rest, by rw [h1]; simp, ?_⟩
            rw [hgo pre]
            exact h2
        · rw [hrun t] at h
          exact absurd h h1
    · rw [readLoop_full N cap _ buf i r hi] at h
      simp at h

/-- The response reader returns TIMEOUT exactly when the schedule holds `N`
consecutive empty polls at whose start the call is still polling. -/
theorem readResponse_timeout_iff (N cap : Nat) (buf : List Nat) (sched : List (Option Nat))
    (h1 : 1 ≤ N) (hN : N < 256) :
    (sequansControllerReadResponse N buf cap sched).result = .returned .TIMEOUT ↔
    ∃ pre rest, sched = pre ++ List.replicate N none ++ rest ∧
      (sequansControllerReadResponse N buf cap pre).result = .polling := by
  unfold sequansControllerReadResponse
  constructor
  · intro h
    rcases readLoop_timeout_split N cap hN sched buf 0 0 (by omega) h with
      ⟨rest, h1, hi⟩ | ⟨pre, rest, h1, h2⟩
    · exact ⟨[], rest, by simpa using h1, by simp [readLoop, hi]⟩
    · exact ⟨pre, rest, h1, h2⟩
  · rintro ⟨pre, rest, rfl, hp⟩
    obtain ⟨hc, hr⟩ := readLoop_polling_inv N cap hN pre buf 0 0 (by omega) hp
    rw [List.append_assoc, readLoop_append N cap _ pre buf 0 0 hp]
    generalize (readLoop N cap pre buf 0 0).retry_count = r at hr
    have hsplit : List.replicate N (none : Option Nat) ++ rest
        = List.replicate (N - r) none ++ (List.replicate r none ++ rest) := by
      rw [← List.append_assoc, ← List.replicate_add]
      congr 2; omega
    rw [hsplit]
    exact readLoop_nones_timeout N cap hN _ _ _ hc (N - r) r (by omega) (by omega)

/-- An iteration of the flush reader that takes a byte either goes on with the
rest of the schedule or stops with a result other than TIMEOUT. -/
theorem flushLoop_byte_cases (N b : Nat) (tb : List Nat) (n r : Nat) (hr : r < N) :
    (∀ t, flushLoop N (some b :: t) tb n r = flushLoop N t (shiftIn tb b) (n + 1) 0) ∨
    (∃ run : FlushRun, run.result ≠ .polling ∧ run.result ≠ .returned .TIMEOUT ∧
      ∀ t, flushLoop N (some b :: t) tb n r = run) := by
  by_cases hc : (shiftIn tb b)[5]? = some CARRIAGE_RETURN ∧
      (shiftIn tb b)[6]? = some LINE_FEED
  · cases h1 : strstr OK_TERMINATION (shiftIn tb b) with
    | none =>
      right
      exact ⟨⟨.undefined, shiftIn tb b, n + 1, 0⟩, by simp, by simp,
        fun t => by rw [flushLoop]; simp only [hr, if_true, hc, and_self, h1]⟩
    | some o =>
      cases o with
      | some k =>
        right
        exact ⟨⟨.returned .OK, shiftIn tb b, n + 1, 0⟩, by simp, by simp,
          fun t => by rw [flushLoop]; simp only [hr, if_true, hc, and_self, h1]⟩
      | none =>
        cases h2 : strstr ERROR_TERMINATION (shiftIn tb b) with
        | none =>
          right
          exact ⟨⟨.undefined, shiftIn tb b, n + 1, 0⟩, by simp, by simp,
            fun t => by rw [flushLoop]; simp only [hr, if_true, hc, and_self, h1, h2]⟩
        | some o =>
          cases o with
          | some k =>
            right
            exact ⟨⟨.returned .ERROR, shiftIn tb b, n + 1, 0⟩, by simp, by simp,
              fun t => by rw [flushLoop]; simp only [hr, if_true, hc, and_self, h1, h2]⟩
          | none =>
            left
            intro t
            rw [flushLoop]; simp only [hr, if_true, hc, and_self, h1, h2]
  · left
    intro t
    rw [flushLoop]; simp only [hr, if_true, hc, if_false]

theorem flushLoop_spent (N : Nat) (sched : List (Option Nat)) (tb : List Nat) (n r : Nat)
    (hr : ¬ r < N) :
    flushLoop N sched tb n r = ⟨.returned .TIMEOUT, tb, n, r⟩ := by
  cases sched with
  | nil => rw [flushLoop]; simp only [hr, if_false]
  | cons o t =>
    cases o with
    | none => rw [flushLoop]; simp only [hr, if_false]
    | some b => rw [flushLoop]; simp only [hr, if_false]

theorem flushLoop_none_step (N : Nat) (t : List (Option Nat)) (tb : List Nat) (n r : Nat)
    (hr : r < N) :
    flushLoop N (none :: t) tb n r = flushLoop N t tb n ((r + 1) % 256) := by
  rw [flushLoop]; simp only [hr, if_true]

theorem flushLoop_append (N : Nat) (rest : List (Option Nat)) :
    ∀ (pre : List (Option Nat)) (tb : List Nat) (n r : Nat),
      (flushLoop N pre tb n r).result = .polling →
      flushLoop N (pre ++ rest) tb n r
        = flushLoop N rest (flushLoop N pre tb n r).termination_buffer
            (flushLoop N pre tb n r).consumed (flushLoop N pre tb n r).retry_count := by
  intro pre
  induction pre with
  | nil =>
    intro tb n r h
    by_cases hr : r < N
    · simp [flushLoop, hr]
    · rw [flushLoop_spent N [] tb n r hr] at h
      simp at h
  | cons o t ih =>
    intro tb n r h
    by_cases hr : r < N
    · cases o with
      | none =>
        rw [flushLoop_none_step N t tb n r hr] at h ⊢
        rw [List.cons_append, flushLoop_none_step N _ tb n r hr]
        exact ih tb n _ h
      | some b =>
        rcases flushLoop_byte_cases N b tb n r hr with hgo | ⟨run, h1, _, hrun⟩
        · rw [hgo t] at h ⊢
          rw [List.cons_append, hgo]
          exact ih _ _ _ h
        · rw [hrun t] at h
          exact absurd h h1
    · rw [flushLoop_spent N _ tb n r hr] at h
      simp at h

theorem flushLoop_polling_inv (N : Nat) :
    ∀ (sched : List (Option Nat)) (tb : List Nat) (n r : Nat),
      (flushLoop N sched tb n r).result = .polling →
      (flushLoop N sched tb n r).retry_count < N := by
  intro sched
  induction sched with
  | nil =>
    intro tb n r h
    by_cases hr : r < N
    · simp [flushLoop, hr]
    · rw [flushLoop_spent N [] tb n r hr] at h
      simp at h
  | cons o t ih =>
    intro tb n r h
    by_cases hr : r < N
    · cases o with
      | none =>
        rw [flushLoop_none_step N t tb n r hr] at h ⊢
        exact ih tb n _ h
      | some b =>
        rcases flushLoop_byte_cases N b tb n r hr with hgo | ⟨run, h1, _, hrun⟩
        · rw [hgo t] at h ⊢
          exact ih _ _ _ h
        · rw [hrun t] at h
          exact absurd h h1
    · rw [flushLoop_spent N _ tb n r hr] at h
      simp at h

theorem flushLoop_nones_timeout (N : Nat) (hN : N < 256) (rest : List (Option Nat))
    (tb : List Nat) (n : Nat) :
    ∀ (m r : Nat), r + m = N →
      (flushLoop N (List.replicate m none ++ rest) tb n r).result = .returned .TIMEOUT := by
  intro m
  induction m with
  | zero =>
    intro r hrm
    rw [flushLoop_spent N _ tb n r (by omega)]
  | succ m ih =>
    intro r hrm
    rw [List.replicate_succ, List.cons_append, flushLoop_none_step N _ tb n r (by omega)]
    have : (r + 1) % 256 = r + 1 := by omega
    rw [this]
    exact ih (r + 1) (by omega)

theorem flushLoop_timeout_split (N : Nat) (hN : N < 256) :
    ∀ (sched : List (Option Nat)) (tb : List Nat) (n r : Nat), r < N →
      (flushLoop N sched tb n r).result = .returned .TIMEOUT →
      (∃ rest, sched = List.replicate (N - r) none ++ rest) ∨
      (∃ pre rest, sched = pre ++ List.replicate N none ++ rest ∧
        (flushLoop N pre tb n r).result = .polling) := by
  intro sched
  induction sched with
  | nil =>
    intro tb n r hr h
    simp [flushLoop, hr] at h
  | cons o t ih =>
    intro tb n r hr h
    cases o with
    | none =>
      have hr1 : (r + 1) % 256 = r + 1 := by omega
      rw [flushLoop_none_step N t tb n r hr, hr1] at h
      by_cases hm : r + 1 = N
      · left
        have : N - r = 1 := by omega
        exact ⟨t, by rw [this]; rfl⟩
      · rcases ih tb n (r + 1) (by omega) h with ⟨rest, h1⟩ | ⟨pre, rest, h1, h2⟩
        · left
          refine ⟨rest, ?_⟩
          have : N - r = (N - (r + 1)) + 1 := by omega
          rw [this, List.replicate_succ, List.cons_append, h1]
        · right
          refine ⟨none :: pre, rest, by rw [h1]; simp, ?_⟩
          rw [flushLoop_none_step N pre tb n r hr, hr1]
          exact h2
    | some b =>
      rcases flushLoop_byte_cases N b tb n r hr with hgo | ⟨run, _, h1, hrun⟩
      · rw [hgo t] at h
        rcases ih _ (n + 1) 0 (by omega) h with ⟨rest, h1⟩ | ⟨pre, rest, h1, h2⟩
        · right
          refine ⟨[some b], rest, by rw [h1]; simp, ?_⟩
          rw [hgo []]
          have : 0 < N := by omega
          simp [flushLoop, this]
        · right
          refine ⟨some b :: pre, rest, by rw [h1]; simp, ?_⟩
          rw [hgo pre]
          exact h2
      · rw [hrun t] at h
        exact absurd h h1

/-- The flush reader returns TIMEOUT exactly when the schedule holds `N`
consecutive empty polls at whose start the call is still polling. -/
theorem flushResponse_timeout_iff (N : Nat) (sched : List (Option Nat))
    (h1 : 1 ≤ N) (hN : N < 256) :
    (sequansControllerFlushResponse N sched).result = .returned .TIMEOUT ↔
    ∃ pre rest, sched = pre ++ List.replicate N none ++ rest ∧
      (sequansControllerFlushResponse N pre).result = .polling := by
  unfold sequansControllerFlushResponse
  constructor
  · intro h
    rcases flushLoop_timeout_split N hN sched _ 0 0 (by omega) h with
      ⟨rest, h1⟩ | ⟨pre, rest, h1, h2⟩
    · have : 0 < N := by omega
      exact ⟨[], rest, by simpa using h1, by simp [flushLoop, this]⟩
    · exact ⟨pre, rest, h1, h2⟩
  · rintro ⟨pre, rest, rfl, hp⟩
    have hr := flushLoop_polling_inv N pre _ 0 0 hp
    rw [List.append_assoc, flushLoop_append N _ pre _ 0 0 hp]
    generalize (flushLoop N pre _ 0 0).retry_count = r at hr
    have hsplit : List.replicate N (none : Option Nat) ++ rest
        = List.replicate (N - r) none ++ (List.replicate r none ++ rest) := by
      rw [← List.append_assoc, ← List.replicate_add]
      congr 2; omega
    rw [hsplit]
    exact flushLoop_nones_timeout N hN _ _ _ (N - r) r (by omega)

/-! ## The retry budget of the three blocking operations -/

/-- With a retry count `n` from 1 to 255 set, on a link that never becomes
ready each of the three operations gives up at the `n`-th not-ready poll and
not before. -/
theorem retry_budget_uniform (n d data cap : Nat) (buf : List Nat) (sent : List Nat)
    (rx : List (Option Nat)) (tx : List Bool) (k : Nat)
    (h1 : 1 ≤ n) (hn : n < 256) (hcap : 0 < cap) (hk : k < n) :
    (sequansControllerSetRetryConfiguration n d).number_of_retries = n ∧
    sequansControllerWriteByte n data (List.replicate n false ++ tx) sent
      = ⟨some false, tx, sent⟩ ∧
    (sequansControllerWriteByte n data (List.replicate k false) sent).result = none ∧
    (sequansControllerReadResponse n buf cap (List.replicate n none ++ rx)).result
      = .returned .TIMEOUT ∧
    (sequansControllerReadResponse n buf cap (List.replicate k none)).result = .polling ∧
    (sequansControllerFlushResponse n (List.replicate n none ++ rx)).result
      = .returned .TIMEOUT ∧
    (sequansControllerFlushResponse n (List.replicate k none)).result = .polling := by
  have hb : retryBudget n = n := by unfold retryBudget; split <;> omega
  refine ⟨?_, ?_, ?_, ?_, ?_, ?_, ?_⟩
  · simp [sequansControllerSetRetryConfiguration]; omega
  · have := writeByteLoop_gives_up n data hn tx sent n 0 (by omega) h1
    exact this
  · have hf := writeByteLoop_false_iff n data hn (List.replicate k false) 0 sent (by omega)
    have ht := writeByteLoop_true_iff n data hn (List.replicate k false) 0 sent (by omega)
    unfold sequansControllerWriteByte
    cases hres : (writeByteLoop n data (List.replicate k false) 0 sent).result with
    | none => rfl
    | some b =>
      exfalso
      cases b with
      | false =>
        have := (hf.mp hres).length_le
        simp at this
        omega
      | true =>
        obtain ⟨j, _, hj⟩ := ht.mp hres
        rw [List.getElem?_replicate] at hj
        split at hj <;> simp at hj
  · exact readLoop_nones_timeout n cap hn rx buf 0 hcap n 0 (by omega) h1
  · have hpre : ∀ (m r : Nat), r + m < n →
        (readLoop n cap (List.replicate m none) buf 0 r).result = .polling := by
      intro m
      induction m with
      | zero => intro r _; simp [readLoop, hcap]
      | succ m ih =>
        intro r hr
        rw [List.replicate_succ, readLoop_none_step n cap _ buf 0 r hcap (by omega)]
        have : (r + 1) % 256 = r + 1 := by omega
        rw [this]
        exact ih (r + 1) (by omega)
    exact hpre k 0 (by omega)
  · exact flushLoop_nones_timeout n hn rx _ 0 n 0 (by omega)
  · have hpre : ∀ (m r : Nat) (tb : List Nat), r + m < n →
        (flushLoop n (List.replicate m none) tb 0 r).result = .polling := by
      intro m
      induction m with
      | zero =>
        intro r tb hr
        have : r < n := by omega
        simp [flushLoop, this]
      | succ m ih =>
        intro r tb hr
        rw [List.replicate_succ, flushLoop_none_step n _ tb 0 r (by omega)]
        have : (r + 1) % 256 = r + 1 := by omega
        rw [this]
        exact ih (r + 1) tb (by omega)
    exact hpre k 0 _ (by omega)

/-! ## Contents of the buffer when the reader reports a terminator -/

theorem prefix_of_append_zeros {needle xs : List Nat} (hn : ∀ x ∈ needle, x ≠ 0) (n : Nat)
    (h : needle <+: xs ++ List.replicate n 0) : needle <+: xs := by
  cases n with
  | zero => simpa using h
  | succ n =>
    rw [List.replicate_succ] at h
    exact prefix_of_append_zero hn h

theorem match_in_filled {needle recv : List Nat} {cap k : Nat} (hne : needle ≠ [])
    (hn : ∀ x ∈ needle, x ≠ 0) (hlen : recv.length ≤ cap)
    (h : strstr needle (filled cap recv) = some (some k)) :
    k + needle.length ≤ recv.length ∧ needle <+: recv.drop k ∧
    memsetZero (filled cap recv) k (cap - k) = recv.take k ++ List.replicate (cap - k) 0 := by
  obtain ⟨hp, _⟩ := strstr_found h
  unfold filled at hp
  rw [List.drop_append_eq_append_drop] at hp
  have hp2 : needle <+: recv.drop k := by
    have : List.drop (k - recv.length) (List.replicate (cap - recv.length) 0)
        = List.replicate (cap - recv.length - (k - recv.length)) 0 := by
      simp
    rw [this] at hp
    exact prefix_of_append_zeros hn _ hp
  have hk : k + needle.length ≤ recv.length := by
    have h1 := hp2.length_le
    have h2 : 0 < needle.length := List.length_pos.mpr hne
    rw [List.length_drop] at h1
    omega
  refine ⟨hk, hp2, ?_⟩
  unfold memsetZero
  have hfl : (filled cap recv).length = cap := filled_length hlen
  have h3 : (filled cap recv).drop (k + (cap - k)) = [] := by
    apply List.drop_eq_nil_of_le
    omega
  have h4 : (filled cap recv).take k = recv.take k := by
    unfold filled
    rw [List.take_append_of_le_length (by omega)]
  rw [h3, h4, List.append_nil]

/-- On a zero-initialised buffer, a run that reports OK or ERROR leaves the
bytes received before the match in place and zeroes from the match on. -/
theorem readLoop_null_clean (N cap : Nat) :
    ∀ (sched : List (Option Nat)) (recv : List Nat) (r : Nat), recv.length ≤ cap →
      ((readLoop N cap sched (filled cap recv) recv.length r).result = .returned .OK →
        ∃ k, OK_TERMINATION <+: (recv ++ received sched).drop k ∧
          k + OK_TERMINATION.length
            ≤ (readLoop N cap sched (filled cap recv) recv.length r).consumed ∧
          (readLoop N cap sched (filled cap recv) recv.length r).out_buffer
            = (recv ++ received sched).take k ++ List.replicate (cap - k) 0) ∧
      ((readLoop N cap sched (filled cap recv) recv.length r).result = .returned .ERROR →
        ∃ k, ERROR_TERMINATION <+: (recv ++ received sched).drop k ∧
          k + ERROR_TERMINATION.length
            ≤ (readLoop N cap sched (filled cap recv) recv.length r).consumed ∧
          (readLoop N cap sched (filled cap recv) recv.length r).out_buffer
            = (recv ++ received sched).take k ++ List.replicate (cap - k) 0) := by
  intro sched
  induction sched with
  | nil =>
    intro recv r _
    by_cases hi : recv.length < cap
    · simp [readLoop, hi]
    · rw [readLoop_full N cap [] _ _ r hi]; simp
  | cons o t ih =>
    intro recv r hle
    by_cases hi : recv.length < cap
    · cases o with
      | none =>
        have hrec : received (none :: t) = received t := by simp [received]
        rw [hrec]
        by_cases hm : (r + 1) % 256 = N
        · rw [readLoop_none_timeout N cap t _ _ r hi hm]; simp
        · rw [readLoop_none_step N cap t _ _ r hi hm]
          exact ih recv _ hle
      | some b =>
        have hrec : recv ++ received (some b :: t) = (recv ++ [b % 256]) ++ received t := by
          simp [received]
        have hle' : (recv ++ [b % 256]).length ≤ cap := by simp; omega
        have hlen' : (recv ++ [b % 256]).length = recv.length + 1 := by simp
        have hstop : ∀ (needle : List Nat) (k : Nat), needle ≠ [] → (∀ x ∈ needle, x ≠ 0) →
            strstr needle (filled cap (recv ++ [b % 256])) = some (some k) →
            ∃ k', needle <+: (recv ++ received (some b :: t)).drop k' ∧
              k' + needle.length ≤ recv.length + 1 ∧
              memsetZero (filled cap (recv ++ [b % 256])) k (cap - k)
                = (recv ++ received (some b :: t)).take k' ++ List.replicate (cap - k') 0 := by
          intro needle k hne hn hs
          obtain ⟨m1, m2, m3⟩ := match_in_filled hne hn hle' hs
          refine ⟨k, ?_, by omega, ?_⟩
          · rw [hrec, List.drop_append_of_le_length (by omega)]
            exact m2.trans (List.prefix_append _ _)
          · rw [hrec, List.take_append_of_le_length (by omega)]
            exact m3
        have hgo := ih (recv ++ [b % 256]) 0 hle'
        rw [hlen', ← hrec] at hgo
        rw [readLoop]
        simp only [hi, if_true, filled_set _ hi]
        split
        · split
          · simp
          · rename_i k hs
            split
            · simpa using hstop OK_TERMINATION k (by simp) (by simp) hs
            · simp
          · split
            · simp
            · rename_i k hs
              split
              · simpa using hstop ERROR_TERMINATION k (by simp) (by simp) hs
              · simp
            · exact hgo
        · exact hgo
    · rw [readLoop_full N cap _ _ _ r hi]; simp

/-! ## The reported terminator ends the bytes consumed -/

/-- One iteration of the reader that takes a byte, on a zero-initialised buffer,
written out in terms of the bytes received. -/
theorem readLoop_byte_unfold (N cap : Nat) (recv : List Nat) (b : Nat)
    (t : List (Option Nat)) (r : Nat) (hi : recv.length < cap) :
    readLoop N cap (some b :: t) (filled cap recv) recv.length r =
      if [CARRIAGE_RETURN, LINE_FEED] <:+ recv ++ [b % 256] then
        match strstr OK_TERMINATION (filled cap (recv ++ [b % 256])) with
        | none => ⟨.undefined, filled cap (recv ++ [b % 256]), recv.length + 1, 0⟩
        | some (some k) =>
          if k ≤ cap then
            ⟨.returned .OK, memsetZero (filled cap (recv ++ [b % 256])) k (cap - k),
              recv.length + 1, 0⟩
          else ⟨.undefined, filled cap (recv ++ [b % 256]), recv.length + 1, 0⟩
        | some none =>
          match strstr ERROR_TERMINATION (filled cap (recv ++ [b % 256])) with
          | none => ⟨.undefined, filled cap (recv ++ [b % 256]), recv.length + 1, 0⟩
          | some (some k) =>
            if k ≤ cap then
              ⟨.returned .ERROR, memsetZero (filled cap (recv ++ [b % 256])) k (cap - k),
                recv.length + 1, 0⟩
            else ⟨.undefined, filled cap (recv ++ [b % 256]), recv.length + 1, 0⟩
          | some none => readLoop N cap t (filled cap (recv ++ [b % 256])) (recv.length + 1) 0
      else readLoop N cap t (filled cap (recv ++ [b % 256])) (recv.length + 1) 0 := by
  rw [readLoop]
  simp only [hi, if_true, filled_set _ hi, crlf_test_iff]

theorem strstr_finds_visible {needle : List Nat} (hne : needle ≠ []) :
    ∀ (buf : List Nat) (k : Nat), needle <+: buf.drop k → 0 ∉ buf.take k →
      ∃ k1, k1 ≤ k ∧ strstr needle buf = some (some k1) := by
  intro buf
  induction buf with
  | nil =>
    intro k h _
    simp at h
    exact absurd h hne
  | cons b m ih =>
    intro k h hz
    by_cases hp : needle <+: b :: m
    · exact ⟨0, Nat.zero_le _, by simp [strstr, hp]⟩
    · cases k with
      | zero => simp at h; exact absurd h hp
      | succ k =>
        have hb : b ≠ 0 := by
          intro e
          apply hz
          simp [e]
        have hz' : 0 ∉ m.take k := by
          intro e
          apply hz
          simp [e]
        obtain ⟨k1, hk1, hs⟩ := ih k (by simpa using h) hz'
        exact ⟨k1 + 1, by omega, by simp [strstr, hp, hb, hs]⟩

/-- An occurrence of a needle in `recv ++ [v]` lies inside `recv` or ends the
list. -/
theorem occurrence_old_or_tail {needle recv : List Nat} {v k : Nat} (hne : needle ≠ [])
    (h : needle <+: (recv ++ [v]).drop k) :
    (needle <+: recv.drop k ∧ k + needle.length ≤ recv.length) ∨
    (needle <:+ recv ++ [v] ∧ k + needle.length = recv.length + 1) := by
  have hlen := h.length_le
  have hpos : 0 < needle.length := List.length_pos.mpr hne
  simp only [List.length_drop, List.length_append, List.length_singleton] at hlen
  by_cases hk : k + needle.length ≤ recv.length
  · left
    refine ⟨?_, hk⟩
    rw [List.drop_append_of_le_length (by omega)] at h
    exact List.prefix_of_prefix_length_le h (List.prefix_append _ _)
      (by rw [List.length_drop]; omega)
  · right
    have hk2 : k + needle.length = recv.length + 1 := by omega
    refine ⟨?_, hk2⟩
    have heq : needle = (recv ++ [v]).drop k := by
      apply List.IsPrefix.eq_of_length h
      simp only [List.length_drop, List.length_append, List.length_singleton]
      omega
    rw [heq]
    exact List.drop_suffix _ _

theorem filled_take {cap : Nat} {recv : List Nat} {k : Nat} (hk : k ≤ recv.length) :
    (filled cap recv).take k = recv.take k := by
  unfold filled
  rw [List.take_append_of_le_length hk]

/-- When every earlier occurrence of the needle is hidden behind a zero byte, a
match the scan finds after one more byte ends the bytes received. -/
theorem found_is_tail {needle recv : List Nat} {v cap k : Nat} (hne : needle ≠ [])
    (hn : ∀ x ∈ needle, x ≠ 0) (hle : (recv ++ [v]).length ≤ cap)
    (hid : ∀ j, needle <+: recv.drop j → 0 ∈ recv.take j)
    (hs : strstr needle (filled cap (recv ++ [v])) = some (some k)) :
    needle <:+ recv ++ [v] := by
  obtain ⟨m1, m2, _⟩ := match_in_filled hne hn hle hs
  obtain ⟨_, hz⟩ := strstr_found hs
  rw [filled_take (by omega)] at hz
  rcases occurrence_old_or_tail hne m2 with ⟨h1, h2⟩ | ⟨h1, _⟩
  · exfalso
    have h0 := hid k h1
    have : (recv ++ [v]).take k = recv.take k := List.take_append_of_le_length (by omega)
    rw [this] at hz
    exact hz 0 h0 rfl
  · exact h1

/-- The reader goes on only if the occurrence completed by the new byte, if
any, is hidden behind a zero byte too. -/
theorem hidden_step {needle recv : List Nat} {v : Nat} (cap : Nat) (hne : needle ≠ [])
    (hcrlf : needle <:+ recv ++ [v] → [CARRIAGE_RETURN, LINE_FEED] <:+ recv ++ [v])
    (hid : ∀ j, needle <+: recv.drop j → 0 ∈ recv.take j)
    (hgo : ¬ [CARRIAGE_RETURN, LINE_FEED] <:+ recv ++ [v] ∨
      strstr needle (filled cap (recv ++ [v])) = some none) :
    ∀ j, needle <+: (recv ++ [v]).drop j → 0 ∈ (recv ++ [v]).take j := by
  intro j hocc
  rcases occurrence_old_or_tail hne hocc with ⟨h1, h2⟩ | ⟨h1, h2⟩
  · have h0 := hid j h1
    have : (recv ++ [v]).take j = recv.take j := List.take_append_of_le_length (by omega)
    rw [this]
    exact h0
  · by_contra hz
    have hj : j ≤ (recv ++ [v]).length := by simp; omega
    have hocc2 : needle <+: (filled cap (recv ++ [v])).drop j := by
      unfold filled
      rw [List.drop_append_of_le_length hj]
      exact hocc.trans (List.prefix_append _ _)
    obtain ⟨k1, _, hk1⟩ := strstr_finds_visible hne _ j hocc2
      (by rw [filled_take hj]; exact hz)
    rcases hgo with hg | hg
    · exact hg (hcrlf h1)
    · rw [hg] at hk1
      simp at hk1

theorem readLoop_match_at_tail (N cap : Nat) :
    ∀ (sched : List (Option Nat)) (recv : List Nat) (r : Nat), recv.length ≤ cap →
      (∀ j, OK_TERMINATION <+: recv.drop j → 0 ∈ recv.take j) →
      (∀ j, ERROR_TERMINATION <+: recv.drop j → 0 ∈ recv.take j) →
      ((readLoop N cap sched (filled cap recv) recv.length r).result = .returned .OK →
        (readLoop N cap sched (filled cap recv) recv.length r).consumed
          ≤ (recv ++ received sched).length ∧
        OK_TERMINATION <:+ (recv ++ received sched).take
          (readLoop N cap sched (filled cap recv) recv.length r).consumed ∧
        ∀ k, strstr ERROR_TERMINATION (filled cap ((recv ++ received sched).take
          (readLoop N cap sched (filled cap recv) recv.length r).consumed))
            ≠ some (some k)) ∧
      ((readLoop N cap sched (filled cap recv) recv.length r).result = .returned .ERROR →
        (readLoop N cap sched (filled cap recv) recv.length r).consumed
          ≤ (recv ++ received sched).length ∧
        ERROR_TERMINATION <:+ (recv ++ received sched).take
          (readLoop N cap sched (filled cap recv) recv.length r).consumed ∧
        strstr OK_TERMINATION (filled cap ((recv ++ received sched).take
          (readLoop N cap sched (filled cap recv) recv.length r).consumed))
            = some none) := by
  intro sched
  induction sched with
  | nil =>
    intro recv r _ _ _
    by_cases hi : recv.length < cap
    · simp [readLoop, hi]
    · rw [readLoop_full N cap [] _ _ r hi]; simp
  | cons o t ih =>
    intro recv r hle hok herr
    by_cases hi : recv.length < cap
    · cases o with
      | none =>
        have hrec : received (none :: t) = received t := by simp [received]
        rw [hrec]
        by_cases hm : (r + 1) % 256 = N
        · rw [readLoop_none_timeout N cap t _ _ r hi hm]; simp
        · rw [readLoop_none_step N cap t _ _ r hi hm]
          exact ih recv _ hle hok herr
      | some b =>
        have hrec : recv ++ received (some b :: t) = (recv ++ [b % 256]) ++ received t := by
          simp [received]
        have hle' : (recv ++ [b % 256]).length ≤ cap := by simp; omega
        have hlen' : (recv ++ [b % 256]).length = recv.length + 1 := by simp
        have htake : ((recv ++ [b % 256]) ++ received t).take (recv.length + 1)
            = recv ++ [b % 256] := by
          rw [← hlen', List.take_left]
        have hgo := ih (recv ++ [b % 256]) 0 hle'
        rw [hlen', ← hrec] at hgo
        rw [readLoop_byte_unfold N cap recv b t r hi]
        by_cases hcrlf : [CARRIAGE_RETURN, LINE_FEED] <:+ recv ++ [b % 256]
        · simp only [hcrlf, if_true]
          cases h1 : strstr OK_TERMINATION (filled cap (recv ++ [b % 256])) with
          | none => simp
          | some o1 =>
            cases o1 with
            | some k =>
              have htail := found_is_tail (by simp) (by simp) hle' hok h1
              by_cases hk : k ≤ cap
              · simp only [hk, if_true]
                refine ⟨fun _ => ⟨?_, ?_, ?_⟩, by simp⟩
                · rw [hrec, List.length_append, hlen']; omega
                · rw [hrec, htake]; exact htail
                · intro k2 h2
                  rw [hrec, htake] at h2
                  exact terminators_exclusive htail
                    (found_is_tail (by simp) (by simp) hle' herr h2)
              · simp [hk]
            | none =>
              cases h2 : strstr ERROR_TERMINATION (filled cap (recv ++ [b % 256])) with
              | none => simp
              | some o2 =>
                cases o2 with
                | some k =>
                  have htail := found_is_tail (by simp) (by simp) hle' herr h2
                  by_cases hk : k ≤ cap
                  · simp only [hk, if_true]
                    refine ⟨by simp, fun _ => ⟨?_, ?_, ?_⟩⟩
                    · rw [hrec, List.length_append, hlen']; omega
                    · rw [hrec, htake]; exact htail
                    · rw [hrec, htake]; exact h1
                  · simp [hk]
                | none =>
                  simp only
                  exact hgo
                    (hidden_step cap (by simp) crlf_of_ok_suffix hok (Or.inr h1))
                    (hidden_step cap (by simp) crlf_of_error_suffix herr (Or.inr h2))
        · simp only [hcrlf, if_false]
          exact hgo
            (hidden_step cap (by simp) crlf_of_ok_suffix hok (Or.inl hcrlf))
            (hidden_step cap (by simp) crlf_of_error_suffix herr (Or.inl hcrlf))
    · rw [readLoop_full N cap _ _ _ r hi]; simp

/-! ## Where the reader does report BUFFER_OVERFLOW -/

theorem strstr_none_of_zero {needle : List Nat} :
    ∀ {mem : List Nat}, 0 ∈ mem → ¬ needle <:+: mem → strstr needle mem = some none := by
  intro mem
  induction mem with
  | nil => intro h; simp at h
  | cons b m ih =>
    intro hz hno
    have hp : ¬ needle <+: b :: m := fun h => hno h.isInfix
    by_cases hb : b = 0
    · simp [strstr, hp, hb]
      intro h
      rw [hb] at hp
      exact hp h
    · have hz' : 0 ∈ m := by
        rcases List.mem_cons.mp hz with h | h
        · exact absurd h.symm hb
        · exact h
      simp [strstr, hp, hb, ih hz' (fun h => hno (List.infix_cons h))]

theorem infix_of_append_zeros {needle : List Nat} (hne : needle ≠ [])
    (hn : ∀ x ∈ needle, x ≠ 0) (n : Nat) :
    ∀ xs : List Nat, needle <:+: xs ++ List.replicate n 0 → needle <:+: xs := by
  intro xs
  induction xs with
  | nil =>
    intro h
    exfalso
    cases needle with
    | nil => exact hne rfl
    | cons a t =>
      have ha : a ∈ List.replicate n 0 := by
        have := h.subset (List.mem_cons_self a t)
        simpa using this
      rw [List.mem_replicate] at ha
      exact hn a (List.mem_cons_self _ _) ha.2
  | cons x xs ih =>
    intro h
    rw [List.cons_append] at h
    rcases List.infix_cons_iff.mp h with h1 | h1
    · rw [← List.cons_append] at h1
      exact (prefix_of_append_zeros hn n h1).isInfix
    · exact List.infix_cons (ih h1)

theorem readLoop_byte_continue (N cap b : Nat) (t : List (Option Nat)) (buf : List Nat)
    (i r : Nat) (hi : i < cap)
    (h : (1 ≤ i ∧ (buf.set i (b % 256))[i - 1]? = some CARRIAGE_RETURN ∧
        (buf.set i (b % 256))[i]? = some LINE_FEED) →
      strstr OK_TERMINATION (buf.set i (b % 256)) = some none ∧
      strstr ERROR_TERMINATION (buf.set i (b % 256)) = some none) :
    readLoop N cap (some b :: t) buf i r
      = readLoop N cap t (buf.set i (b % 256)) (i + 1) 0 := by
  rw [readLoop]
  by_cases hc : 1 ≤ i ∧ (buf.set i (b % 256))[i - 1]? = some CARRIAGE_RETURN ∧
      (buf.set i (b % 256))[i]? = some LINE_FEED
  · obtain ⟨h1, h2⟩ := h hc
    simp only [hi, if_true, hc, and_self, h1, h2]
  · simp only [hi, if_true, hc, if_false]

/-- On a zero-initialised buffer of `cap` bytes, when the first `cap` bytes of
an always-available stream hold no terminator and either hold a zero byte or do
not end in `"\r\n"`, the reader returns BUFFER_OVERFLOW after exactly `cap`
bytes. -/
theorem readLoop_overflow (N cap : Nat) (rest : List (Option Nat)) :
    ∀ (todo recv : List Nat) (r : Nat),
      (recv ++ todo.map (· % 256)).length = cap →
      ¬ OK_TERMINATION <:+: recv ++ todo.map (· % 256) →
      ¬ ERROR_TERMINATION <:+: recv ++ todo.map (· % 256) →
      (0 ∈ recv ++ todo.map (· % 256) ∨
        ¬ [CARRIAGE_RETURN, LINE_FEED] <:+ recv ++ todo.map (· % 256)) →
      (readLoop N cap (todo.map some ++ rest) (filled cap recv) recv.length r).result
        = .returned .BUFFER_OVERFLOW ∧
      (readLoop N cap (todo.map some ++ rest) (filled cap recv) recv.length r).consumed
        = cap := by
  intro todo
  induction todo with
  | nil =>
    intro recv r hlen _ _ _
    have hi : ¬ recv.length < cap := by simp at hlen; omega
    rw [readLoop_full N cap _ _ _ r hi]
    simp at hlen
    simp [hlen]
  | cons b t ih =>
    intro recv r hlen hok herr hend
    have hfull : recv ++ (b :: t).map (· % 256) = (recv ++ [b % 256]) ++ t.map (· % 256) := by
      simp
    rw [hfull] at hlen hok herr hend
    have hi : recv.length < cap := by
      simp only [List.length_append, List.length_singleton] at hlen; omega
    have hle : (recv ++ [b % 256]).length ≤ cap := by
      simp only [List.length_append] at hlen ⊢; omega
    have hpre : recv ++ [b % 256] <+: (recv ++ [b % 256]) ++ t.map (· % 256) :=
      List.prefix_append _ _
    have hnoin : ∀ needle : List Nat, needle ≠ [] → (∀ x ∈ needle, x ≠ 0) →
        ¬ needle <:+: (recv ++ [b % 256]) ++ t.map (· % 256) →
        ¬ needle <:+: filled cap (recv ++ [b % 256]) := by
      intro needle hne hn hno hin
      exact hno ((infix_of_append_zeros hne hn _ _ hin).trans hpre.isInfix)
    have hstep : readLoop N cap (some b :: (t.map some ++ rest)) (filled cap recv)
        recv.length r
        = readLoop N cap (t.map some ++ rest) (filled cap (recv ++ [b % 256]))
            (recv.length + 1) 0 := by
      rw [readLoop_byte_continue N cap b _ _ _ r hi, filled_set _ hi]
      rw [filled_set _ hi, crlf_test_iff]
      intro hcrlf
      have hzero : 0 ∈ filled cap (recv ++ [b % 256]) := by
        by_cases hlt : (recv ++ [b % 256]).length < cap
        · rw [filled_eq_append_zero hlt]
          simp
        · have ht : t = [] := by
            have : (t.map (· % 256)).length = 0 := by
              simp only [List.length_append] at hlen hlt ⊢; omega
            simpa using this
          subst ht
          simp only [List.map_nil, List.append_nil] at hend
          rcases hend with h0 | h0
          · unfold filled
            exact List.mem_append_left _ h0
          · exact absurd hcrlf h0
      exact ⟨strstr_none_of_zero hzero (hnoin _ (by simp) (by simp) hok),
        strstr_none_of_zero hzero (hnoin _ (by simp) (by simp) herr)⟩
    rw [List.map_cons, List.cons_append, hstep]
    have := ih (recv ++ [b % 256]) 0 hlen hok herr hend
    simpa using this

theorem readResponse_overflow (N cap : Nat) (stream : List Nat) (rest : List (Option Nat))
    (hlen : stream.length = cap)
    (hok : ¬ OK_TERMINATION <:+: stream.map (· % 256))
    (herr : ¬ ERROR_TERMINATION <:+: stream.map (· % 256))
    (hend : 0 ∈ stream.map (· % 256) ∨
      ¬ [CARRIAGE_RETURN, LINE_FEED] <:+ stream.map (· % 256)) :
    (sequansControllerReadResponse N (List.replicate cap 0) cap
      (stream.map some ++ rest)).result = .returned .BUFFER_OVERFLOW ∧
    (sequansControllerReadResponse N (List.replicate cap 0) cap
      (stream.map some ++ rest)).consumed = cap := by
  have h := readLoop_overflow N cap rest stream [] 0 (by simpa using hlen)
    (by simpa using hok) (by simpa using herr) (by simpa using hend)
  rw [filled_nil] at h
  exact h

/-! ## Prior contents of the buffer that cannot change the result -/

theorem prefix_stale_iff {body A S : List Nat} {c : Nat} (hc : c ∉ S) :
    body ++ [c] <+: A ++ S ↔ body ++ [c] <+: A := by
  constructor
  · rintro ⟨t, ht⟩
    rcases List.append_eq_append_iff.mp ht with ⟨a1, h1, _⟩ | ⟨c1, h1, h2⟩
    · exact ⟨a1, h1.symm⟩
    · rcases List.eq_nil_or_concat c1 with hn | ⟨l, a, hl⟩
      · subst hn
        rw [List.append_nil] at h1
        rw [h1]
      · exfalso
        rw [hl, List.concat_eq_append, ← List.append_assoc] at h1
        have ha := (List.append_inj' h1 rfl).2
        simp at ha
        apply hc
        rw [h2, hl, ha]
        simp
  · intro h
    exact h.trans (List.prefix_append _ _)

theorem strstr_stale_eq {body s1 s2 : List Nat} {c : Nat} (hc1 : c ∉ s1) (hc2 : c ∉ s2)
    (hlen : s1.length = s2.length) (hz1 : s1 ≠ [] → 0 ∈ s1) (hz2 : s2 ≠ [] → 0 ∈ s2) :
    ∀ recv : List Nat,
      strstr (body ++ [c]) (recv ++ s1) = strstr (body ++ [c]) (recv ++ s2) := by
  intro recv
  induction recv with
  | nil =>
    simp only [List.nil_append]
    by_cases h1 : s1 = []
    · have h2 : s2 = [] := by
        rw [h1] at hlen
        exact List.length_eq_zero.mp hlen.symm
      rw [h1, h2]
    · have h2 : s2 ≠ [] := by
        intro e
        rw [e] at hlen
        exact h1 (List.length_eq_zero.mp hlen)
      have hno : ∀ s : List Nat, c ∉ s → ¬ body ++ [c] <:+: s := by
        intro s hs hin
        exact hs (hin.subset (by simp))
      rw [strstr_none_of_zero (hz1 h1) (hno s1 hc1),
        strstr_none_of_zero (hz2 h2) (hno s2 hc2)]
  | cons x recv ih =>
    have hp : body ++ [c] <+: x :: recv ++ s1 ↔ body ++ [c] <+: x :: recv ++ s2 := by
      rw [prefix_stale_iff hc1, prefix_stale_iff hc2]
    rw [List.cons_append, List.cons_append] at hp ⊢
    rw [strstr, strstr, ih]
    simp only [List.isPrefixOf_iff_prefix]
    by_cases h : body ++ [c] <+: x :: (recv ++ s1)
    · simp [h, hp.mp h]
    · have h' : ¬ body ++ [c] <+: x :: (recv ++ s2) := fun e => h (hp.mpr e)
      simp [h, h']

/-- One iteration of the reader that takes a byte, on a buffer made of the
bytes received so far followed by prior contents. -/
theorem readLoop_byte_stale (N cap : Nat) (recv : List Nat) (a : Nat) (s : List Nat) (b : Nat)
    (t : List (Option Nat)) (r : Nat) (hi : recv.length < cap) :
    readLoop N cap (some b :: t) (recv ++ a :: s) recv.length r =
      if 1 ≤ recv.length ∧ (recv ++ [b % 256])[recv.length - 1]? = some CARRIAGE_RETURN ∧
          (recv ++ [b % 256])[recv.length]? = some LINE_FEED then
        match strstr OK_TERMINATION ((recv ++ [b % 256]) ++ s) with
        | none => ⟨.undefined, (recv ++ [b % 256]) ++ s, recv.length + 1, 0⟩
        | some (some k) =>
          if k ≤ cap then
            ⟨.returned .OK, memsetZero ((recv ++ [b % 256]) ++ s) k (cap - k),
              recv.length + 1, 0⟩
          else ⟨.undefined, (recv ++ [b % 256]) ++ s, recv.length + 1, 0⟩
        | some none =>
          match strstr ERROR_TERMINATION ((recv ++ [b % 256]) ++ s) with
          | none => ⟨.undefined, (recv ++ [b % 256]) ++ s, recv.length + 1, 0⟩
          | some (some k) =>
            if k ≤ cap then
              ⟨.returned .ERROR, memsetZero ((recv ++ [b % 256]) ++ s) k (cap - k),
                recv.length + 1, 0⟩
            else ⟨.undefined, (recv ++ [b % 256]) ++ s, recv.length + 1, 0⟩
          | some none => readLoop N cap t ((recv ++ [b % 256]) ++ s) (recv.length + 1) 0
      else readLoop N cap t ((recv ++ [b % 256]) ++ s) (recv.length + 1) 0 := by
  have hset : (recv ++ a :: s).set recv.length (b % 256) = (recv ++ [b % 256]) ++ s := by
    rw [List.set_append_right _ _ (le_refl _)]
    simp
  have h1 : ((recv ++ [b % 256]) ++ s)[recv.length - 1]? = (recv ++ [b % 256])[recv.length - 1]? :=
    List.getElem?_append_left (by simp; omega)
  have h2 : ((recv ++ [b % 256]) ++ s)[recv.length]? = (recv ++ [b % 256])[recv.length]? :=
    List.getElem?_append_left (by simp)
  rw [readLoop]
  simp only [hi, if_true, hset, h1, h2]

theorem stale_tail_ok {a : Nat} {s : List Nat}
    (h : a :: s = [] ∨ (a :: s).getLast? = some 0) : (s = [] ∨ s.getLast? = some 0) := by
  cases s with
  | nil => exact Or.inl rfl
  | cons x s =>
    right
    rcases h with h | h
    · simp at h
    · simpa using h

theorem stale_has_zero {s : List Nat} (h : s = [] ∨ s.getLast? = some 0) : s ≠ [] → 0 ∈ s := by
  intro hne
  rcases h with h | h
  · exact absurd h hne
  · exact List.mem_of_getLast?_eq_some h

/-- Two runs of the reader on buffers that hold the same received bytes followed
by prior contents without a line feed and ending in a zero byte stop at the
same poll with the same result. -/
theorem readLoop_stale_eq (N cap : Nat) :
    ∀ (sched : List (Option Nat)) (recv sA sB : List Nat) (r : Nat),
      sA.length = sB.length → recv.length + sA.length = cap →
      LINE_FEED ∉ sA → LINE_FEED ∉ sB →
      (sA = [] ∨ sA.getLast? = some 0) → (sB = [] ∨ sB.getLast? = some 0) →
      (readLoop N cap sched (recv ++ sA) recv.length r).result
        = (readLoop N cap sched (recv ++ sB) recv.length r).result ∧
      (readLoop N cap sched (recv ++ sA) recv.length r).consumed
        = (readLoop N cap sched (recv ++ sB) recv.length r).consumed := by
  intro sched
  induction sched with
  | nil =>
    intro recv sA sB r _ _ _ _ _ _
    by_cases hi : recv.length < cap <;> simp [readLoop, hi]
  | cons o t ih =>
    intro recv sA sB r hlen hcap hlA hlB hzA hzB
    by_cases hi : recv.length < cap
    · cases o with
      | none =>
        by_cases hm : (r + 1) % 256 = N
        · rw [readLoop_none_timeout N cap t _ _ r hi hm,
            readLoop_none_timeout N cap t _ _ r hi hm]
          exact ⟨rfl, rfl⟩
        · rw [readLoop_none_step N cap t _ _ r hi hm, readLoop_none_step N cap t _ _ r hi hm]
          exact ih recv sA sB _ hlen hcap hlA hlB hzA hzB
      | some b =>
        cases sA with
        | nil => simp at hcap; omega
        | cons a sA =>
          cases sB with
          | nil => simp at hlen
          | cons a2 sB =>
            have hlen' : sA.length = sB.length := by simpa using hlen
            have hlA' : LINE_FEED ∉ sA := fun e => hlA (List.mem_cons_of_mem _ e)
            have hlB' : LINE_FEED ∉ sB := fun e => hlB (List.mem_cons_of_mem _ e)
            have hzA' := stale_tail_ok hzA
            have hzB' := stale_tail_ok hzB
            have hcap' : (recv ++ [b % 256]).length + sA.length = cap := by
              simp only [List.length_append, List.length_cons, List.length_nil] at hcap ⊢
              omega
            have e1 : strstr OK_TERMINATION ((recv ++ [b % 256]) ++ sB)
                = strstr OK_TERMINATION ((recv ++ [b % 256]) ++ sA) :=
              (@strstr_stale_eq [79, 75, 13] sA sB LINE_FEED hlA' hlB' hlen'
                (stale_has_zero hzA') (stale_has_zero hzB') (recv ++ [b % 256])).symm
            have e2 : strstr ERROR_TERMINATION ((recv ++ [b % 256]) ++ sB)
                = strstr ERROR_TERMINATION ((recv ++ [b % 256]) ++ sA) :=
              (@strstr_stale_eq [69, 82, 82, 79, 82, 13] sA sB LINE_FEED hlA' hlB' hlen'
                (stale_has_zero hzA') (stale_has_zero hzB') (recv ++ [b % 256])).symm
            have hgo := ih (recv ++ [b % 256]) sA sB 0 hlen' hcap' hlA' hlB' hzA' hzB'
            have hl1 : (recv ++ [b % 256]).length = recv.length + 1 := by simp
            rw [hl1] at hgo
            rw [readLoop_byte_stale N cap recv a sA b t r hi,
              readLoop_byte_stale N cap recv a2 sB b t r hi, e1, e2]
            split
            · split
              · exact ⟨rfl, rfl⟩
              · split
                · exact ⟨rfl, rfl⟩
                · exact ⟨rfl, rfl⟩
              · split
                · exact ⟨rfl, rfl⟩
                · split
                  · exact ⟨rfl, rfl⟩
                  · exact ⟨rfl, rfl⟩
                · exact hgo
            · exact hgo
    · rw [readLoop_full N cap _ _ _ r hi, readLoop_full N cap _ _ _ r hi]
      exact ⟨rfl, rfl⟩

/-! ## Prior contents without a complete terminator -/


theorem prefix_before_stale {body A S : List Nat} {c : Nat} (hcb : c ∉ body)
    (hA : A.getLast? = some c) :
    body ++ [c] <+: A ++ S ↔ body ++ [c] <+: A := by
  constructor
  · rintro ⟨t, ht⟩
    rcases List.append_eq_append_iff.mp ht with ⟨a1, h1, _⟩ | ⟨c1, h1, _⟩
    · exact ⟨a1, h1.symm⟩
    · rcases List.eq_nil_or_concat c1 with hn | ⟨l, a, hl⟩
      · subst hn
        rw [List.append_nil] at h1
        rw [h1]
      · exfalso
        rw [hl, List.concat_eq_append, ← List.append_assoc] at h1
        have hb := (List.append_inj' h1 rfl).1
        apply hcb
        rw [hb]
        exact List.mem_append_left _ (List.mem_of_getLast?_eq_some hA)
  · intro h
    exact h.trans (List.prefix_append _ _)

theorem strstr_before_stale {body s1 s2 : List Nat} {c : Nat} (hcb : c ∉ body)
    (hn1 : ¬ body ++ [c] <:+: s1) (hn2 : ¬ body ++ [c] <:+: s2)
    (hlen : s1.length = s2.length) (hz1 : s1 ≠ [] → 0 ∈ s1) (hz2 : s2 ≠ [] → 0 ∈ s2) :
    ∀ recv : List Nat, (recv = [] ∨ recv.getLast? = some c) →
      strstr (body ++ [c]) (recv ++ s1) = strstr (body ++ [c]) (recv ++ s2) := by
  intro recv
  induction recv with
  | nil =>
    intro _
    simp only [List.nil_append]
    by_cases h1 : s1 = []
    · have h2 : s2 = [] := by
        rw [h1] at hlen
        exact List.length_eq_zero.mp hlen.symm
      rw [h1, h2]
    · have h2 : s2 ≠ [] := by
        intro e
        rw [e] at hlen
        exact h1 (List.length_eq_zero.mp hlen)
      rw [strstr_none_of_zero (hz1 h1) hn1, strstr_none_of_zero (hz2 h2) hn2]
  | cons x recv ih =>
    intro hlast
    have hA : (x :: recv).getLast? = some c := by
      rcases hlast with h | h
      · simp at h
      · exact h
    have hrec : recv = [] ∨ recv.getLast? = some c := by
      cases recv with
      | nil => exact Or.inl rfl
      | cons y r => right; simpa using hA
    have hp : body ++ [c] <+: x :: recv ++ s1 ↔ body ++ [c] <+: x :: recv ++ s2 := by
      rw [prefix_before_stale hcb hA, prefix_before_stale hcb hA]
    rw [List.cons_append, List.cons_append] at hp ⊢
    rw [strstr, strstr, ih hrec]
    simp only [List.isPrefixOf_iff_prefix]
    by_cases h : body ++ [c] <+: x :: (recv ++ s1)
    · simp [h, hp.mp h]
    · have h' : ¬ body ++ [c] <+: x :: (recv ++ s2) := fun e => h (hp.mpr e)
      simp [h, h']

theorem not_infix_drop_tail {T s : List Nat} {a : Nat} (d : Nat)
    (h : ¬ T <:+: (a :: s).drop d) : ¬ T <:+: s.drop (d - 1) := by
  cases d with
  | zero =>
    intro e
    apply h
    simp only [List.drop_zero, Nat.zero_sub] at e ⊢
    exact e.trans (List.suffix_cons a s).isInfix
  | succ k => simpa using h


/-- Two runs of the reader on buffers that hold the same received bytes followed
by prior contents that end in a zero byte and hold no complete terminator
behind the second byte of the buffer stop at the same poll with the same
result. -/
theorem readLoop_before_stale (N cap : Nat) :
    ∀ (sched : List (Option Nat)) (recv sA sB : List Nat) (r : Nat),
      sA.length = sB.length → recv.length + sA.length = cap →
      ¬ OK_TERMINATION <:+: sA.drop (2 - recv.length) →
      ¬ ERROR_TERMINATION <:+: sA.drop (2 - recv.length) →
      ¬ OK_TERMINATION <:+: sB.drop (2 - recv.length) →
      ¬ ERROR_TERMINATION <:+: sB.drop (2 - recv.length) →
      (sA = [] ∨ sA.getLast? = some 0) → (sB = [] ∨ sB.getLast? = some 0) →
      (readLoop N cap sched (recv ++ sA) recv.length r).result
        = (readLoop N cap sched (recv ++ sB) recv.length r).result ∧
      (readLoop N cap sched (recv ++ sA) recv.length r).consumed
        = (readLoop N cap sched (recv ++ sB) recv.length r).consumed := by
  intro sched
  induction sched with
  | nil =>
    intro recv sA sB r _ _ _ _ _ _ _ _
    by_cases hi : recv.length < cap <;> simp [readLoop, hi]
  | cons o t ih =>
    intro recv sA sB r hlen hcap hoA heA hoB heB hzA hzB
    by_cases hi : recv.length < cap
    · cases o with
      | none =>
        by_cases hm : (r + 1) % 256 = N
        · rw [readLoop_none_timeout N cap t _ _ r hi hm,
            readLoop_none_timeout N cap t _ _ r hi hm]
          exact ⟨rfl, rfl⟩
        · rw [readLoop_none_step N cap t _ _ r hi hm, readLoop_none_step N cap t _ _ r hi hm]
          exact ih recv sA sB _ hlen hcap hoA heA hoB heB hzA hzB
      | some b =>
        cases sA with
        | nil => simp at hcap; omega
        | cons a sA =>
          cases sB with
          | nil => simp at hlen
          | cons a2 sB =>
            have hlen' : sA.length = sB.length := by simpa using hlen
            have hzA' := stale_tail_ok hzA
            have hzB' := stale_tail_ok hzB
            have hcap' : (recv ++ [b % 256]).length + sA.length = cap := by
              simp only [List.length_append, List.length_cons, List.length_nil] at hcap ⊢
              omega
            have hl1 : (recv ++ [b % 256]).length = recv.length + 1 := by simp
            have hd : 2 - (recv ++ [b % 256]).length = 2 - recv.length - 1 := by
              rw [hl1]; omega
            have hoA' := not_infix_drop_tail _ hoA
            have heA' := not_infix_drop_tail _ heA
            have hoB' := not_infix_drop_tail _ hoB
            have heB' := not_infix_drop_tail _ heB
            have hgo := ih (recv ++ [b % 256]) sA sB 0 hlen' hcap' (by rw [hd]; exact hoA')
              (by rw [hd]; exact heA') (by rw [hd]; exact hoB') (by rw [hd]; exact heB')
              hzA' hzB'
            rw [hl1] at hgo
            rw [readLoop_byte_stale N cap recv a sA b t r hi,
              readLoop_byte_stale N cap recv a2 sB b t r hi]
            by_cases hc : 1 ≤ recv.length ∧
                (recv ++ [b % 256])[recv.length - 1]? = some CARRIAGE_RETURN ∧
                (recv ++ [b % 256])[recv.length]? = some LINE_FEED
            · have hlast : (recv ++ [b % 256]).getLast? = some LINE_FEED := by
                have h3 := hc.2.2
                rw [List.getElem?_append_right (Nat.le_refl _)] at h3
                simp only [Nat.sub_self, List.getElem?_cons_zero] at h3
                simp [h3]
              have hz0 : 2 - recv.length - 1 = 0 := by omega
              rw [hz0, List.drop_zero] at hoA' heA' hoB' heB'
              have e1 : strstr OK_TERMINATION ((recv ++ [b % 256]) ++ sB)
                  = strstr OK_TERMINATION ((recv ++ [b % 256]) ++ sA) :=
                (@strstr_before_stale [79, 75, 13] sA sB LINE_FEED (by decide) hoA' hoB' hlen'
                  (stale_has_zero hzA') (stale_has_zero hzB') (recv ++ [b % 256])
                  (Or.inr hlast)).symm
              have e2 : strstr ERROR_TERMINATION ((recv ++ [b % 256]) ++ sB)
                  = strstr ERROR_TERMINATION ((recv ++ [b % 256]) ++ sA) :=
                (@strstr_before_stale [69, 82, 82, 79, 82, 13] sA sB LINE_FEED (by decide)
                  heA' heB' hlen' (stale_has_zero hzA') (stale_has_zero hzB')
                  (recv ++ [b % 256]) (Or.inr hlast)).symm
              rw [if_pos hc, if_pos hc, e1, e2]
              split
              · exact ⟨rfl, rfl⟩
              · split
                · exact ⟨rfl, rfl⟩
                · exact ⟨rfl, rfl⟩
              · split
                · exact ⟨rfl, rfl⟩
                · split
                  · exact ⟨rfl, rfl⟩
                  · exact ⟨rfl, rfl⟩
                · exact hgo
            · rw [if_neg hc, if_neg hc]
              exact hgo
    · rw [readLoop_full N cap _ _ _ r hi, readLoop_full N cap _ _ _ r hi]
      exact ⟨rfl, rfl⟩

/-! ## The flush reader against the response reader -/

theorem window_body_length (recv : List Nat) :
    ((List.replicate 7 SPACE_CHARACTER ++ recv).drop recv.length).length = 7 := by
  rw [List.length_drop, List.length_append, List.length_replicate]
  omega

theorem window_nil : window [] = List.replicate 7 SPACE_CHARACTER ++ [0] := by
  simp [window]

theorem shiftIn_window (recv : List Nat) (b : Nat) :
    shiftIn (window recv) b = window (recv ++ [b % 256]) := by
  have hl := window_body_length recv
  generalize hW : (List.replicate 7 SPACE_CHARACTER ++ recv).drop recv.length = W at hl
  have h1 : window recv = W ++ [0] := by rw [window, hW]
  have h2 : window (recv ++ [b % 256]) = W.drop 1 ++ [b % 256] ++ [0] := by
    unfold window
    rw [← hW, List.drop_drop, ← List.append_assoc,
      List.drop_append_of_le_length (by simp)]
    simp [Nat.add_comm]
  rw [h1, h2]
  match W, hl with
  | [w0, w1, w2, w3, w4, w5, w6], _ => simp [shiftIn]

theorem suffix_of_padded {needle xs : List Nat} (n : Nat) (hn : SPACE_CHARACTER ∉ needle)
    (h : needle <:+ List.replicate n SPACE_CHARACTER ++ xs) : needle <:+ xs := by
  rcases List.suffix_or_suffix_of_suffix h (List.suffix_append _ xs) with h1 | h1
  · exact h1
  · obtain ⟨x, hx⟩ := h1
    cases x with
    | nil => rw [← hx]; simp
    | cons a x =>
      exfalso
      rw [← hx] at h hn
      have h2 : (a :: x) <:+ List.replicate n SPACE_CHARACTER := by
        obtain ⟨s, hs⟩ := h
        rw [← List.append_assoc] at hs
        exact ⟨s, List.append_cancel_right hs⟩
      have ha : a ∈ List.replicate n SPACE_CHARACTER := h2.subset (List.mem_cons_self _ _)
      rw [List.mem_replicate] at ha
      apply hn
      rw [ha.2]
      simp

theorem infix_of_padded {needle xs : List Nat} (hne : needle ≠ [])
    (hn : SPACE_CHARACTER ∉ needle) :
    ∀ n, needle <:+: List.replicate n SPACE_CHARACTER ++ xs → needle <:+: xs := by
  intro n
  induction n with
  | zero => intro h; simpa using h
  | succ n ih =>
    intro h
    rw [List.replicate_succ, List.cons_append] at h
    rcases List.infix_cons_iff.mp h with h1 | h1
    · exfalso
      cases needle with
      | nil => exact hne rfl
      | cons a t =>
        rw [List.cons_prefix_cons] at h1
        apply hn
        rw [h1.1]
        simp
    · exact ih h1

theorem window_body_suffix (recv : List Nat) :
    (List.replicate 7 SPACE_CHARACTER ++ recv).drop recv.length
      <:+ List.replicate 7 SPACE_CHARACTER ++ recv :=
  List.drop_suffix _ _

/-- A needle of at most seven bytes without a space ends the window exactly
when it ends the bytes received. -/
theorem suffix_window_iff {needle : List Nat} (recv : List Nat) (hlen : needle.length ≤ 7)
    (hn : SPACE_CHARACTER ∉ needle) :
    needle <:+ (List.replicate 7 SPACE_CHARACTER ++ recv).drop recv.length ↔
    needle <:+ recv := by
  constructor
  · intro h
    exact suffix_of_padded 7 hn (h.trans (window_body_suffix recv))
  · intro h
    have h1 : needle <:+ List.replicate 7 SPACE_CHARACTER ++ recv :=
      h.trans (List.suffix_append _ _)
    exact List.suffix_of_suffix_length_le h1 (window_body_suffix recv)
      (by rw [window_body_length]; exact hlen)

theorem crlf_window_iff (recv : List Nat) :
    ((window recv)[5]? = some CARRIAGE_RETURN ∧ (window recv)[6]? = some LINE_FEED) ↔
    [CARRIAGE_RETURN, LINE_FEED] <:+ recv := by
  rw [← suffix_window_iff recv (by simp) (by simp)]
  have hl := window_body_length recv
  unfold window
  generalize (List.replicate 7 SPACE_CHARACTER ++ recv).drop recv.length = W at hl
  match W, hl with
  | [w0, w1, w2, w3, w4, w5, w6], _ =>
    constructor
    · rintro ⟨h1, h2⟩
      simp at h1 h2
      subst h1 h2
      exact ⟨[w0, w1, w2, w3, w4], rfl⟩
    · rintro ⟨l, hl⟩
      have h := congrArg List.reverse hl
      simp at h
      match l, h with
      | [a0, a1, a2, a3, a4], h =>
        simp at h
        simp [h.1, h.2.1]

theorem infix_window_iff {needle : List Nat} (recv : List Nat) (v : Nat)
    (hne : needle ≠ []) (hlen : needle.length ≤ 7) (hn : SPACE_CHARACTER ∉ needle)
    (hno : ¬ needle <:+: recv) :
    needle <:+: (List.replicate 7 SPACE_CHARACTER ++ (recv ++ [v])).drop (recv ++ [v]).length ↔
    needle <:+ recv ++ [v] := by
  constructor
  · intro h
    have h1 : needle <:+: List.replicate 7 SPACE_CHARACTER ++ (recv ++ [v]) :=
      h.trans (window_body_suffix _).isInfix
    exact suffix_of_new_occurrence (infix_of_padded hne hn 7 h1) hno
  · intro h
    exact ((suffix_window_iff _ hlen hn).mpr h).isInfix

/-- One iteration of the flush reader that takes a byte, when no zero byte and
no terminator has been received so far. -/
theorem flushLoop_byte_step (N : Nat) (recv : List Nat) (b : Nat)
    (t : List (Option Nat)) (n r : Nat) (hr : r < N)
    (hz : ∀ x ∈ recv, x ≠ 0) (hb : b % 256 ≠ 0)
    (hok : ¬ OK_TERMINATION <:+: recv) (herr : ¬ ERROR_TERMINATION <:+: recv) :
    (OK_TERMINATION <:+ recv ++ [b % 256] →
      (flushLoop N (some b :: t) (window recv) n r).result = .returned .OK ∧
      (flushLoop N (some b :: t) (window recv) n r).consumed = n + 1) ∧
    (¬ OK_TERMINATION <:+ recv ++ [b % 256] → ERROR_TERMINATION <:+ recv ++ [b % 256] →
      (flushLoop N (some b :: t) (window recv) n r).result = .returned .ERROR ∧
      (flushLoop N (some b :: t) (window recv) n r).consumed = n + 1) ∧
    (¬ OK_TERMINATION <:+ recv ++ [b % 256] → ¬ ERROR_TERMINATION <:+ recv ++ [b % 256] →
      flushLoop N (some b :: t) (window recv) n r
        = flushLoop N t (window (recv ++ [b % 256])) (n + 1) 0) := by
  have hz' : ∀ x ∈ (List.replicate 7 SPACE_CHARACTER ++ (recv ++ [b % 256])).drop
      (recv ++ [b % 256]).length, x ≠ 0 := by
    intro x hx
    have hx' := (List.drop_subset _ _) hx
    rcases List.mem_append.mp hx' with h | h
    · rw [List.mem_replicate] at h; rw [h.2]; decide
    · rcases List.mem_append.mp h with h | h
      · exact hz x h
      · simp at h; rw [h]; exact hb
  have hOK := strstr_append_zero OK_TERMINATION (by simp) (by simp) _ [] hz'
  have hERR := strstr_append_zero ERROR_TERMINATION (by simp) (by simp) _ [] hz'
  rw [infix_window_iff recv _ (by simp) (by simp) (by simp) hok] at hOK
  rw [infix_window_iff recv _ (by simp) (by simp) (by simp) herr] at hERR
  have hw : window (recv ++ [b % 256]) =
      (List.replicate 7 SPACE_CHARACTER ++ (recv ++ [b % 256])).drop
        (recv ++ [b % 256]).length ++ [0] := rfl
  rw [← hw] at hOK hERR
  have hunf : flushLoop N (some b :: t) (window recv) n r =
      if [CARRIAGE_RETURN, LINE_FEED] <:+ recv ++ [b % 256] then
        match strstr OK_TERMINATION (window (recv ++ [b % 256])) with
        | none => ⟨.undefined, window (recv ++ [b % 256]), n + 1, 0⟩
        | some (some _) => ⟨.returned .OK, window (recv ++ [b % 256]), n + 1, 0⟩
        | some none =>
          match strstr ERROR_TERMINATION (window (recv ++ [b % 256])) with
          | none => ⟨.undefined, window (recv ++ [b % 256]), n + 1, 0⟩
          | some (some _) => ⟨.returned .ERROR, window (recv ++ [b % 256]), n + 1, 0⟩
          | some none => flushLoop N t (window (recv ++ [b % 256])) (n + 1) 0
      else flushLoop N t (window (recv ++ [b % 256])) (n + 1) 0 := by
    rw [flushLoop]
    simp only [hr, if_true, shiftIn_window, crlf_window_iff]
  rw [hunf]
  by_cases hcrlf : [CARRIAGE_RETURN, LINE_FEED] <:+ recv ++ [b % 256]
  · simp only [hcrlf, if_true]
    by_cases h1 : OK_TERMINATION <:+ recv ++ [b % 256]
    · obtain ⟨k, hk, _⟩ := hOK.2 h1
      rw [hk]
      simp [h1]
    · rw [hOK.1 h1]
      by_cases h2 : ERROR_TERMINATION <:+ recv ++ [b % 256]
      · obtain ⟨k, hk, _⟩ := hERR.2 h2
        rw [hk]
        simp [h1, h2]
      · rw [hERR.1 h2]
        simp [h1, h2]
  · have hns : ¬ OK_TERMINATION <:+ recv ++ [b % 256] := fun h => hcrlf (crlf_of_ok_suffix h)
    have hns2 : ¬ ERROR_TERMINATION <:+ recv ++ [b % 256] :=
      fun h => hcrlf (crlf_of_error_suffix h)
    simp [hcrlf, hns, hns2]

theorem not_infix_snoc {needle xs : List Nat} {v : Nat} (hno : ¬ needle <:+: xs)
    (hs : ¬ needle <:+ xs ++ [v]) : ¬ needle <:+: xs ++ [v] :=
  fun h => hs (suffix_of_new_occurrence h hno)

/-- On a stream without zero bytes and with at least one retry configured, the
flush reader and the response reader on a large enough zero-initialised buffer
stop at the same poll with the same result. -/
theorem flushLoop_eq_readLoop (N cap : Nat) (h1 : 1 ≤ N) (hN : N < 256) :
    ∀ (sched : List (Option Nat)) (recv : List Nat) (r : Nat), r < N →
      (∀ x ∈ recv ++ received sched, x ≠ 0) →
      (recv ++ received sched).length < cap →
      ¬ OK_TERMINATION <:+: recv → ¬ ERROR_TERMINATION <:+: recv →
      (flushLoop N sched (window recv) recv.length r).result
        = (readLoop N cap sched (filled cap recv) recv.length r).result ∧
      (flushLoop N sched (window recv) recv.length r).consumed
        = (readLoop N cap sched (filled cap recv) recv.length r).consumed := by
  intro sched
  induction sched with
  | nil =>
    intro recv r hr _ hlen _ _
    have hi : recv.length < cap := by simpa [received] using hlen
    simp [flushLoop, readLoop, hr, hi]
  | cons o t ih =>
    intro recv r hr hz hlen hok herr
    cases o with
    | none =>
      have hrec : received (none :: t) = received t := by simp [received]
      rw [hrec] at hz hlen
      have hi : recv.length < cap := by
        simp only [List.length_append] at hlen; omega
      have hr1 : (r + 1) % 256 = r + 1 := by omega
      rw [flushLoop_none_step N t _ _ r hr, hr1]
      by_cases hm : r + 1 = N
      · rw [flushLoop_spent N t _ _ _ (by omega),
          readLoop_none_timeout N cap t _ _ r hi (by omega)]
        simp
      · rw [readLoop_none_step N cap t _ _ r hi (by omega), hr1]
        exact ih recv (r + 1) (by omega) hz hlen hok herr
    | some b =>
      have hrec : recv ++ received (some b :: t) = (recv ++ [b % 256]) ++ received t := by
        simp [received]
      rw [hrec] at hz hlen
      have hcap : recv.length + 1 < cap := by
        simp only [List.length_append, List.length_singleton] at hlen; omega
      have hzr : ∀ x ∈ recv, x ≠ 0 := fun x hx =>
        hz x (List.mem_append_left _ (List.mem_append_left _ hx))
      have hb : b % 256 ≠ 0 :=
        hz _ (List.mem_append_left _ (List.mem_append_right _ (List.mem_singleton_self _)))
      obtain ⟨s1, s2, s3⟩ := readLoop_byte_step N cap recv b t r hcap hzr hb hok herr
      obtain ⟨f1, f2, f3⟩ := flushLoop_byte_step N recv b t recv.length r hr hzr hb hok herr
      by_cases c1 : OK_TERMINATION <:+ recv ++ [b % 256]
      · rw [(s1 c1).1, (s1 c1).2, (f1 c1).1, (f1 c1).2]
        exact ⟨rfl, rfl⟩
      · by_cases c2 : ERROR_TERMINATION <:+ recv ++ [b % 256]
        · rw [(s2 c1 c2).1, (s2 c1 c2).2, (f2 c1 c2).1, (f2 c1 c2).2]
          exact ⟨rfl, rfl⟩
        · rw [s3 c1 c2, f3 c1 c2]
          have := ih (recv ++ [b % 256]) 0 (by omega) hz hlen (not_infix_snoc hok c1)
            (not_infix_snoc herr c2)
          simpa using this

/-! ## Field extractor -/

theorem strrchr_eq_none {c : Nat} : ∀ {xs : List Nat}, c ∉ xs → strrchr c xs = none := by
  intro xs
  induction xs with
  | nil => intro _; rfl
  | cons x xs ih =>
    intro h
    have hx : x ≠ c := fun e => h (by rw [e]; exact List.mem_cons_self _ _)
    have hxs : c ∉ xs := fun e => h (List.mem_cons_of_mem _ e)
    simp [strrchr, ih hxs, hx]

theorem strrchr_of_mem {c : Nat} : ∀ {xs : List Nat}, c ∈ xs → ∃ k, strrchr c xs = some k := by
  intro xs
  induction xs with
  | nil => intro h; simp at h
  | cons x xs ih =>
    intro h
    by_cases hxs : c ∈ xs
    · obtain ⟨k, hk⟩ := ih hxs
      exact ⟨k + 1, by simp [strrchr, hk]⟩
    · have hx : x = c := by
        rcases List.mem_cons.mp h with h1 | h1
        · exact h1.symm
        · exact absurd h1 hxs
      exact ⟨0, by simp [strrchr, strrchr_eq_none hxs, hx]⟩

theorem strrchr_append_of_mem {c : Nat} {ys : List Nat} (h : c ∈ ys) :
    ∀ xs : List Nat, ∃ k, strrchr c (xs ++ ys) = some (xs.length + k) := by
  intro xs
  induction xs with
  | nil =>
    obtain ⟨k, hk⟩ := strrchr_of_mem h
    exact ⟨k, by simpa using hk⟩
  | cons x xs ih =>
    obtain ⟨k, hk⟩ := ih
    refine ⟨k, ?_⟩
    rw [List.cons_append, strrchr, hk, List.length_cons, Nat.add_right_comm]

theorem takeWhile_ne_zero {xs : List Nat} (h : ∀ x ∈ xs, x ≠ 0) :
    xs.takeWhile (· ≠ 0) = xs := by
  rw [List.takeWhile_eq_self_iff]
  intro x hx
  simpa using h x hx

/-- The private copy keeps everything that comes before the last carriage
return of the text, or the whole text when it has none. -/
theorem responseCopy_append (front tail : List Nat) (hz : ∀ x ∈ front ++ tail, x ≠ 0)
    (hcr : CARRIAGE_RETURN ∈ tail ∨ CARRIAGE_RETURN ∉ front ++ tail) :
    ∃ tail1, responseCopy (front ++ tail) = front ++ tail1 := by
  unfold responseCopy
  simp only [takeWhile_ne_zero hz]
  rcases hcr with h | h
  · obtain ⟨k, hk⟩ := strrchr_append_of_mem h front
    refine ⟨(tail ++ [0]).take (k + 1), ?_⟩
    rw [hk, Option.getD_some, List.append_assoc, Nat.add_assoc, List.take_append]
  · refine ⟨tail ++ [0], ?_⟩
    rw [strrchr_eq_none h, Option.getD_none, List.take_of_length_le (by simp; omega)]
    simp

theorem strchr_found (c : Nat) (rest : List Nat) :
    ∀ hdr : List Nat, (∀ x ∈ hdr, x ≠ c ∧ x ≠ 0) →
      strchr c (hdr ++ c :: rest) = some (some (c :: rest)) := by
  intro hdr
  induction hdr with
  | nil => intro _; simp [strchr]
  | cons x hdr ih =>
    intro h
    have hx := h x (List.mem_cons_self _ _)
    simp only [List.cons_append, strchr, hx.1, hx.2, if_false]
    exact ih (fun y hy => h y (List.mem_cons_of_mem _ hy))

theorem skipDataStart_spaces (a : Nat) (rest : List Nat)
    (ha : a ≠ DATA_START_CHARACTER ∧ a ≠ SPACE_CHARACTER) :
    ∀ sp : Nat, skipDataStart (List.replicate sp SPACE_CHARACTER ++ a :: rest)
      = some (a :: rest) := by
  intro sp
  induction sp with
  | zero => simp [skipDataStart, ha.1, ha.2]
  | succ sp ih =>
    rw [List.replicate_succ, List.cons_append, skipDataStart]
    simp only [or_true, if_true]
    exact ih

theorem tokenSpan_token (rest : List Nat) :
    ∀ tok : List Nat, (∀ x ∈ tok, x ≠ RESPONSE_DELIMITER ∧ x ≠ 0) →
      tokenSpan (tok ++ RESPONSE_DELIMITER :: rest) = some (tok, RESPONSE_DELIMITER :: rest) := by
  intro tok
  induction tok with
  | nil => intro _; simp [tokenSpan]
  | cons x tok ih =>
    intro h
    have hx := h x (List.mem_cons_self _ _)
    have ih' := ih (fun y hy => h y (List.mem_cons_of_mem _ hy))
    rw [List.cons_append, tokenSpan]
    simp only [hx.1, hx.2, or_self, if_false, ih', Option.map_some']

theorem strtok_token (tok rest : List Nat) (hne : tok ≠ [])
    (h : ∀ x ∈ tok, x ≠ RESPONSE_DELIMITER ∧ x ≠ 0) :
    strtok (tok ++ RESPONSE_DELIMITER :: rest) = some (some tok, rest) := by
  cases tok with
  | nil => exact absurd rfl hne
  | cons a tok =>
    have ha := h a (List.mem_cons_self _ _)
    have hs := tokenSpan_token rest (a :: tok) h
    rw [List.cons_append] at hs ⊢
    rw [strtok]
    simp only [ha.1, ha.2, if_false, hs, if_true]

theorem commaTerminated_cons (t : List Nat) (ts : List (List Nat)) :
    commaTerminated (t :: ts) = t ++ RESPONSE_DELIMITER :: commaTerminated ts := by
  simp [commaTerminated]

theorem commaTerminated_length (ts : List (List Nat)) :
    ts.length ≤ (commaTerminated ts).length := by
  induction ts with
  | nil => simp
  | cons t ts ih =>
    rw [commaTerminated_cons]
    simp only [List.length_append, List.length_cons]
    omega

/-- The selection loop, started on a token with `value_index` at `index + 1 - d`,
stops on the token `d` places further on. -/
theorem tokenLoop_select (index : Nat) (hidx : index < 255) (tail1 : List Nat) :
    ∀ (d : Nat) (ts : List (List Nat)) (t : List Nat) (fuel vi : Nat),
      (∀ u ∈ ts, u ≠ [] ∧ ∀ x ∈ u, x ≠ RESPONSE_DELIMITER ∧ x ≠ 0) →
      vi + d = index + 1 → d ≤ ts.length → d + 1 ≤ fuel →
      tokenLoop index fuel (some t) (commaTerminated ts ++ tail1) vi
        = some ((t :: ts)[d]?) := by
  intro d
  induction d with
  | zero =>
    intro ts t fuel vi _ hvi _ hf
    obtain ⟨f, rfl⟩ : ∃ f, fuel = f + 1 := ⟨fuel - 1, by omega⟩
    have : ¬ vi ≤ index := by omega
    simp [tokenLoop, this]
  | succ d ih =>
    intro ts t fuel vi hts hvi hd hf
    obtain ⟨f, rfl⟩ : ∃ f, fuel = f + 1 := ⟨fuel - 1, by omega⟩
    cases ts with
    | nil => simp at hd
    | cons u ts =>
      have hu := hts u (List.mem_cons_self _ _)
      have hle : vi ≤ index := by omega
      have hmod : (vi + 1) % 256 = vi + 1 := by omega
      rw [tokenLoop]
      simp only [hle, if_true, commaTerminated_cons, List.append_assoc, List.cons_append,
        strtok_token u _ hu.1 hu.2, hmod]
      rw [ih ts u f (vi + 1) (fun w hw => hts w (List.mem_cons_of_mem _ hw)) (by omega)
        (by simpa using hd) (by omega)]
      simp

/-- The extractor on a response made of a header without marker, the marker,
spaces, and tokens each followed by a comma: index `n` selects the token with
0-based position `n`. -/
theorem extract_comma_terminated (hdr : List Nat) (sp : Nat) (toks : List (List Nat))
    (tail : List Nat) (index : Nat) (tok buffer : List Nat) (cap : Nat)
    (hhdr : ∀ x ∈ hdr, x ≠ DATA_START_CHARACTER ∧ x ≠ 0)
    (htoks : ∀ u ∈ toks, u ≠ [] ∧
      ∀ x ∈ u, x ≠ RESPONSE_DELIMITER ∧ x ≠ 0 ∧ x ≠ CARRIAGE_RETURN)
    (hfirst : ∀ u ∈ toks.head?, ∀ a ∈ u.head?, a ≠ DATA_START_CHARACTER ∧ a ≠ SPACE_CHARACTER)
    (htail : ∀ x ∈ tail, x ≠ 0)
    (hcr : CARRIAGE_RETURN ∈ tail ∨ (CARRIAGE_RETURN ∉ hdr ∧ CARRIAGE_RETURN ∉ tail))
    (hidx : index < 255) (htok : toks[index]? = some tok) :
    sequansControllerExtractValueFromCommandResponse
        (hdr ++ [DATA_START_CHARACTER] ++ List.replicate sp SPACE_CHARACTER
          ++ commaTerminated toks ++ tail) index buffer cap
      = some (if tok.length < cap then ⟨true, memcpy buffer tok tok.length, true⟩
          else ⟨false, buffer, true⟩) ∧
    selectedToken
        (hdr ++ [DATA_START_CHARACTER] ++ List.replicate sp SPACE_CHARACTER
          ++ commaTerminated toks ++ tail) index = some tok := by
  have hlt : index < toks.length := by
    rcases Nat.lt_or_ge index toks.length with h | h
    · exact h
    · rw [List.getElem?_eq_none h] at htok; simp at htok
  have hct0 : ∀ x ∈ commaTerminated toks, x ≠ 0 ∧ x ≠ CARRIAGE_RETURN := by
    intro x hx
    simp only [commaTerminated, List.mem_flatten, List.mem_map] at hx
    obtain ⟨l, ⟨u, hu, rfl⟩, hxl⟩ := hx
    rcases List.mem_append.mp hxl with h | h
    · exact ⟨((htoks u hu).2 x h).2.1, ((htoks u hu).2 x h).2.2⟩
    · simp at h; subst h; decide
  have hz : ∀ x ∈ (hdr ++ [DATA_START_CHARACTER] ++ List.replicate sp SPACE_CHARACTER
      ++ commaTerminated toks) ++ tail, x ≠ 0 := by
    intro x hx
    simp only [List.mem_append, List.mem_singleton, List.mem_replicate] at hx
    rcases hx with (((h | h) | h) | h) | h
    · exact (hhdr x h).2
    · subst h; decide
    · rw [h.2]; decide
    · exact (hct0 x h).1
    · exact htail x h
  have hcr' : CARRIAGE_RETURN ∈ tail ∨ CARRIAGE_RETURN ∉
      (hdr ++ [DATA_START_CHARACTER] ++ List.replicate sp SPACE_CHARACTER
        ++ commaTerminated toks) ++ tail := by
    rcases hcr with h | ⟨h1, h2⟩
    · exact Or.inl h
    · right
      intro hx
      simp only [List.mem_append, List.mem_singleton, List.mem_replicate] at hx
      rcases hx with (((h | h) | h) | h) | h
      · exact h1 h
      · revert h; decide
      · have := h.2; revert this; decide
      · exact (hct0 _ h).2 rfl
      · exact h2 h
  obtain ⟨tail1, hcopy⟩ := responseCopy_append _ tail hz hcr'
  cases toks with
  | nil => simp at hlt
  | cons u ts =>
    have hu := htoks u (List.mem_cons_self _ _)
    obtain ⟨a, u', rfl⟩ : ∃ a u', u = a :: u' := by
      cases u with
      | nil => exact absurd rfl hu.1
      | cons a u' => exact ⟨a, u', rfl⟩
    have ha := hfirst (a :: u') (by simp) a (by simp)
    have hshape : hdr ++ [DATA_START_CHARACTER] ++ List.replicate sp SPACE_CHARACTER
        ++ commaTerminated ((a :: u') :: ts) ++ tail1
        = hdr ++ DATA_START_CHARACTER :: (List.replicate sp SPACE_CHARACTER
          ++ a :: (u' ++ RESPONSE_DELIMITER :: (commaTerminated ts ++ tail1))) := by
      simp [commaTerminated_cons]
    have hstrchr := strchr_found DATA_START_CHARACTER (List.replicate sp SPACE_CHARACTER
        ++ a :: (u' ++ RESPONSE_DELIMITER :: (commaTerminated ts ++ tail1))) hdr hhdr
    have hskip : skipDataStart (DATA_START_CHARACTER :: (List.replicate sp SPACE_CHARACTER
        ++ a :: (u' ++ RESPONSE_DELIMITER :: (commaTerminated ts ++ tail1))))
        = some (a :: (u' ++ RESPONSE_DELIMITER :: (commaTerminated ts ++ tail1))) := by
      rw [skipDataStart]
      simp only [true_or, if_true]
      exact skipDataStart_spaces a _ ha sp
    have hvalid : ∀ w ∈ (a :: u') :: ts, w ≠ [] ∧ ∀ x ∈ w, x ≠ RESPONSE_DELIMITER ∧ x ≠ 0 :=
      fun w hw => ⟨(htoks w hw).1, fun x hx => ⟨((htoks w hw).2 x hx).1,
        ((htoks w hw).2 x hx).2.1⟩⟩
    have htk := strtok_token (a :: u') (commaTerminated ts ++ tail1) (by simp)
      (hvalid _ (List.mem_cons_self _ _)).2
    rw [List.cons_append] at htk
    have hfuel : index + 1 ≤ (hdr ++ [DATA_START_CHARACTER]
        ++ List.replicate sp SPACE_CHARACTER
        ++ commaTerminated ((a :: u') :: ts) ++ tail1).length + 2 := by
      have := commaTerminated_length ((a :: u') :: ts)
      simp only [List.length_append]
      omega
    have hloop := tokenLoop_select index hidx tail1 index ts (a :: u')
      ((hdr ++ [DATA_START_CHARACTER] ++ List.replicate sp SPACE_CHARACTER
        ++ commaTerminated ((a :: u') :: ts) ++ tail1).length + 2) 1
      (fun w hw => hvalid w (List.mem_cons_of_mem _ hw)) (by omega)
      (by simpa using Nat.le_of_lt_succ hlt) hfuel
    rw [htok] at hloop
    have hsel : selectValue ((hdr ++ [DATA_START_CHARACTER]
        ++ List.replicate sp SPACE_CHARACTER
        ++ commaTerminated ((a :: u') :: ts) ++ tail1).length + 2)
        (DATA_START_CHARACTER :: (List.replicate sp SPACE_CHARACTER
          ++ a :: (u' ++ RESPONSE_DELIMITER :: (commaTerminated ts ++ tail1)))) index
        = some (some tok) := by
      rw [selectValue, hskip]
      simp only [htk]
      exact hloop
    have hmem : tok ∈ (a :: u') :: ts := List.getElem?_mem htok
    have hnocr : CARRIAGE_RETURN ∉ tok := fun h => ((htoks tok hmem).2 _ h).2.2 rfl
    have hcut : cutAtCarriageReturn tok = (tok, true) := by
      simp [cutAtCarriageReturn, strrchr_eq_none hnocr]
    constructor
    · unfold sequansControllerExtractValueFromCommandResponse
      simp only [hcopy]
      rw [hshape] at hsel ⊢
      simp only [hstrchr, hsel, hcut]
      by_cases hc : tok.length < cap
      · simp [hc]
      · simp [hc]
    · unfold selectedToken
      simp only [hcopy]
      rw [hshape] at hsel ⊢
      simp only [hstrchr, hsel, hcut]

theorem strchr_absent (c : Nat) (hc : c ≠ 0) :
    ∀ text : List Nat, c ∉ text → (∀ x ∈ text, x ≠ 0) → strchr c (text ++ [0]) = some none := by
  intro text
  induction text with
  | nil => intro _ _; simp [strchr, hc.symm]
  | cons x text ih =>
    intro h hz
    have hx : x ≠ c := fun e => h (by rw [e]; exact List.mem_cons_self _ _)
    have hx0 : x ≠ 0 := hz x (List.mem_cons_self _ _)
    simp only [List.cons_append, strchr, hx, hx0, if_false]
    exact ih (fun e => h (List.mem_cons_of_mem _ e))
      (fun y hy => hz y (List.mem_cons_of_mem _ hy))

/-- A response with neither a carriage return nor a marker makes the extractor
return false: its copy ends with the string's own zero. -/
theorem extract_no_marker_no_cr (response : List Nat) (index : Nat) (buffer : List Nat)
    (cap : Nat) (hcr : CARRIAGE_RETURN ∉ response.takeWhile (· ≠ 0))
    (hm : DATA_START_CHARACTER ∉ response.takeWhile (· ≠ 0)) :
    sequansControllerExtractValueFromCommandResponse response index buffer cap
      = some ⟨false, buffer, false⟩ := by
  have hz : ∀ x ∈ response.takeWhile (· ≠ 0), x ≠ 0 := by
    intro x hx
    simpa using List.mem_takeWhile_imp hx
  have hcopy : responseCopy response = response.takeWhile (· ≠ 0) ++ [0] := by
    unfold responseCopy
    simp only [strrchr_eq_none hcr, Option.getD_none]
    rw [List.take_of_length_le (by simp)]
  unfold sequansControllerExtractValueFromCommandResponse
  simp only [hcopy, strchr_absent DATA_START_CHARACTER (by decide) _ hm hz]

theorem skipDataStart_length : ∀ {data d1 : List Nat}, skipDataStart data = some d1 →
    d1.length ≤ data.length := by
  intro data
  induction data with
  | nil => intro d1 h; simp [skipDataStart] at h
  | cons b data ih =>
    intro d1 h
    rw [skipDataStart] at h
    split at h
    · have := ih h
      simp only [List.length_cons]; omega
    · simp at h; rw [← h]

theorem tokenSpan_length : ∀ {p tok rest : List Nat}, tokenSpan p = some (tok, rest) →
    rest.length + tok.length = p.length := by
  intro p
  induction p with
  | nil => intro tok rest h; simp [tokenSpan] at h
  | cons b p ih =>
    intro tok rest h
    rw [tokenSpan] at h
    split at h
    · simp at h
      obtain ⟨rfl, rfl⟩ := h
      simp
    · cases hs : tokenSpan p with
      | none => simp [hs] at h
      | some pr =>
        obtain ⟨tok1, rest1⟩ := pr
        simp [hs] at h
        obtain ⟨rfl, rfl⟩ := h
        have := ih hs
        simp only [List.length_cons]; omega

theorem tokenSpan_nonempty {b : Nat} {p tok rest : List Nat}
    (hb1 : ¬ b = RESPONSE_DELIMITER) (hb0 : ¬ b = 0)
    (h : tokenSpan (b :: p) = some (tok, rest)) : 0 < tok.length := by
  rw [tokenSpan] at h
  simp only [hb1, hb0, or_self, if_false] at h
  cases hs : tokenSpan p with
  | none => simp [hs] at h
  | some pr =>
    simp [hs] at h
    rw [← h.1]
    simp

theorem strtok_length : ∀ {p : List Nat} {value : Option (List Nat)} {saved : List Nat},
    strtok p = some (value, saved) →
    saved.length ≤ p.length ∧ (value ≠ none → saved.length < p.length) := by
  intro p
  induction p with
  | nil => intro value saved h; simp [strtok] at h
  | cons b p ih =>
    intro value saved h
    rw [strtok] at h
    split at h
    · obtain ⟨h1, h2⟩ := ih h
      simp only [List.length_cons]
      exact ⟨by omega, fun hv => by have := h2 hv; omega⟩
    · split at h
      · simp at h
        obtain ⟨rfl, rfl⟩ := h
        simp
      · rename_i hb1 hb0
        split at h
        · simp at h
        · rename_i tok hs
          have hl := tokenSpan_length hs
          have hpos := tokenSpan_nonempty hb1 hb0 hs
          simp at h
          obtain ⟨_, rfl⟩ := h
          simp only [List.length_cons, List.length_nil] at hl ⊢
          exact ⟨by omega, fun _ => by omega⟩
        · rename_i tok d rest1 hs
          have hl := tokenSpan_length hs
          have hpos := tokenSpan_nonempty hb1 hb0 hs
          simp only [List.length_cons] at hl
          split at h
          · simp at h
            obtain ⟨_, rfl⟩ := h
            simp only [List.length_cons]
            exact ⟨by omega, fun _ => by omega⟩
          · simp at h
            obtain ⟨_, rfl⟩ := h
            simp only [List.length_cons]
            exact ⟨by omega, fun _ => by omega⟩

/-- The bound on the selection loop is never the reason it stops: any bound of
at least the length of the text still to be scanned plus two gives the same
result. -/
theorem tokenLoop_bound_irrelevant (index : Nat) :
    ∀ (n : Nat) (saved : List Nat) (value : Option (List Nat)) (vi k : Nat),
      saved.length ≤ n →
      tokenLoop index (n + 2 + k) value saved vi = tokenLoop index (n + 2) value saved vi := by
  intro n
  induction n using Nat.strong_induction_on with
  | _ n ih =>
    intro saved value vi k hlen
    have e1 : n + 2 + k = (n + 1 + k) + 1 := by omega
    have e2 : n + 2 = (n + 1) + 1 := rfl
    rw [e1, e2]
    cases value with
    | none => rw [tokenLoop, tokenLoop]
    | some tok =>
      rw [tokenLoop, tokenLoop]
      split
      · cases hs : strtok saved with
        | none => rfl
        | some pr =>
          obtain ⟨value1, saved1⟩ := pr
          obtain ⟨hl1, hl2⟩ := strtok_length hs
          simp only
          cases value1 with
          | none =>
            have e3 : n + 1 + k = (n + k) + 1 := by omega
            rw [e3, tokenLoop, tokenLoop]
          | some tok1 =>
            have hlt := hl2 (by simp)
            obtain ⟨m, rfl⟩ : ∃ m, n = m + 1 := ⟨n - 1, by omega⟩
            have h1 := ih m (by omega) saved1 (some tok1) ((vi + 1) % 256) k (by omega)
            have e4 : m + 2 + k = m + 1 + 1 + k := by omega
            rw [e4] at h1
            exact h1
      · rfl

theorem selectValue_bound_irrelevant (n k : Nat) (data : List Nat) (index : Nat)
    (hlen : data.length ≤ n) :
    selectValue (n + 2 + k) data index = selectValue (n + 2) data index := by
  unfold selectValue
  cases h1 : skipDataStart data with
  | none => rfl
  | some data1 =>
    have hl1 := skipDataStart_length h1
    cases h2 : strtok data1 with
    | none => simp only [h2]
    | some pr =>
      obtain ⟨value, saved⟩ := pr
      have hl2 := (strtok_length h2).1
      simp only [h2]
      exact tokenLoop_bound_irrelevant index n saved value 1 k (by omega)

theorem strchr_length {c : Nat} : ∀ {p q : List Nat}, strchr c p = some (some q) →
    q.length ≤ p.length := by
  intro p
  induction p with
  | nil => intro q h; simp [strchr] at h
  | cons b p ih =>
    intro q h
    rw [strchr] at h
    split at h
    · simp at h
      rw [← h]
    · split at h
      · simp at h
      · have := ih h
        simp only [List.length_cons]; omega

/-! ## The cut at the carriage return -/

theorem strrchr_split {c : Nat} {post : List Nat} (h : c ∉ post) :
    ∀ pre : List Nat, strrchr c (pre ++ c :: post) = some pre.length := by
  intro pre
  induction pre with
  | nil => simp [strrchr, strrchr_eq_none h]
  | cons x pre ih => rw [List.cons_append, strrchr, ih]; rfl

theorem cutAtCarriageReturn_none {value : List Nat} (h : CARRIAGE_RETURN ∉ value) :
    cutAtCarriageReturn value = (value, true) := by
  simp [cutAtCarriageReturn, strrchr_eq_none h]

theorem cutAtCarriageReturn_split {pre post : List Nat} (h : CARRIAGE_RETURN ∉ post) :
    cutAtCarriageReturn (pre ++ CARRIAGE_RETURN :: post) = (pre, false) := by
  simp [cutAtCarriageReturn, strrchr_split h pre]

/-- The extractor in terms of the token the selection loop ends on. -/
theorem extract_of_selectedValue (response : List Nat) (index : Nat) (buffer : List Nat)
    (cap : Nat) (value : List Nat) (hv : selectedValue response index = some value) :
    selectedToken response index = some (cutAtCarriageReturn value).1 ∧
    sequansControllerExtractValueFromCommandResponse response index buffer cap
      = some (if (cutAtCarriageReturn value).1.length < cap then
          ⟨true, (cutAtCarriageReturn value).1
            ++ buffer.drop (cutAtCarriageReturn value).1.length, (cutAtCarriageReturn value).2⟩
        else ⟨false, buffer, (cutAtCarriageReturn value).2⟩) := by
  unfold selectedValue at hv
  unfold selectedToken sequansControllerExtractValueFromCommandResponse
  cases h1 : strchr DATA_START_CHARACTER (responseCopy response) with
  | none => simp [h1] at hv
  | some o =>
    cases o with
    | none => simp [h1] at hv
    | some data =>
      cases h2 : selectValue ((responseCopy response).length + 2) data index with
      | none => simp [h1, h2] at hv
      | some v =>
        cases v with
        | none => simp [h1, h2] at hv
        | some value1 =>
          simp only [h1, h2, Option.some.injEq] at hv ⊢
          subst hv
          refine ⟨rfl, ?_⟩
          by_cases hc : (cutAtCarriageReturn value1).1.length < cap
          · have : ¬ (cutAtCarriageReturn value1).1.length ≥ cap := by omega
            simp [hc, this, memcpy]
          · have : (cutAtCarriageReturn value1).1.length ≥ cap := by omega
            simp [hc, this]

/-! ## The extractor on the memory behind its copy -/

theorem strchr_append_memory {c : Nat} (adj : List Nat) :
    ∀ {p : List Nat} {r : Option (List Nat)}, strchr c p = some r →
      strchr c (p ++ adj) = some (r.map (· ++ adj)) := by
  intro p
  induction p with
  | nil => intro r h; simp [strchr] at h
  | cons b p ih =>
    intro r h
    rw [strchr] at h
    rw [List.cons_append, strchr]
    split at h
    · rename_i hb
      simp only [Option.some.injEq] at h
      subst h
      simp [hb]
    · rename_i hb
      split at h
      · rename_i hz
        simp only [Option.some.injEq] at h
        subst h
        subst hz
        simp only [hb, if_false, if_true]
        rfl
      · rename_i hz
        simp only [hb, hz, if_false]
        exact ih h

theorem strchr_is_tail {c : Nat} : ∀ {p q : List Nat}, strchr c p = some (some q) →
    ∃ pre, p = pre ++ q := by
  intro p
  induction p with
  | nil => intro q h; simp [strchr] at h
  | cons b p ih =>
    intro q h
    rw [strchr] at h
    split at h
    · simp only [Option.some.injEq] at h
      exact ⟨[], by simp [h]⟩
    · split at h
      · simp at h
      · obtain ⟨pre, hpre⟩ := ih h
        exact ⟨b :: pre, by simp [hpre]⟩

theorem skipDataStart_append_memory (adj : List Nat) :
    ∀ {d d1 : List Nat}, skipDataStart d = some d1 →
      skipDataStart (d ++ adj) = some (d1 ++ adj) := by
  intro d
  induction d with
  | nil => intro d1 h; simp [skipDataStart] at h
  | cons b d ih =>
    intro d1 h
    rw [skipDataStart] at h
    rw [List.cons_append, skipDataStart]
    split at h
    · rename_i hb
      simp only [hb, if_true]
      exact ih h
    · rename_i hb
      simp only [Option.some.injEq] at h
      subst h
      simp [hb]

theorem skipDataStart_is_tail : ∀ {d d1 : List Nat}, skipDataStart d = some d1 →
    ∃ pre, d = pre ++ d1 := by
  intro d
  induction d with
  | nil => intro d1 h; simp [skipDataStart] at h
  | cons b d ih =>
    intro d1 h
    rw [skipDataStart] at h
    split at h
    · obtain ⟨pre, hpre⟩ := ih h
      exact ⟨b :: pre, by simp [hpre]⟩
    · simp only [Option.some.injEq] at h
      exact ⟨[], by simp [h]⟩

/-- What `tokenSpan` returns: the text splits into a token free of delimiters
and zeros and a rest that starts with a delimiter or a zero. -/
theorem tokenSpan_split : ∀ {p tok rest : List Nat}, tokenSpan p = some (tok, rest) →
    p = tok ++ rest ∧ (∀ x ∈ tok, x ≠ RESPONSE_DELIMITER ∧ x ≠ 0) ∧
    ∃ d rest1, rest = d :: rest1 ∧ (d = RESPONSE_DELIMITER ∨ d = 0) := by
  intro p
  induction p with
  | nil => intro tok rest h; simp [tokenSpan] at h
  | cons b p ih =>
    intro tok rest h
    rw [tokenSpan] at h
    split at h
    · rename_i hb
      simp only [Option.some.injEq, Prod.mk.injEq] at h
      obtain ⟨rfl, rfl⟩ := h
      exact ⟨rfl, by simp, b, p, rfl, hb⟩
    · rename_i hb
      cases hs : tokenSpan p with
      | none => simp [hs] at h
      | some pr =>
        obtain ⟨tok1, rest1⟩ := pr
        simp only [hs, Option.map_some, Option.some.injEq, Prod.mk.injEq] at h
        obtain ⟨rfl, rfl⟩ := h
        obtain ⟨h1, h2, h3⟩ := ih hs
        refine ⟨by rw [h1]; rfl, ?_, h3⟩
        intro x hx
        rcases List.mem_cons.mp hx with rfl | hx
        · exact ⟨fun e => hb (Or.inl e), fun e => hb (Or.inr e)⟩
        · exact h2 x hx

theorem tokenLength_token (d : Nat) (hd : d = RESPONSE_DELIMITER ∨ d = 0) (tail : List Nat) :
    ∀ tok : List Nat, (∀ x ∈ tok, x ≠ RESPONSE_DELIMITER ∧ x ≠ 0) →
      tokenLength (tok ++ d :: tail) = some tok.length := by
  intro tok
  induction tok with
  | nil => intro _; simp [tokenLength, hd]
  | cons b tok ih =>
    intro h
    have hb := h b (by simp)
    rw [List.cons_append, tokenLength]
    simp only [hb.1, hb.2, or_self, if_false]
    rw [ih (fun x hx => h x (by simp [hx]))]
    rfl

theorem strlen_token (tail : List Nat) :
    ∀ tok : List Nat, (∀ x ∈ tok, x ≠ 0) → strlen (tok ++ 0 :: tail) = some tok.length := by
  intro tok
  induction tok with
  | nil => intro _; simp [strlen]
  | cons b tok ih =>
    intro h
    rw [List.cons_append, strlen]
    simp only [h b (by simp), if_false]
    rw [ih (fun x hx => h x (by simp [hx]))]
    rfl


theorem strtokAt_skip (pre rest : List Nat) :
    strtokAt (pre ++ RESPONSE_DELIMITER :: rest) pre.length
      = strtokAt (pre ++ RESPONSE_DELIMITER :: rest) (pre.length + 1) := by
  have h1 : (pre ++ RESPONSE_DELIMITER :: rest).drop pre.length = RESPONSE_DELIMITER :: rest := by
    simp
  have h2 : (pre ++ RESPONSE_DELIMITER :: rest).drop (pre.length + 1) = rest := by
    rw [← List.drop_drop, h1]; rfl
  unfold strtokAt
  simp only [h1, h2, delimiterRun, if_true]
  have e : pre.length + (delimiterRun rest + 1) = pre.length + 1 + delimiterRun rest := by omega
  rw [e]

theorem delimiterRun_of_ne {b : Nat} (hb : ¬ b = RESPONSE_DELIMITER) (p : List Nat) :
    delimiterRun (b :: p) = 0 := by
  simp [delimiterRun, hb]

theorem strtokAt_at (pre : List Nat) (b : Nat) (rest : List Nat)
    (hb : ¬ b = RESPONSE_DELIMITER) :
    strtokAt (pre ++ b :: rest) pre.length =
      if b = 0 then some (none, pre.length, pre ++ b :: rest)
      else
        match tokenLength (b :: rest) with
        | none => none
        | some n =>
          if (b :: rest)[n]? = some RESPONSE_DELIMITER then
            some (some pre.length, pre.length + n + 1, pre ++ (b :: rest).set n 0)
          else some (some pre.length, pre.length + n, pre ++ b :: rest) := by
  have hd : (pre ++ b :: rest).drop pre.length = b :: rest := by simp
  have hg : (pre ++ b :: rest)[pre.length]? = some b := by
    rw [List.getElem?_append_right (Nat.le_refl _)]
    simp
  unfold strtokAt
  simp only [hd, delimiterRun_of_ne hb, Nat.add_zero, hg]
  split
  · rfl
  · cases tokenLength (b :: rest) with
    | none => rfl
    | some n =>
      simp only
      have hg2 : (pre ++ b :: rest)[pre.length + n]? = (b :: rest)[n]? := by
        rw [List.getElem?_append_right (by omega)]
        simp
      have hs : (pre ++ b :: rest).set (pre.length + n) 0 = pre ++ (b :: rest).set n 0 := by
        rw [List.set_append_right _ _ (by omega)]
        simp
      rw [hg2, hs]

/-- One call of `strtok` inside the copy: followed on the memory it gives the
same token, found as a zero-terminated string at the offset returned, and
every store falls before the end of the text it was given. -/
theorem strtokAt_refines (adj : List Nat) :
    ∀ (p pre : List Nat) (value : Option (List Nat)) (rest : List Nat),
      strtok p = some (value, rest) →
      ∃ (pre1 : List Nat) (v : Option Nat),
        strtokAt (pre ++ p ++ adj) pre.length = some (v, pre1.length, pre1 ++ rest ++ adj) ∧
        pre1.length + rest.length = pre.length + p.length ∧
        (value = none → v = none) ∧
        (∀ tok, value = some tok → ∃ v1 tail, v = some v1 ∧
          (pre1 ++ rest ++ adj).drop v1 = tok ++ 0 :: tail ∧ (∀ x ∈ tok, x ≠ 0) ∧
          v1 + tok.length < pre.length + p.length) := by
  intro p
  induction p with
  | nil => intro pre value rest h; simp [strtok] at h
  | cons b p ih =>
    intro pre value rest h
    have e : pre ++ b :: p ++ adj = pre ++ b :: (p ++ adj) := by simp
    rw [strtok] at h
    split at h
    · rename_i hb
      subst hb
      obtain ⟨pre1, v, h1, h2, h3, h4⟩ := ih (pre ++ [RESPONSE_DELIMITER]) value rest h
      refine ⟨pre1, v, ?_, ?_, h3, ?_⟩
      · have e2 : pre ++ [RESPONSE_DELIMITER] ++ p ++ adj
            = pre ++ RESPONSE_DELIMITER :: (p ++ adj) := by simp
        rw [e, strtokAt_skip]
        rw [e2] at h1
        simpa using h1
      · simp only [List.length_append, List.length_cons, List.length_nil] at h2 ⊢
        omega
      · intro tok ht
        obtain ⟨v1, tail, h5, h6, h7, h8⟩ := h4 tok ht
        refine ⟨v1, tail, h5, h6, h7, ?_⟩
        simp only [List.length_append, List.length_cons, List.length_nil] at h8 ⊢
        omega
    · rename_i hb
      rw [e, strtokAt_at pre b (p ++ adj) hb]
      split at h
      · rename_i hz
        subst hz
        simp only [Option.some.injEq, Prod.mk.injEq] at h
        obtain ⟨rfl, rfl⟩ := h
        refine ⟨pre, none, ?_, rfl, fun _ => rfl, fun tok ht => by simp at ht⟩
        simp
      · rename_i hz
        simp only [hz, if_false]
        cases hs : tokenSpan (b :: p) with
        | none => simp [hs] at h
        | some pr =>
          obtain ⟨tok, r⟩ := pr
          obtain ⟨hsplit, hfree, d, rest1, hr, hd⟩ := tokenSpan_split hs
          subst hr
          have hmem : b :: (p ++ adj) = tok ++ d :: (rest1 ++ adj) := by
            rw [← List.cons_append, hsplit]; simp
          have hlen : (b :: p).length = tok.length + (rest1.length + 1) := by
            rw [hsplit]; simp
          have hget : (tok ++ d :: (rest1 ++ adj))[tok.length]? = some d := by
            rw [List.getElem?_append_right (Nat.le_refl _)]
            simp
          have hset : (tok ++ d :: (rest1 ++ adj)).set tok.length 0
              = tok ++ 0 :: (rest1 ++ adj) := by
            rw [List.set_append_right _ _ (Nat.le_refl _)]
            simp
          have hfree0 : ∀ x ∈ tok, x ≠ 0 := fun x hx => (hfree x hx).2
          simp only [hs] at h
          rw [hmem, tokenLength_token d hd (rest1 ++ adj) tok hfree]
          simp only [hget, hset]
          simp only [List.length_cons] at hlen
          by_cases hdd : d = RESPONSE_DELIMITER
          · simp only [hdd, if_true, Option.some.injEq, Prod.mk.injEq] at h ⊢
            obtain ⟨rfl, rfl⟩ := h
            refine ⟨pre ++ tok ++ [0], some pre.length, ?_, ?_,
              fun hn => by simp at hn, ?_⟩
            · simp [Nat.add_assoc]
            · simp only [List.length_append, List.length_cons, List.length_nil]; omega
            intro tok1 ht
            simp only [Option.some.injEq] at ht
            subst ht
            refine ⟨pre.length, rest1 ++ adj, rfl, by simp, hfree0, ?_⟩
            simp only [List.length_cons]; omega
          · have hd0 : d = 0 := by
              rcases hd with hd | hd
              · exact absurd hd hdd
              · exact hd
            subst hd0
            simp only [hdd, if_false, Option.some.injEq, Prod.mk.injEq] at h ⊢
            obtain ⟨rfl, rfl⟩ := h
            refine ⟨pre ++ tok, some pre.length, ?_, ?_,
              fun hn => by simp at hn, ?_⟩
            · simp
            · simp only [List.length_append, List.length_cons]; omega
            intro tok1 ht
            simp only [Option.some.injEq] at ht
            subst ht
            refine ⟨pre.length, rest1 ++ adj, rfl, by simp, hfree0, ?_⟩
            simp only [List.length_cons]; omega


/-- The selection loop inside the copy: followed on the memory it ends on the
same token, and the memory behind the copy is as it was. -/
theorem tokenLoopAt_refines (index : Nat) (adj : List Nat) (total : Nat) :
    ∀ (fuel fuel2 : Nat) (value : Option (List Nat)) (saved : List Nat) (vi : Nat)
      (result : Option (List Nat)), fuel ≤ fuel2 →
      tokenLoop index fuel value saved vi = some result →
      ∀ (pre : List Nat) (v : Option Nat), pre.length + saved.length = total →
        (value = none → v = none) →
        (∀ tok, value = some tok → ∃ v1 tail, v = some v1 ∧
          (pre ++ saved ++ adj).drop v1 = tok ++ 0 :: tail ∧ (∀ x ∈ tok, x ≠ 0) ∧
          v1 + tok.length < total) →
        ∃ (copy1 : List Nat) (v2 : Option Nat),
          tokenLoopAt index fuel2 v pre.length (pre ++ saved ++ adj) vi
            = some (v2, copy1 ++ adj) ∧
          copy1.length = total ∧
          (result = none → v2 = none) ∧
          (∀ tok, result = some tok → ∃ v1 tail, v2 = some v1 ∧
            (copy1 ++ adj).drop v1 = tok ++ 0 :: tail ∧ (∀ x ∈ tok, x ≠ 0) ∧
            v1 + tok.length < total) := by
  intro fuel
  induction fuel with
  | zero => intro fuel2 value saved vi result _ h; simp [tokenLoop] at h
  | succ fuel ih =>
    intro fuel2 value saved vi result hle h pre v hlen hnone hsome
    obtain ⟨f2, rfl⟩ : ∃ f2, fuel2 = f2 + 1 := ⟨fuel2 - 1, by omega⟩
    cases value with
    | none =>
      rw [tokenLoop] at h
      rw [hnone rfl, tokenLoopAt]
      simp only [Option.some.injEq] at h
      subst h
      exact ⟨pre ++ saved, none, rfl, by simp [hlen], fun _ => rfl, fun tok ht => by simp at ht⟩
    | some tok =>
      obtain ⟨v1, tail, hv, hdrop, hfree, hbound⟩ := hsome tok rfl
      subst hv
      rw [tokenLoop] at h
      rw [tokenLoopAt]
      by_cases hvi : vi ≤ index
      · simp only [hvi, if_true] at h ⊢
        cases hs : strtok saved with
        | none => simp [hs] at h
        | some pr =>
          obtain ⟨value1, saved1⟩ := pr
          simp only [hs] at h
          obtain ⟨pre1, v2, h1, h2, h3, h4⟩ := strtokAt_refines adj saved pre value1 saved1 hs
          rw [h1]
          simp only
          exact ih f2 value1 saved1 ((vi + 1) % 256) result (by omega) h pre1 v2
            (by omega) h3 (fun tok1 ht => by
              obtain ⟨w, tl, e1, e2, e3, e4⟩ := h4 tok1 ht
              exact ⟨w, tl, e1, e2, e3, by omega⟩)
      · simp only [hvi, if_false, Option.some.injEq] at h ⊢
        subst h
        exact ⟨pre ++ saved, some v1, rfl, by simp [hlen], fun hn => by simp at hn,
          fun tok1 ht => by
            simp only [Option.some.injEq] at ht
            subst ht
            exact ⟨v1, tail, rfl, hdrop, hfree, hbound⟩⟩


theorem strrchr_lt {c : Nat} : ∀ {xs : List Nat} {k : Nat}, strrchr c xs = some k →
    k < xs.length := by
  intro xs
  induction xs with
  | nil => intro k h; simp [strrchr] at h
  | cons b xs ih =>
    intro k h
    rw [strrchr] at h
    cases hs : strrchr c xs with
    | some j =>
      simp only [hs, Option.some.injEq] at h
      have := ih hs
      simp only [List.length_cons]; omega
    | none =>
      simp only [hs] at h
      split at h
      · simp only [Option.some.injEq] at h
        simp only [List.length_cons]; omega
      · simp at h

/-- The last steps of the extractor on a token found in the memory as a
zero-terminated string. -/
theorem cut_in_memory (copy1 adj tok tail : List Nat) (v1 : Nat)
    (hdrop : (copy1 ++ adj).drop v1 = tok ++ 0 :: tail) (hbound : v1 + tok.length < copy1.length)
    (k : Nat) (hk : k < tok.length) :
    ∃ copy2, copy2.length = copy1.length ∧
      (copy1 ++ adj).set (v1 + k) 0 = copy2 ++ adj ∧
      ((copy2 ++ adj).drop v1).take k = tok.take k := by
  refine ⟨copy1.set (v1 + k) 0, by simp, ?_, ?_⟩
  · rw [List.set_append_left _ _ (by omega)]
  · rw [← List.set_append_left _ _ (by omega), ← List.set_drop, hdrop, List.set_take,
      List.take_append_of_le_length (by omega),
      List.set_eq_of_length_le (by simp)]


/-- Whenever every scan of the extractor stays inside its copy, the run on the
memory returns the same boolean, output buffer and null-pointer record, and
leaves the memory behind the copy as it was: all its stores fall inside the
copy. -/
theorem extractValueInMemory_refines (response : List Nat) (index : Nat) (buffer : List Nat)
    (cap : Nat) (adjacent : List Nat) (run : ExtractRun)
    (h : sequansControllerExtractValueFromCommandResponse response index buffer cap = some run) :
    ∃ copy1, copy1.length = (responseCopy response).length ∧
      extractValueInMemory response index buffer cap adjacent
        = some ⟨run.ok, run.buffer, copy1 ++ adjacent, run.null_access⟩ := by
  unfold sequansControllerExtractValueFromCommandResponse at h
  unfold extractValueInMemory
  simp only at h ⊢
  generalize responseCopy response = copy at h ⊢
  cases h1 : strchr DATA_START_CHARACTER copy with
  | none => simp [h1] at h
  | some o =>
    rw [strchr_append_memory adjacent h1]
    cases o with
    | none =>
      simp only [h1, Option.some.injEq] at h
      subst h
      exact ⟨copy, rfl, rfl⟩
    | some data =>
      obtain ⟨pre0, hpre0⟩ := strchr_is_tail h1
      simp only [h1] at h
      unfold selectValue at h
      cases h2 : skipDataStart data with
      | none => simp [h2] at h
      | some data1 =>
        obtain ⟨pre2, hpre2⟩ := skipDataStart_is_tail h2
        simp only [h2] at h
        cases h3 : strtok data1 with
        | none => simp [h3] at h
        | some pr =>
          obtain ⟨value, saved⟩ := pr
          simp only [h3] at h
          cases h4 : tokenLoop index (copy.length + 2) value saved 1 with
          | none => simp [h4] at h
          | some result =>
            simp only [h4] at h
            simp only [Option.map_some', skipDataStart_append_memory adjacent h2]
            have hmem : copy ++ adjacent = (pre0 ++ pre2) ++ data1 ++ adjacent := by
              rw [hpre0, hpre2]; simp
            have hoff : (copy ++ adjacent).length - (data1 ++ adjacent).length
                = (pre0 ++ pre2).length := by
              rw [hmem]; simp only [List.length_append]; omega
            have hcl : copy.length = (pre0 ++ pre2).length + data1.length := by
              rw [hpre0, hpre2]; simp only [List.length_append]; omega
            have hfuel : copy.length + 2 ≤ (copy ++ adjacent).length + 2 := by
              simp only [List.length_append]; omega
            generalize (copy ++ adjacent).length + 2 = fuel2 at hfuel ⊢
            rw [hoff, hmem]
            obtain ⟨pre1, v, e1, e2, e3, e4⟩ :=
              strtokAt_refines adjacent data1 (pre0 ++ pre2) value saved h3
            rw [e1]
            simp only
            obtain ⟨copy1, v2, f1, f2, f3, f4⟩ :=
              tokenLoopAt_refines index adjacent copy.length (copy.length + 2) fuel2 value saved 1
                result hfuel h4 pre1 v (by omega) e3 (fun tok ht => by
                  obtain ⟨w, tl, g1, g2, g3, g4⟩ := e4 tok ht
                  exact ⟨w, tl, g1, g2, g3, by omega⟩)
            rw [f1]
            cases result with
            | none =>
              simp only [Option.some.injEq] at h
              subst h
              rw [f3 rfl]
              exact ⟨copy1, f2, rfl⟩
            | some tok =>
              obtain ⟨v1, tail, g1, g2, g3, g4⟩ := f4 tok rfl
              subst g1
              simp only [g2, strlen_token tail tok g3, List.take_left]
              unfold cutAtCarriageReturn at h
              cases hcut : strrchr CARRIAGE_RETURN tok with
              | none =>
                simp only [hcut, Option.getD_none, Option.isNone_none] at h ⊢
                by_cases hcap : tok.length ≥ cap
                · simp only [hcap, if_true, Option.some.injEq] at h ⊢
                  subst h
                  exact ⟨copy1, f2, rfl⟩
                · simp only [hcap, if_false, Option.some.injEq] at h ⊢
                  subst h
                  refine ⟨copy1, f2, ?_⟩
                  simp [memcpy, g2]
              | some k =>
                have hk := strrchr_lt hcut
                obtain ⟨copy2, c1, c2, c3⟩ := cut_in_memory copy1 adjacent tok tail v1 g2
                  (by omega) k hk
                have hlen : (tok.take k).length = k := by
                  rw [List.length_take]; omega
                simp only [hcut, Option.getD_some, Option.isNone_some, hlen] at h ⊢
                by_cases hcap : k ≥ cap
                · simp only [hcap, if_true, Option.some.injEq] at h ⊢
                  subst h
                  exact ⟨copy2, by omega, by rw [c2]⟩
                · simp only [hcap, if_false, Option.some.injEq] at h ⊢
                  subst h
                  refine ⟨copy2, by omega, ?_⟩
                  simp only [memcpy, c2, c3]
                  simp

/-! ## The output buffer of the extractor -/

theorem strlen_lt : ∀ {s : List Nat} {n : Nat}, strlen s = some n → n < s.length := by
  intro s
  induction s with
  | nil => intro n h; simp [strlen] at h
  | cons b s ih =>
    intro n h
    rw [strlen] at h
    split at h
    · simp only [Option.some.injEq] at h
      simp only [List.length_cons]; omega
    · cases hs : strlen s with
      | none => simp [hs] at h
      | some m =>
        simp only [hs, Option.map_some', Option.some.injEq] at h
        have := ih hs
        simp only [List.length_cons]; omega

/-- What `memcpy` of the first `n` bytes of `src` does to the buffer, position
by position. -/
theorem memcpy_frame (buffer src : List Nat) (n : Nat) (hn : n ≤ src.length) :
    (memcpy buffer src n = src.take n ++ buffer.drop (src.take n).length) ∧
    (src.take n).length = n ∧
    (∀ i, i < n → (memcpy buffer src n)[i]? = src[i]?) ∧
    (∀ i, n ≤ i → (memcpy buffer src n)[i]? = buffer[i]?) ∧
    (n ≤ buffer.length → (memcpy buffer src n).length = buffer.length) := by
  have hl : (src.take n).length = n := by rw [List.length_take]; omega
  refine ⟨by rw [hl]; rfl, hl, ?_, ?_, ?_⟩
  · intro i hi
    unfold memcpy
    rw [List.getElem?_append_left (by omega), List.getElem?_take_of_lt hi]
  · intro i hi
    unfold memcpy
    rw [List.getElem?_append_right (by omega), hl, List.getElem?_drop]
    congr 1
    omega
  · intro hb
    unfold memcpy
    rw [List.length_append, hl, List.length_drop]
    omega


theorem extract_frame_strict (response : List Nat) (index : Nat) (buffer : List Nat)
    (cap : Nat) (run : ExtractRun)
    (h : sequansControllerExtractValueFromCommandResponse response index buffer cap = some run) :
    (run.ok = false → run.buffer = buffer) ∧
    (run.ok = true → ∃ tok, selectedToken response index = some tok ∧ tok.length < cap ∧
      run.buffer = memcpy buffer tok tok.length) := by
  unfold sequansControllerExtractValueFromCommandResponse at h
  unfold selectedToken
  simp only at h
  cases h1 : strchr DATA_START_CHARACTER (responseCopy response) with
  | none => simp [h1] at h
  | some o =>
    cases o with
    | none =>
      simp only [h1, Option.some.injEq] at h
      subst h
      simp
    | some data =>
      simp only [h1] at h ⊢
      cases h2 : selectValue ((responseCopy response).length + 2) data index with
      | none => simp [h2] at h
      | some w =>
        cases w with
        | none =>
          simp only [h2, Option.some.injEq] at h
          subst h
          simp
        | some value =>
          simp only [h2] at h ⊢
          by_cases hc : (cutAtCarriageReturn value).1.length ≥ cap
          · simp only [hc, if_true, Option.some.injEq] at h
            subst h
            simp
          · simp only [hc, if_false, Option.some.injEq] at h
            subst h
            refine ⟨fun hf => by simp at hf, fun _ => ⟨_, rfl, by omega, rfl⟩⟩

/-! ## The HTTP result -/


theorem responseLine_eq (front p s t n : List Nat) :
    responseLine front p s t n
      = front ++ [DATA_START_CHARACTER] ++ List.replicate 1 SPACE_CHARACTER
          ++ commaTerminated [p, s, t] ++ (n ++ [CARRIAGE_RETURN, LINE_FEED]) := by
  simp [responseLine, commaTerminated]

/-- The status-code extraction on a captured line `"<front>: p,s,t,n\r\n"`. -/
theorem status_code_extraction (front p s t n : List Nat)
    (hfront : ∀ x ∈ front, x ≠ DATA_START_CHARACTER ∧ x ≠ 0)
    (hp : p ≠ [] ∧ ∀ x ∈ p, x ≠ RESPONSE_DELIMITER ∧ x ≠ 0 ∧ x ≠ CARRIAGE_RETURN)
    (hp0 : ∀ a ∈ p.head?, a ≠ DATA_START_CHARACTER ∧ a ≠ SPACE_CHARACTER)
    (hs : s ≠ [] ∧ ∀ x ∈ s, x ≠ RESPONSE_DELIMITER ∧ x ≠ 0 ∧ x ≠ CARRIAGE_RETURN)
    (ht : t ≠ [] ∧ ∀ x ∈ t, x ≠ RESPONSE_DELIMITER ∧ x ≠ 0 ∧ x ≠ CARRIAGE_RETURN)
    (hn : ∀ x ∈ n, x ≠ 0) (hlen : s.length ≤ 3) :
    sequansControllerExtractValueFromCommandResponse (responseLine front p s t n)
        HTTP_RESPONSE_STATUS_CODE_INDEX
        (List.replicate (HTTP_RESPONSE_STATUS_CODE_LENGTH + 1) 0)
        (HTTP_RESPONSE_STATUS_CODE_LENGTH + 1)
      = some ⟨true, s ++ 0 :: List.replicate (3 - s.length) 0, true⟩ := by
  have h := (extract_comma_terminated front 1 [p, s, t] (n ++ [CARRIAGE_RETURN, LINE_FEED]) 1 s
    (List.replicate 4 0) 4 hfront
    (by
      intro u hu
      simp only [List.mem_cons, List.mem_singleton, List.not_mem_nil, or_false] at hu
      rcases hu with rfl | rfl | rfl
      · exact hp
      · exact hs
      · exact ht)
    (by
      intro u hu
      simp only [List.head?_cons, Option.mem_def, Option.some.injEq] at hu
      subst hu
      exact hp0)
    (by
      intro x hx
      simp only [List.mem_append, List.mem_cons, List.mem_singleton, List.not_mem_nil,
        or_false] at hx
      rcases hx with hx | rfl | rfl
      · exact hn x hx
      · decide
      · decide)
    (Or.inl (by simp)) (by decide) (by simp)).1
  rw [← responseLine_eq] at h
  rw [show HTTP_RESPONSE_STATUS_CODE_INDEX = 1 from rfl,
    show HTTP_RESPONSE_STATUS_CODE_LENGTH + 1 = 4 from rfl, h]
  have hlt : s.length < 4 := by omega
  simp only [hlt, if_true, memcpy, List.take_length, List.drop_replicate]
  congr 2
  have : 4 - s.length = (3 - s.length) + 1 := by omega
  rw [this, List.replicate_succ]

theorem tokenSpan_unterminated : ∀ l : List Nat,
    (∀ x ∈ l, x ≠ RESPONSE_DELIMITER ∧ x ≠ 0) → tokenSpan l = none := by
  intro l
  induction l with
  | nil => intro _; rfl
  | cons b l ih =>
    intro h
    have hb := h b (List.mem_cons_self _ _)
    rw [tokenSpan]
    simp only [hb.1, hb.2, or_self, if_false, ih (fun x hx => h x (List.mem_cons_of_mem _ hx))]
    rfl

theorem strtok_unterminated (l : List Nat)
    (h : ∀ x ∈ l, x ≠ RESPONSE_DELIMITER ∧ x ≠ 0) : strtok l = none := by
  cases l with
  | nil => rfl
  | cons b l =>
    have hb := h b (List.mem_cons_self _ _)
    rw [strtok]
    simp only [hb.1, hb.2, if_false, tokenSpan_unterminated (b :: l) h]

/-- The selection loop runs off the text when the index asks for a token
behind the last comma of a text without a zero. -/
theorem tokenLoop_runs_off (index : Nat) (hidx : index < 255) (tail1 : List Nat)
    (htail : ∀ x ∈ tail1, x ≠ RESPONSE_DELIMITER ∧ x ≠ 0) :
    ∀ (ts : List (List Nat)) (t : List Nat) (fuel vi : Nat),
      (∀ u ∈ ts, u ≠ [] ∧ ∀ x ∈ u, x ≠ RESPONSE_DELIMITER ∧ x ≠ 0) →
      vi + ts.length ≤ index → ts.length + 1 ≤ fuel →
      tokenLoop index fuel (some t) (commaTerminated ts ++ tail1) vi = none := by
  intro ts
  induction ts with
  | nil =>
    intro t fuel vi _ hvi hf
    obtain ⟨f, rfl⟩ : ∃ f, fuel = f + 1 := ⟨fuel - 1, by omega⟩
    have hle : vi ≤ index := by simpa using hvi
    rw [tokenLoop]
    simp only [hle, if_true, commaTerminated, List.map_nil, List.flatten_nil, List.nil_append,
      strtok_unterminated tail1 htail]
  | cons u ts ih =>
    intro t fuel vi hts hvi hf
    obtain ⟨f, rfl⟩ : ∃ f, fuel = f + 1 := ⟨fuel - 1, by omega⟩
    have hu := hts u (List.mem_cons_self _ _)
    simp only [List.length_cons] at hvi hf
    have hle : vi ≤ index := by omega
    have hmod : (vi + 1) % 256 = vi + 1 := by omega
    rw [tokenLoop]
    simp only [hle, if_true, commaTerminated_cons, List.append_assoc, List.cons_append,
      strtok_token u _ hu.1 hu.2, hmod]
    exact ih u f (vi + 1) (fun w hw => hts w (List.mem_cons_of_mem _ hw)) (by omega) (by omega)

theorem responseCopy_line (front p s t n : List Nat)
    (hz : ∀ x ∈ front ++ p ++ s ++ t ++ n, x ≠ 0) :
    responseCopy (responseLine front p s t n)
      = front ++ [DATA_START_CHARACTER, SPACE_CHARACTER] ++ p ++ [RESPONSE_DELIMITER]
          ++ s ++ [RESPONSE_DELIMITER] ++ t ++ [RESPONSE_DELIMITER] ++ n
          ++ [CARRIAGE_RETURN] := by
  have hzl : ∀ x ∈ responseLine front p s t n, x ≠ 0 := by
    intro x hx
    have hcases : (x ∈ front ∨ x ∈ p ∨ x ∈ s ∨ x ∈ t ∨ x ∈ n) ∨
        (x = DATA_START_CHARACTER ∨ x = SPACE_CHARACTER ∨ x = RESPONSE_DELIMITER ∨
          x = CARRIAGE_RETURN ∨ x = LINE_FEED) := by
      simp only [responseLine, List.mem_append, List.mem_cons, List.mem_singleton,
        List.not_mem_nil, or_false] at hx
      tauto
    rcases hcases with h | h
    · exact hz x (by simp only [List.mem_append]; tauto)
    · rcases h with rfl | rfl | rfl | rfl | rfl <;> decide
  unfold responseCopy
  simp only [takeWhile_ne_zero hzl]
  have hform : responseLine front p s t n
      = (front ++ [DATA_START_CHARACTER, SPACE_CHARACTER] ++ p ++ [RESPONSE_DELIMITER]
          ++ s ++ [RESPONSE_DELIMITER] ++ t ++ [RESPONSE_DELIMITER] ++ n)
          ++ CARRIAGE_RETURN :: [LINE_FEED] := rfl
  rw [hform]
  generalize front ++ [DATA_START_CHARACTER, SPACE_CHARACTER] ++ p ++ [RESPONSE_DELIMITER]
    ++ s ++ [RESPONSE_DELIMITER] ++ t ++ [RESPONSE_DELIMITER] ++ n = pre
  rw [strrchr_split (by decide) pre]
  simp only [Option.getD_some]
  rw [List.append_assoc, List.take_append]
  rfl

/-! ## Runs of commas -/


theorem tokenSpan_comma_step (c : List Nat) :
    ∀ a : List Nat, ∃ tok a2,
      tokenSpan (a ++ RESPONSE_DELIMITER :: RESPONSE_DELIMITER :: c)
        = some (tok, a2 ++ RESPONSE_DELIMITER :: RESPONSE_DELIMITER :: c) ∧
      tokenSpan (a ++ RESPONSE_DELIMITER :: c) = some (tok, a2 ++ RESPONSE_DELIMITER :: c) := by
  intro a
  induction a with
  | nil => exact ⟨[], [], by simp [tokenSpan], by simp [tokenSpan]⟩
  | cons x a ih =>
    by_cases hx : x = RESPONSE_DELIMITER ∨ x = 0
    · exact ⟨[], x :: a, by simp [tokenSpan, hx], by simp [tokenSpan, hx]⟩
    · obtain ⟨tok, a2, h1, h2⟩ := ih
      refine ⟨x :: tok, a2, ?_, ?_⟩
      · rw [List.cons_append, tokenSpan]; simp only [hx, if_false, h1]; rfl
      · rw [List.cons_append, tokenSpan]; simp only [hx, if_false, h2]; rfl

theorem strtok_comma_insert (c : List Nat) :
    ∀ a : List Nat,
      (strtok (a ++ RESPONSE_DELIMITER :: RESPONSE_DELIMITER :: c) = none ∧
        strtok (a ++ RESPONSE_DELIMITER :: c) = none) ∨
      ∃ v r1 r2, strtok (a ++ RESPONSE_DELIMITER :: RESPONSE_DELIMITER :: c) = some (v, r1) ∧
        strtok (a ++ RESPONSE_DELIMITER :: c) = some (v, r2) ∧ CommaStep r1 r2 := by
  intro a
  induction a with
  | nil =>
    have e : strtok ([] ++ RESPONSE_DELIMITER :: RESPONSE_DELIMITER :: c)
        = strtok ([] ++ RESPONSE_DELIMITER :: c) := by
      simp only [List.nil_append]
      rw [strtok]
      simp
    rw [e]
    cases h : strtok ([] ++ RESPONSE_DELIMITER :: c) with
    | none => exact Or.inl ⟨rfl, rfl⟩
    | some pr => exact Or.inr ⟨pr.1, pr.2, pr.2, rfl, rfl, Or.inl rfl⟩
  | cons x a ih =>
    by_cases hx : x = RESPONSE_DELIMITER
    · have e1 : strtok (x :: a ++ RESPONSE_DELIMITER :: RESPONSE_DELIMITER :: c)
          = strtok (a ++ RESPONSE_DELIMITER :: RESPONSE_DELIMITER :: c) := by
        rw [List.cons_append, strtok]; simp [hx]
      have e2 : strtok (x :: a ++ RESPONSE_DELIMITER :: c)
          = strtok (a ++ RESPONSE_DELIMITER :: c) := by
        rw [List.cons_append, strtok]; simp [hx]
      rw [e1, e2]
      exact ih
    · by_cases hz : x = 0
      · right
        refine ⟨none, x :: a ++ RESPONSE_DELIMITER :: RESPONSE_DELIMITER :: c,
          x :: a ++ RESPONSE_DELIMITER :: c, ?_, ?_, Or.inr (Or.inr ⟨x :: a, c, rfl, rfl⟩)⟩
        · rw [List.cons_append, strtok]; simp [hx, hz]
        · rw [List.cons_append, strtok]; simp [hx, hz]
      · right
        obtain ⟨tok, a2, h1, h2⟩ := tokenSpan_comma_step c (x :: a)
        rw [List.cons_append] at h1 h2
        cases a2 with
        | nil =>
          refine ⟨some tok, RESPONSE_DELIMITER :: c, c, ?_, ?_, Or.inr (Or.inl rfl)⟩
          · rw [List.cons_append, strtok]; simp only [hx, hz, if_false, h1]; simp
          · rw [List.cons_append, strtok]; simp only [hx, hz, if_false, h2]; simp
        | cons d a3 =>
          by_cases hd : d = RESPONSE_DELIMITER
          · refine ⟨some tok, a3 ++ RESPONSE_DELIMITER :: RESPONSE_DELIMITER :: c,
              a3 ++ RESPONSE_DELIMITER :: c, ?_, ?_, Or.inr (Or.inr ⟨a3, c, rfl, rfl⟩)⟩
            · rw [List.cons_append, strtok]; simp only [hx, hz, if_false, h1]; simp [hd]
            · rw [List.cons_append, strtok]; simp only [hx, hz, if_false, h2]; simp [hd]
          · refine ⟨some tok, d :: a3 ++ RESPONSE_DELIMITER :: RESPONSE_DELIMITER :: c,
              d :: a3 ++ RESPONSE_DELIMITER :: c, ?_, ?_,
              Or.inr (Or.inr ⟨d :: a3, c, rfl, rfl⟩)⟩
            · rw [List.cons_append, strtok]; simp only [hx, hz, if_false, h1]; simp [hd]
            · rw [List.cons_append, strtok]; simp only [hx, hz, if_false, h2]; simp [hd]

theorem strtok_comma_step {p q : List Nat} (h : CommaStep p q) :
    (strtok p = none ∧ strtok q = none) ∨
    ∃ v r1 r2, strtok p = some (v, r1) ∧ strtok q = some (v, r2) ∧ CommaStep r1 r2 := by
  rcases h with rfl | rfl | ⟨a, c, rfl, rfl⟩
  · cases hs : strtok p with
    | none => exact Or.inl ⟨rfl, rfl⟩
    | some pr => exact Or.inr ⟨pr.1, pr.2, pr.2, rfl, rfl, Or.inl rfl⟩
  · have e : strtok (RESPONSE_DELIMITER :: q) = strtok q := by rw [strtok]; simp
    rw [e]
    cases hs : strtok q with
    | none => exact Or.inl ⟨rfl, rfl⟩
    | some pr => exact Or.inr ⟨pr.1, pr.2, pr.2, rfl, rfl, Or.inl rfl⟩
  · exact strtok_comma_insert c a

theorem tokenLoop_comma_step (index : Nat) :
    ∀ (fuel : Nat) (value : Option (List Nat)) (s1 s2 : List Nat) (vi : Nat),
      CommaStep s1 s2 →
      tokenLoop index fuel value s1 vi = tokenLoop index fuel value s2 vi := by
  intro fuel
  induction fuel with
  | zero => intro value s1 s2 vi _; rw [tokenLoop, tokenLoop]
  | succ fuel ih =>
    intro value s1 s2 vi h
    cases value with
    | none => rw [tokenLoop, tokenLoop]
    | some tok =>
      rw [tokenLoop, tokenLoop]
      by_cases hvi : vi ≤ index
      · simp only [hvi, if_true]
        rcases strtok_comma_step h with ⟨h1, h2⟩ | ⟨v, r1, r2, h1, h2, h3⟩
        · rw [h1, h2]
        · rw [h1, h2]
          exact ih v r1 r2 _ h3
      · simp only [hvi, if_false]


theorem skipDataStart_comma_step (c : List Nat) :
    ∀ a : List Nat, ∃ a2,
      skipDataStart (a ++ RESPONSE_DELIMITER :: RESPONSE_DELIMITER :: c)
        = some (a2 ++ RESPONSE_DELIMITER :: RESPONSE_DELIMITER :: c) ∧
      skipDataStart (a ++ RESPONSE_DELIMITER :: c) = some (a2 ++ RESPONSE_DELIMITER :: c) := by
  intro a
  induction a with
  | nil => exact ⟨[], by simp [skipDataStart], by simp [skipDataStart]⟩
  | cons x a ih =>
    by_cases hx : x = DATA_START_CHARACTER ∨ x = SPACE_CHARACTER
    · obtain ⟨a2, h1, h2⟩ := ih
      refine ⟨a2, ?_, ?_⟩
      · rw [List.cons_append, skipDataStart]; simp only [hx, if_true, h1]
      · rw [List.cons_append, skipDataStart]; simp only [hx, if_true, h2]
    · refine ⟨x :: a, ?_, ?_⟩
      · rw [List.cons_append, skipDataStart]; simp only [hx, if_false]
      · rw [List.cons_append, skipDataStart]; simp only [hx, if_false]

theorem strchr_comma_step (c : List Nat) :
    ∀ a : List Nat,
      strchr DATA_START_CHARACTER (a ++ RESPONSE_DELIMITER :: RESPONSE_DELIMITER :: c)
        = strchr DATA_START_CHARACTER (a ++ RESPONSE_DELIMITER :: c) ∨
      ∃ a2, strchr DATA_START_CHARACTER (a ++ RESPONSE_DELIMITER :: RESPONSE_DELIMITER :: c)
          = some (some (a2 ++ RESPONSE_DELIMITER :: RESPONSE_DELIMITER :: c)) ∧
        strchr DATA_START_CHARACTER (a ++ RESPONSE_DELIMITER :: c)
          = some (some (a2 ++ RESPONSE_DELIMITER :: c)) := by
  intro a
  induction a with
  | nil =>
    left
    simp only [List.nil_append]
    rw [strchr]
    simp
  | cons x a ih =>
    by_cases hx : x = DATA_START_CHARACTER
    · right
      refine ⟨x :: a, ?_, ?_⟩
      · rw [List.cons_append, strchr]; simp only [hx, if_true]
      · rw [List.cons_append, strchr]; simp only [hx, if_true]
    · by_cases hz : x = 0
      · left
        subst hz
        rw [List.cons_append, List.cons_append, strchr, strchr]
        simp only [hx, if_false, if_true]
      · rw [List.cons_append, List.cons_append, strchr, strchr]
        simp only [hx, hz, if_false]
        exact ih

theorem text_comma_step (b : List Nat) :
    ∀ a : List Nat,
      (a ++ RESPONSE_DELIMITER :: RESPONSE_DELIMITER :: b).takeWhile (· ≠ 0)
        = (a ++ RESPONSE_DELIMITER :: b).takeWhile (· ≠ 0) ∨
      ((a ++ RESPONSE_DELIMITER :: RESPONSE_DELIMITER :: b).takeWhile (· ≠ 0)
          = a ++ RESPONSE_DELIMITER :: RESPONSE_DELIMITER :: b.takeWhile (· ≠ 0) ∧
        (a ++ RESPONSE_DELIMITER :: b).takeWhile (· ≠ 0)
          = a ++ RESPONSE_DELIMITER :: b.takeWhile (· ≠ 0)) := by
  intro a
  induction a with
  | nil => right; simp [List.takeWhile_cons]
  | cons x a ih =>
    by_cases hz : x = 0
    · left
      subst hz
      simp [List.takeWhile_cons]
    · rcases ih with h | ⟨h1, h2⟩
      · left
        rw [List.cons_append, List.cons_append, List.takeWhile_cons, List.takeWhile_cons, h]
      · right
        constructor
        · rw [List.cons_append, List.takeWhile_cons, h1]; simp [hz]
        · rw [List.cons_append, List.takeWhile_cons, h2]; simp [hz]

theorem strrchr_append (c : Nat) (ys : List Nat) :
    ∀ xs : List Nat, strrchr c (xs ++ ys) =
      match strrchr c ys with
      | some k => some (xs.length + k)
      | none => strrchr c xs := by
  intro xs
  induction xs with
  | nil => cases h : strrchr c ys <;> simp [h, strrchr]
  | cons x xs ih =>
    rw [List.cons_append, strrchr, ih]
    cases h : strrchr c ys with
    | some k => simp only [List.length_cons]; congr 1; omega
    | none => simp only; rw [strrchr]


theorem responseCopy_comma_step (a b : List Nat) :
    responseCopy (a ++ RESPONSE_DELIMITER :: RESPONSE_DELIMITER :: b)
      = responseCopy (a ++ RESPONSE_DELIMITER :: b) ∨
    ∃ c, responseCopy (a ++ RESPONSE_DELIMITER :: RESPONSE_DELIMITER :: b)
        = a ++ RESPONSE_DELIMITER :: RESPONSE_DELIMITER :: c ∧
      responseCopy (a ++ RESPONSE_DELIMITER :: b) = a ++ RESPONSE_DELIMITER :: c := by
  unfold responseCopy
  simp only
  rcases text_comma_step b a with h | ⟨h1, h2⟩
  · left; rw [h]
  · rw [h1, h2]
    generalize b.takeWhile (· ≠ 0) = b1
    rw [strrchr_append CARRIAGE_RETURN (RESPONSE_DELIMITER :: RESPONSE_DELIMITER :: b1) a,
      strrchr_append CARRIAGE_RETURN (RESPONSE_DELIMITER :: b1) a]
    cases hk : strrchr CARRIAGE_RETURN b1 with
    | some k =>
      have e2 : strrchr CARRIAGE_RETURN (RESPONSE_DELIMITER :: RESPONSE_DELIMITER :: b1)
          = some (k + 2) := by rw [strrchr, strrchr, hk]
      have e1 : strrchr CARRIAGE_RETURN (RESPONSE_DELIMITER :: b1) = some (k + 1) := by
        rw [strrchr, hk]
      right
      refine ⟨(b1 ++ [0]).take (k + 1), ?_, ?_⟩
      · rw [e2]
        simp only [Option.getD_some]
        rw [List.append_assoc, show a.length + (k + 2) + 1 = a.length + (k + 3) by omega,
          List.take_append]
        rfl
      · rw [e1]
        simp only [Option.getD_some]
        rw [List.append_assoc, show a.length + (k + 1) + 1 = a.length + (k + 2) by omega,
          List.take_append]
        rfl
    | none =>
      have e2 : strrchr CARRIAGE_RETURN (RESPONSE_DELIMITER :: RESPONSE_DELIMITER :: b1)
          = none := by rw [strrchr, strrchr, hk]; simp
      have e1 : strrchr CARRIAGE_RETURN (RESPONSE_DELIMITER :: b1) = none := by
        rw [strrchr, hk]; simp
      rw [e1, e2]
      simp only
      cases hj : strrchr CARRIAGE_RETURN a with
      | some j =>
        have hlt := strrchr_lt hj
        left
        simp only [Option.getD_some]
        rw [List.append_assoc, List.append_assoc, List.take_append_of_le_length (by omega),
          List.take_append_of_le_length (by omega)]
      | none =>
        right
        refine ⟨b1 ++ [0], ?_, ?_⟩
        · simp only [Option.getD_none]
          rw [List.take_of_length_le (by simp; omega)]
          simp
        · simp only [Option.getD_none]
          rw [List.take_of_length_le (by simp; omega)]
          simp


theorem selectValue_comma_step (fuel : Nat) (a c : List Nat) (index : Nat) :
    selectValue fuel (a ++ RESPONSE_DELIMITER :: RESPONSE_DELIMITER :: c) index
      = selectValue fuel (a ++ RESPONSE_DELIMITER :: c) index := by
  unfold selectValue
  obtain ⟨a2, h1, h2⟩ := skipDataStart_comma_step c a
  rw [h1, h2]
  simp only
  rcases strtok_comma_insert c a2 with ⟨e1, e2⟩ | ⟨v, r1, r2, e1, e2, e3⟩
  · rw [e1, e2]
  · rw [e1, e2]
    exact tokenLoop_comma_step index fuel v r1 r2 1 e3

/-- One comma more in a run of commas changes nothing in what the extractor
returns. -/
theorem extract_comma_step (a b : List Nat) (index : Nat) (buffer : List Nat) (cap : Nat) :
    sequansControllerExtractValueFromCommandResponse
        (a ++ RESPONSE_DELIMITER :: RESPONSE_DELIMITER :: b) index buffer cap
      = sequansControllerExtractValueFromCommandResponse
        (a ++ RESPONSE_DELIMITER :: b) index buffer cap := by
  unfold sequansControllerExtractValueFromCommandResponse
  simp only
  rcases responseCopy_comma_step a b with h | ⟨c, h1, h2⟩
  · rw [h]
  · rw [h1, h2]
    have hfuel : (a ++ RESPONSE_DELIMITER :: RESPONSE_DELIMITER :: c).length + 2
        = (a ++ RESPONSE_DELIMITER :: c).length + 2 + 1 := by
      simp only [List.length_append, List.length_cons]; omega
    rw [hfuel]
    rcases strchr_comma_step c a with hs | ⟨a2, hs1, hs2⟩
    · rw [hs]
      cases hq : strchr DATA_START_CHARACTER (a ++ RESPONSE_DELIMITER :: c) with
      | none => rfl
      | some o =>
        cases o with
        | none => rfl
        | some data =>
          simp only
          rw [selectValue_bound_irrelevant _ 1 data index (strchr_length hq)]
    · rw [hs1, hs2]
      simp only
      rw [selectValue_comma_step,
        selectValue_bound_irrelevant _ 1 _ index (strchr_length hs2)]

/-! ## The response body of the HTTP client -/


theorem readLoop_consumed_le (N cap : Nat) :
    ∀ (sched : List (Option Nat)) (buf : List Nat) (i r : Nat), i ≤ cap →
      (readLoop N cap sched buf i r).consumed ≤ cap := by
  intro sched
  induction sched with
  | nil =>
    intro buf i r hle
    rw [readLoop]
    split <;> exact hle
  | cons o t ih =>
    intro buf i r hle
    by_cases hi : i < cap
    · cases o with
      | none =>
        by_cases hm : (r + 1) % 256 = N
        · rw [readLoop_none_timeout N cap t buf i r hi hm]; exact hle
        · rw [readLoop_none_step N cap t buf i r hi hm]; exact ih _ _ _ hle
      | some b =>
        rcases readLoop_byte_cases N cap b buf i r hi with h | ⟨run, _, _, h⟩
        · rw [h t]; exact ih _ _ _ (by omega)
        · have h0 := h []
          rw [h t, ← h0, readLoop]
          simp only [hi, if_true]
          repeat' split
          all_goals first
            | (simp only []; omega)
            | (rw [readLoop]; split <;> simp only [] <;> omega)
    · rw [readLoop_full N cap _ buf i r hi]; exact hle

theorem strlen_zero_padded (rest : List Nat) :
    ∀ T : List Nat, strlen (T ++ 0 :: rest) = some (T.takeWhile (· ≠ 0)).length := by
  intro T
  induction T with
  | nil => simp [strlen]
  | cons b T ih =>
    rw [List.cons_append, strlen]
    by_cases hb : b = 0
    · simp [hb]
    · simp only [hb, if_false, ih, Option.map_some']
      simp [List.takeWhile_cons, hb]


/-- The body reader once the start bytes have been taken, in terms of the
response read that follows. -/
theorem readResponseBody_after_start (N fuel size : Nat) (buffer : List Nat)
    (rx : List (Option Nat)) (ready : List Bool) (sent : List Nat)
    (rx1 rx2 rx3 : List (Option Nat))
    (hsize : 64 ≤ size ∧ size ≤ 1500)
    (hclear : clearReceiveBuffer N fuel rx = (none, rx1))
    (hwrite : (sequansControllerWriteCommand N (receiveCommand size) ready sent).result ≠ none)
    (hwait : waitForFirstByte rx1 = some rx2)
    (hstart : skipStartBytes rx2 3 = some rx3) :
    ((sequansControllerReadResponse N buffer size rx3).result = .returned .ERROR →
      (httpClientReadResponseBody N fuel buffer size rx ready sent).result = .returned 0 ∧
      (httpClientReadResponseBody N fuel buffer size rx ready sent).buffer
        = (sequansControllerReadResponse N buffer size rx3).out_buffer ∧
      (httpClientReadResponseBody N fuel buffer size rx ready sent).stored_before_buffer
        = false) ∧
    ((sequansControllerReadResponse N buffer size rx3).result = .returned .OK →
      ∀ n, strlen (sequansControllerReadResponse N buffer size rx3).out_buffer = some n →
        2 ≤ n →
      (httpClientReadResponseBody N fuel buffer size rx ready sent).result
        = .returned (toInt16 ((n : Int) - 2)) ∧
      (httpClientReadResponseBody N fuel buffer size rx ready sent).buffer
        = memsetZero (sequansControllerReadResponse N buffer size rx3).out_buffer (n - 2) 2 ∧
      (httpClientReadResponseBody N fuel buffer size rx ready sent).stored_before_buffer
        = false) := by
  have hg : ¬ (size < HTTP_BODY_BUFFER_MIN_SIZE ∨ size > HTTP_BODY_BUFFER_MAX_SIZE) := by
    simp only [HTTP_BODY_BUFFER_MIN_SIZE, HTTP_BODY_BUFFER_MAX_SIZE]; omega
  have hmod : size % 65536 = size := by omega
  unfold httpClientReadResponseBody
  rw [if_neg hg, hclear]
  simp only [hwait, hstart, hmod]
  cases hw : (sequansControllerWriteCommand N (receiveCommand size) ready sent).result with
  | none => exact absurd hw hwrite
  | some ok =>
    simp only
    constructor
    · intro he
      simp only [he]
      exact ⟨trivial, trivial, trivial⟩
    · intro ho n hn h2
      simp only [ho, hn, h2, if_true]
      exact ⟨trivial, trivial, trivial⟩


/-- The buffer a response read that ended with OK leaves on a zero-initialised
buffer, and what the two stores of the body reader make of it. -/
theorem body_text_left (size k : Nat) (recv : List Nat) (hk : k + 4 ≤ size)
    (hlen : k < recv.length) (text : List Nat)
    (htext : text = (recv.take k).takeWhile (· ≠ 0)) (h2 : 2 ≤ text.length) :
    strlen (recv.take k ++ List.replicate (size - k) 0) = some text.length ∧
    text.length ≤ k ∧
    strlen (memsetZero (recv.take k ++ List.replicate (size - k) 0) (text.length - 2) 2)
      = some (text.length - 2) ∧
    (memsetZero (recv.take k ++ List.replicate (size - k) 0) (text.length - 2) 2).take
      (text.length - 2) = text.take (text.length - 2) ∧
    (memsetZero (recv.take k ++ List.replicate (size - k) 0) (text.length - 2) 2).length
      = size := by
  have hT : (recv.take k).length = k := by rw [List.length_take]; omega
  obtain ⟨m, hm⟩ : ∃ m, size - k = m + 1 := ⟨size - k - 1, by omega⟩
  have hle : text.length ≤ k := by
    have hs : ((recv.take k).takeWhile (· ≠ 0)).length ≤ (recv.take k).length :=
      (List.takeWhile_sublist _).length_le
    rw [htext]
    omega
  have hsplit : recv.take k = text ++ (recv.take k).dropWhile (· ≠ 0) := by
    rw [htext, List.takeWhile_append_dropWhile]
  have hfree : ∀ x ∈ text, x ≠ 0 := by
    intro x hx
    rw [htext] at hx
    simpa using List.mem_takeWhile_imp hx
  have hout_len : (recv.take k ++ List.replicate (size - k) 0).length = size := by
    rw [List.length_append, hT, List.length_replicate]; omega
  have htake : (recv.take k ++ List.replicate (size - k) 0).take (text.length - 2)
      = text.take (text.length - 2) := by
    rw [hsplit, List.append_assoc, List.take_append_of_le_length (by omega)]
  have h1 : strlen (recv.take k ++ List.replicate (size - k) 0) = some text.length := by
    rw [hm, List.replicate_succ, strlen_zero_padded, htext]
  have hms : memsetZero (recv.take k ++ List.replicate (size - k) 0) (text.length - 2) 2
      = text.take (text.length - 2) ++ 0 :: (0 ::
          (recv.take k ++ List.replicate (size - k) 0).drop (text.length - 2 + 2)) := by
    unfold memsetZero
    rw [htake]
    simp [List.replicate_succ]
  refine ⟨h1, hle, ?_, ?_, ?_⟩
  · rw [hms, strlen_token _ _ (fun x hx => hfree x (List.mem_of_mem_take hx)),
      List.length_take]
    congr 1
    omega
  · rw [hms, List.take_append_of_le_length (by rw [List.length_take]; omega),
      List.take_take]
    simp
  · rw [hms]
    simp only [List.length_append, List.length_cons, List.length_take, List.length_drop,
      hout_len]
    omega


theorem toInt16_small (n : Nat) (h : n < 32768) : toInt16 (n : Int) = (n : Int) := by
  unfold toInt16
  have h1 : (n : Int) % 65536 = (n : Int) := by omega
  rw [h1]
  simp only [ite_eq_left_iff]
  intro h2
  omega

/-- The body reader on a zero-initialised buffer, once the start bytes have
been taken: when the response read ends with ERROR the call returns 0; when it
ends with OK and the text received before the terminator, up to its first zero
byte, has at least two bytes, the call returns the length of that text minus
two and leaves the text without its last two bytes. -/
theorem readResponseBody_length (N fuel size : Nat)
    (rx : List (Option Nat)) (ready : List Bool) (sent : List Nat)
    (rx1 rx2 rx3 : List (Option Nat))
    (hsize : 64 ≤ size ∧ size ≤ 1500)
    (hclear : clearReceiveBuffer N fuel rx = (none, rx1))
    (hwrite : (sequansControllerWriteCommand N (receiveCommand size) ready sent).result ≠ none)
    (hwait : waitForFirstByte rx1 = some rx2)
    (hstart : skipStartBytes rx2 3 = some rx3) :
    ((sequansControllerReadResponse N (List.replicate size 0) size rx3).result
        = .returned .ERROR →
      (httpClientReadResponseBody N fuel (List.replicate size 0) size rx ready sent).result
        = .returned 0 ∧
      (httpClientReadResponseBody N fuel (List.replicate size 0) size rx ready
        sent).stored_before_buffer = false) ∧
    ((sequansControllerReadResponse N (List.replicate size 0) size rx3).result
        = .returned .OK →
      ∃ k text, OK_TERMINATION <+: (received rx3).drop k ∧
        text = ((received rx3).take k).takeWhile (· ≠ 0) ∧
        (2 ≤ text.length →
          (httpClientReadResponseBody N fuel (List.replicate size 0) size rx ready sent).result
            = .returned ((text.length : Int) - 2) ∧
          strlen (httpClientReadResponseBody N fuel (List.replicate size 0) size rx ready
            sent).buffer = some (text.length - 2) ∧
          (httpClientReadResponseBody N fuel (List.replicate size 0) size rx ready
            sent).buffer.take (text.length - 2) = text.take (text.length - 2) ∧
          (httpClientReadResponseBody N fuel (List.replicate size 0) size rx ready
            sent).buffer.length = size ∧
          (httpClientReadResponseBody N fuel (List.replicate size 0) size rx ready
            sent).stored_before_buffer = false ∧
          ∀ body, text = body ++ [CARRIAGE_RETURN, LINE_FEED] →
            (httpClientReadResponseBody N fuel (List.replicate size 0) size rx ready
              sent).result = .returned (body.length : Int) ∧
            (httpClientReadResponseBody N fuel (List.replicate size 0) size rx ready
              sent).buffer.take body.length = body)) := by
  obtain ⟨hE, hO⟩ := readResponseBody_after_start N fuel size (List.replicate size 0) rx ready
    sent rx1 rx2 rx3 hsize hclear hwrite hwait hstart
  constructor
  · intro he
    exact ⟨(hE he).1, (hE he).2.2⟩
  · intro ho
    have hnc := (readLoop_null_clean N size rx3 [] 0 (Nat.zero_le _)).1
    have hcons := readLoop_consumed_le N size rx3 (List.replicate size 0) 0 0 (Nat.zero_le _)
    rw [filled_nil] at hnc
    simp only [List.nil_append, List.length_nil] at hnc
    unfold sequansControllerReadResponse at ho hO
    obtain ⟨k, hpre, hk4, hout⟩ := hnc ho
    have hk : k + 4 ≤ size := by
      have : OK_TERMINATION.length = 4 := rfl
      omega
    have hlen : k < (received rx3).length := by
      have := hpre.length_le
      simp only [List.length_drop] at this
      have h4 : OK_TERMINATION.length = 4 := rfl
      omega
    refine ⟨k, _, hpre, rfl, fun h2 => ?_⟩
    obtain ⟨b1, b2, b3, b4, b5⟩ := body_text_left size k (received rx3) hk hlen _ rfl h2
    rw [← hout] at b1 b3 b4 b5
    obtain ⟨r1, r2, r3⟩ := hO ho _ b1 h2
    have hcast : (((((received rx3).take k).takeWhile (· ≠ 0)).length - 2 : Nat) : Int)
        = ((((received rx3).take k).takeWhile (· ≠ 0)).length : Int) - 2 := by
      omega
    have hres : (httpClientReadResponseBody N fuel (List.replicate size 0) size rx ready
        sent).result = .returned
          (((((received rx3).take k).takeWhile (· ≠ 0)).length : Int) - 2) := by
      rw [r1, ← hcast, toInt16_small _ (by omega)]
    refine ⟨hres, ?_, ?_, ?_, r3, ?_⟩
    · rw [r2]; exact b3
    · rw [r2]; exact b4
    · rw [r2]; exact b5
    · intro body hb
      have hbl : (((received rx3).take k).takeWhile (· ≠ 0)).length = body.length + 2 := by
        rw [hb]; simp
      constructor
      · rw [hres, hbl]
        congr 1
        omega
      · have := b4
        rw [← r2, hbl, hb] at this
        simpa using this

/-- What the early return and the trim do: after `"<<<\r\nERROR\r\n"` the call
returns 0 while `"\r\n"` is left in the buffer, and after `"<<<helloOK\r\n"` it
returns 3 and leaves `"hel"`. -/
theorem readResponseBody_count_is_not_text_length :
    (httpClientReadResponseBody 5 1 (List.replicate 64 0) 64
      ([none] ++ (bytes "<<<\r\nERROR\r\n").map some) (List.replicate 20 true) []).result
      = .returned 0 ∧
    strlen (httpClientReadResponseBody 5 1 (List.replicate 64 0) 64
      ([none] ++ (bytes "<<<\r\nERROR\r\n").map some) (List.replicate 20 true) []).buffer
      = some 2 ∧
    (httpClientReadResponseBody 5 1 (List.replicate 64 0) 64
      ([none] ++ (bytes "<<<helloOK\r\n").map some) (List.replicate 20 true) []).result
      = .returned 3 ∧
    (httpClientReadResponseBody 5 1 (List.replicate 64 0) 64
      ([none] ++ (bytes "<<<helloOK\r\n").map some) (List.replicate 20 true) []).buffer
      = bytes "hel" ++ List.replicate 61 0 := by
  decide

/-! ## Field indices -/


theorem skipDataStart_skips (a : Nat) (rest : List Nat)
    (ha : a ≠ DATA_START_CHARACTER ∧ a ≠ SPACE_CHARACTER) :
    ∀ skip : List Nat, (∀ x ∈ skip, x = DATA_START_CHARACTER ∨ x = SPACE_CHARACTER) →
      skipDataStart (skip ++ a :: rest) = some (a :: rest) := by
  intro skip
  induction skip with
  | nil => intro _; simp [skipDataStart, ha.1, ha.2]
  | cons x skip ih =>
    intro h
    rw [List.cons_append, skipDataStart]
    simp only [h x (List.mem_cons_self _ _), if_true]
    exact ih (fun y hy => h y (List.mem_cons_of_mem _ hy))

/-- The token the selection loop ends on, for a response made of a header
without marker, the marker, a run of `':'` and spaces, and tokens each
followed by a comma: index `n` selects the token with 0-based position `n`. -/
theorem selectedValue_comma_terminated (hdr skip : List Nat) (toks : List (List Nat))
    (tail : List Nat) (index : Nat) (tok : List Nat)
    (hhdr : ∀ x ∈ hdr, x ≠ DATA_START_CHARACTER ∧ x ≠ 0)
    (hskip : ∀ x ∈ skip, x = DATA_START_CHARACTER ∨ x = SPACE_CHARACTER)
    (htoks : ∀ u ∈ toks, u ≠ [] ∧ ∀ x ∈ u, x ≠ RESPONSE_DELIMITER ∧ x ≠ 0)
    (hfirst : ∀ u ∈ toks.head?, ∀ a ∈ u.head?, a ≠ DATA_START_CHARACTER ∧ a ≠ SPACE_CHARACTER)
    (htail : ∀ x ∈ tail, x ≠ 0)
    (hcr : CARRIAGE_RETURN ∈ tail ∨ CARRIAGE_RETURN ∉
      hdr ++ [DATA_START_CHARACTER] ++ skip ++ commaTerminated toks ++ tail)
    (hidx : index < 255) (htok : toks[index]? = some tok) :
    selectedValue (hdr ++ [DATA_START_CHARACTER] ++ skip ++ commaTerminated toks ++ tail) index
      = some tok := by
  have hlt : index < toks.length := by
    rcases Nat.lt_or_ge index toks.length with h | h
    · exact h
    · rw [List.getElem?_eq_none h] at htok; simp at htok
  have hct0 : ∀ x ∈ commaTerminated toks, x ≠ 0 := by
    intro x hx
    simp only [commaTerminated, List.mem_flatten, List.mem_map] at hx
    obtain ⟨l, ⟨u, hu, rfl⟩, hxl⟩ := hx
    rcases List.mem_append.mp hxl with h | h
    · exact ((htoks u hu).2 x h).2
    · simp at h; subst h; decide
  have hz : ∀ x ∈ (hdr ++ [DATA_START_CHARACTER] ++ skip ++ commaTerminated toks) ++ tail,
      x ≠ 0 := by
    intro x hx
    simp only [List.mem_append, List.mem_singleton] at hx
    rcases hx with (((h | h) | h) | h) | h
    · exact (hhdr x h).2
    · subst h; decide
    · rcases hskip x h with e | e <;> (rw [e]; decide)
    · exact hct0 x h
    · exact htail x h
  obtain ⟨tail1, hcopy⟩ := responseCopy_append _ tail hz hcr
  cases toks with
  | nil => simp at hlt
  | cons u ts =>
    have hu := htoks u (List.mem_cons_self _ _)
    obtain ⟨a, u', rfl⟩ : ∃ a u', u = a :: u' := by
      cases u with
      | nil => exact absurd rfl hu.1
      | cons a u' => exact ⟨a, u', rfl⟩
    have ha := hfirst (a :: u') (by simp) a (by simp)
    have hshape : hdr ++ [DATA_START_CHARACTER] ++ skip
        ++ commaTerminated ((a :: u') :: ts) ++ tail1
        = hdr ++ DATA_START_CHARACTER :: (skip
          ++ a :: (u' ++ RESPONSE_DELIMITER :: (commaTerminated ts ++ tail1))) := by
      simp [commaTerminated_cons]
    have hstrchr := strchr_found DATA_START_CHARACTER (skip
        ++ a :: (u' ++ RESPONSE_DELIMITER :: (commaTerminated ts ++ tail1))) hdr hhdr
    have hskip' : skipDataStart (DATA_START_CHARACTER :: (skip
        ++ a :: (u' ++ RESPONSE_DELIMITER :: (commaTerminated ts ++ tail1))))
        = some (a :: (u' ++ RESPONSE_DELIMITER :: (commaTerminated ts ++ tail1))) := by
      rw [skipDataStart]
      simp only [true_or, if_true]
      exact skipDataStart_skips a _ ha skip hskip
    have htk := strtok_token (a :: u') (commaTerminated ts ++ tail1) (by simp) hu.2
    rw [List.cons_append] at htk
    have hfuel : index + 1 ≤ (hdr ++ [DATA_START_CHARACTER] ++ skip
        ++ commaTerminated ((a :: u') :: ts) ++ tail1).length + 2 := by
      have := commaTerminated_length ((a :: u') :: ts)
      simp only [List.length_append]
      omega
    have hloop := tokenLoop_select index hidx tail1 index ts (a :: u')
      ((hdr ++ [DATA_START_CHARACTER] ++ skip
        ++ commaTerminated ((a :: u') :: ts) ++ tail1).length + 2) 1
      (fun w hw => htoks w (List.mem_cons_of_mem _ hw)) (by omega)
      (by simpa using Nat.le_of_lt_succ hlt) hfuel
    rw [htok] at hloop
    have hsel : selectValue ((hdr ++ [DATA_START_CHARACTER] ++ skip
        ++ commaTerminated ((a :: u') :: ts) ++ tail1).length + 2)
        (DATA_START_CHARACTER :: (skip
          ++ a :: (u' ++ RESPONSE_DELIMITER :: (commaTerminated ts ++ tail1)))) index
        = some (some tok) := by
      rw [selectValue, hskip']
      simp only [htk]
      exact hloop
    unfold selectedValue
    simp only [hcopy]
    rw [hshape] at hsel ⊢
    simp only [hstrchr, hsel]

/-! ## The data size of an HTTP response line -/

/-- The data-size extraction on every captured line `"<front>: p,s,t,n\r\n"`:
the fourth field is the last token of a copy without terminating zero, so the
scan for its end leaves the copy, whatever the output buffer and capacity. -/
theorem data_size_extraction_undefined (front p s t n buffer : List Nat) (cap : Nat)
    (hfront : ∀ x ∈ front, x ≠ DATA_START_CHARACTER ∧ x ≠ 0)
    (hp : p ≠ [] ∧ ∀ x ∈ p, x ≠ RESPONSE_DELIMITER ∧ x ≠ 0)
    (hp0 : ∀ a ∈ p.head?, a ≠ DATA_START_CHARACTER ∧ a ≠ SPACE_CHARACTER)
    (hs : s ≠ [] ∧ ∀ x ∈ s, x ≠ RESPONSE_DELIMITER ∧ x ≠ 0)
    (ht : t ≠ [] ∧ ∀ x ∈ t, x ≠ RESPONSE_DELIMITER ∧ x ≠ 0)
    (hn : ∀ x ∈ n, x ≠ RESPONSE_DELIMITER ∧ x ≠ 0) :
    sequansControllerExtractValueFromCommandResponse (responseLine front p s t n)
        HTTP_RESPONSE_DATA_SIZE_INDEX buffer cap = none := by
  have hz : ∀ x ∈ front ++ p ++ s ++ t ++ n, x ≠ 0 := by
    intro x hx
    simp only [List.mem_append] at hx
    rcases hx with (((h | h) | h) | h) | h
    · exact (hfront x h).2
    · exact (hp.2 x h).2
    · exact (hs.2 x h).2
    · exact (ht.2 x h).2
    · exact (hn x h).2
  obtain ⟨a, p1, rfl⟩ := List.exists_cons_of_ne_nil hp.1
  have ha := hp0 a (by simp)
  have hshape : front ++ [DATA_START_CHARACTER, SPACE_CHARACTER] ++ (a :: p1)
      ++ [RESPONSE_DELIMITER] ++ s ++ [RESPONSE_DELIMITER] ++ t ++ [RESPONSE_DELIMITER] ++ n
      ++ [CARRIAGE_RETURN]
      = front ++ DATA_START_CHARACTER :: ([SPACE_CHARACTER] ++ a :: (p1 ++ RESPONSE_DELIMITER ::
          (commaTerminated [s, t] ++ (n ++ [CARRIAGE_RETURN])))) := by
    simp [commaTerminated]
  have hstrchr := strchr_found DATA_START_CHARACTER ([SPACE_CHARACTER] ++ a :: (p1
      ++ RESPONSE_DELIMITER :: (commaTerminated [s, t] ++ (n ++ [CARRIAGE_RETURN])))) front hfront
  have hskip : skipDataStart (DATA_START_CHARACTER :: ([SPACE_CHARACTER] ++ a :: (p1
      ++ RESPONSE_DELIMITER :: (commaTerminated [s, t] ++ (n ++ [CARRIAGE_RETURN])))))
      = some (a :: (p1 ++ RESPONSE_DELIMITER ::
          (commaTerminated [s, t] ++ (n ++ [CARRIAGE_RETURN])))) := by
    rw [skipDataStart]
    simp only [true_or, if_true]
    exact skipDataStart_skips a _ ha [SPACE_CHARACTER] (by simp)
  have htk := strtok_token (a :: p1) (commaTerminated [s, t] ++ (n ++ [CARRIAGE_RETURN]))
    (by simp) hp.2
  rw [List.cons_append] at htk
  have htail : ∀ x ∈ n ++ [CARRIAGE_RETURN], x ≠ RESPONSE_DELIMITER ∧ x ≠ 0 := by
    intro x hx
    rcases List.mem_append.mp hx with h | h
    · exact hn x h
    · simp at h; subst h; decide
  have hloop : ∀ fuel, 3 ≤ fuel →
      tokenLoop 3 fuel (some (a :: p1)) (commaTerminated [s, t] ++ (n ++ [CARRIAGE_RETURN])) 1
        = none :=
    fun fuel hf => tokenLoop_runs_off 3 (by decide) (n ++ [CARRIAGE_RETURN]) htail [s, t]
      (a :: p1) fuel 1
      (by
        intro u hu
        simp only [List.mem_cons, List.mem_singleton, List.not_mem_nil, or_false] at hu
        rcases hu with rfl | rfl
        · exact hs
        · exact ht)
      (by simp) (by simpa using hf)
  unfold sequansControllerExtractValueFromCommandResponse
  simp only [responseCopy_line front (a :: p1) s t n hz]
  rw [hshape]
  have hfuel : 3 ≤ (front ++ DATA_START_CHARACTER :: ([SPACE_CHARACTER] ++ a :: (p1
      ++ RESPONSE_DELIMITER :: (commaTerminated [s, t] ++ (n ++ [CARRIAGE_RETURN]))))).length
      + 2 := by
    simp only [List.length_append, List.length_cons]
    omega
  generalize (front ++ DATA_START_CHARACTER :: ([SPACE_CHARACTER] ++ a :: (p1
      ++ RESPONSE_DELIMITER :: (commaTerminated [s, t] ++ (n ++ [CARRIAGE_RETURN]))))).length
      + 2 = fuel at hfuel ⊢
  simp only [hstrchr, HTTP_RESPONSE_DATA_SIZE_INDEX]
  rw [selectValue, hskip]
  simp only [htk, hloop fuel hfuel]

/-! ## Flow control and the CTS edge handler -/

theorem flowControlUpdate_rts (size : Nat) (s : LinkDriver) :
    ((flowControlUpdate size s).rts_pin = false ↔ (s.rx_buffer.length : Int) < (size : Int) - 2)
    ∧ (flowControlUpdate size s).rx_buffer = s.rx_buffer
    ∧ (flowControlUpdate size s).reset_pin = s.reset_pin := by
  unfold flowControlUpdate
  split <;> simp_all

theorem serialRead_length (rx : List Nat) :
    (rx ≠ [] → (serialRead rx).2.length + 1 = rx.length ∧ (serialRead rx).1 = (rx.headD 0 : Int))
    ∧ (rx = [] → (serialRead rx).2 = [] ∧ (serialRead rx).1 = -1) := by
  cases rx <;> simp [serialRead]

/-- The handler on a CTS interrupt, for a flag inside the register: with the
pin high the flag is cleared, with the pin low it is set, and no other bit of
`CTRLA` changes. -/
theorem cts_handler_flag (bp : Nat) (hbp : bp < 8) (r : Registers) (hc : r.ctrla < 256)
    (hint : r.intflags &&& CTS_INT_bm ≠ 0) :
    (r.port_in &&& CTS_PIN_bm ≠ 0 →
      dataRegisterEmptyInterruptEnabled bp (PORTC_PORT_vect bp r) = false) ∧
    (r.port_in &&& CTS_PIN_bm = 0 →
      dataRegisterEmptyInterruptEnabled bp (PORTC_PORT_vect bp r) = true) ∧
    (∀ j, j ≠ bp → (PORTC_PORT_vect bp r).ctrla.testBit j = r.ctrla.testBit j) := by
  have h1 : (1 <<< bp) % 65536 = 2 ^ bp := by
    rw [Nat.one_shiftLeft]
    apply Nat.mod_eq_of_lt
    calc 2 ^ bp < 2 ^ 8 := Nat.pow_lt_pow_right (by decide) hbp
      _ < 65536 := by decide
  have hhi : ∀ j, 8 ≤ j → r.ctrla.testBit j = false := by
    intro j hj
    apply Nat.testBit_eq_false_of_lt
    calc r.ctrla < 2 ^ 8 := hc
      _ ≤ 2 ^ j := Nat.pow_le_pow_right (by decide) hj
  have hmask : ∀ j, (0xFFFF : Nat).testBit j = decide (j < 16) := by
    intro j
    have : (0xFFFF : Nat) = 2 ^ 16 - 1 := by decide
    rw [this, Nat.testBit_two_pow_sub_one]
  unfold dataRegisterEmptyInterruptEnabled PORTC_PORT_vect
  simp only [hint, ne_eq, not_false_eq_true, if_true, h1]
  refine ⟨fun hp => ?_, fun hp => ?_, fun j hj => ?_⟩
  · simp only [hp, not_false_eq_true, if_true]
    have : (256 : Nat) = 2 ^ 8 := by decide
    rw [this, Nat.testBit_mod_two_pow, Nat.testBit_and, Nat.testBit_xor, hmask,
      Nat.testBit_two_pow_self]
    simp [show bp < 16 by omega]
  · simp only [hp, not_true_eq_false, if_false]
    have : (256 : Nat) = 2 ^ 8 := by decide
    rw [this, Nat.testBit_mod_two_pow, Nat.testBit_or, Nat.testBit_two_pow_self]
    simp [hbp]
  · have h256 : (256 : Nat) = 2 ^ 8 := by decide
    have hne : (2 ^ bp).testBit j = false := by
      rw [Nat.testBit_two_pow]; simp; omega
    by_cases hp : r.port_in &&& CTS_PIN_bm = 0
    · simp only [hp, not_true_eq_false, if_false]
      rw [h256, Nat.testBit_mod_two_pow, Nat.testBit_or, hne]
      by_cases hj8 : j < 8
      · simp [hj8]
      · simp [hj8, hhi j (by omega)]
    · simp only [hp, not_false_eq_true, if_true]
      rw [h256, Nat.testBit_mod_two_pow, Nat.testBit_and, Nat.testBit_xor, hmask, hne]
      by_cases hj8 : j < 8
      · simp [hj8, show j < 16 by omega]
      · simp [hj8, hhi j (by omega)]

/-! ## Claims -/

/-- C1 (amended): for every byte stream without a zero byte that ends in
`"\r\nOK\r\n"`, contains no earlier `"OK\r\n"` or `"ERROR\r\n"`, and is delivered
with fewer consecutive empty polls than the retry budget into a
zero-initialised buffer whose capacity exceeds the stream length,
`sequansControllerReadResponse` returns OK; for every such stream ending in
`"\r\nERROR\r\n"` instead, it returns ERROR. -/
theorem readResponse_detects_terminator (N cap : Nat) (sched : List (Option Nat))
    (body : List Nat) (hN : N < 256)
    (hquiet : ¬ List.replicate (retryBudget N) none <:+: sched)
    (hz : ∀ x ∈ received sched, x ≠ 0)
    (hcap : (received sched).length < cap)
    (hok : ¬ OK_TERMINATION <:+: (received sched).dropLast)
    (herr : ¬ ERROR_TERMINATION <:+: (received sched).dropLast) :
    (received sched = body ++ [CARRIAGE_RETURN, LINE_FEED] ++ OK_TERMINATION →
      (sequansControllerReadResponse N (List.replicate cap 0) cap sched).result
        = .returned .OK) ∧
    (received sched = body ++ [CARRIAGE_RETURN, LINE_FEED] ++ ERROR_TERMINATION →
      (sequansControllerReadResponse N (List.replicate cap 0) cap sched).result
        = .returned .ERROR) := by
  have key := fun hne => readLoop_reaches_terminator N cap hN sched [] 0 hquiet
    (leading_none_bound hquiet) (by simpa using hz) (by simpa using hcap) hne
    (by simpa using hok) (by simpa using herr)
  unfold sequansControllerReadResponse
  rw [← filled_nil]
  constructor
  · intro h
    have hne : received sched ≠ [] := by rw [h]; simp
    exact (key hne).1 ⟨body ++ [CARRIAGE_RETURN, LINE_FEED], by simp [h]⟩
  · intro h
    have hne : received sched ≠ [] := by rw [h]; simp
    exact (key hne).2 ⟨body ++ [CARRIAGE_RETURN, LINE_FEED], by simp [h]⟩

/-- C1, witness: `"A\r\nOK\r\n"` with an empty poll after the first byte, and
`"\r\nERROR\r\n"`, five retries, sixteen bytes of buffer. -/
theorem readResponse_detects_terminator_witness :
    (sequansControllerReadResponse 5 (List.replicate 16 0) 16
      [some 65, none, some 13, some 10, some 79, some 75, some 13, some 10]).result
        = .returned .OK ∧
    (sequansControllerReadResponse 5 (List.replicate 16 0) 16
      [some 13, some 10, some 69, some 82, some 82, some 79, some 82, some 13,
        some 10]).result = .returned .ERROR :=
  ⟨(readResponse_detects_terminator 5 16
      [some 65, none, some 13, some 10, some 79, some 75, some 13, some 10] [65]
      (by decide) (by decide) (by decide) (by decide) (by decide) (by decide)).1 (by decide),
   (readResponse_detects_terminator 5 16
      [some 13, some 10, some 69, some 82, some 82, some 79, some 82, some 13, some 10] []
      (by decide) (by decide) (by decide) (by decide) (by decide) (by decide)).2 (by decide)⟩

/-- C1, counterexample: the stream `"\0\r\nOK\r\n"` ends in `"\r\nOK\r\n"`, has
no earlier terminator and fits the buffer, yet the reader has not returned when
every byte has been taken, and then runs into TIMEOUT: the scan for `"OK\r\n"`
stops at the zero byte stored first. -/
theorem readResponse_zero_byte_hides_terminator :
    received [some 0, some 13, some 10, some 79, some 75, some 13, some 10]
      = [0] ++ [CARRIAGE_RETURN, LINE_FEED] ++ OK_TERMINATION ∧
    ¬ OK_TERMINATION <:+:
      (received [some 0, some 13, some 10, some 79, some 75, some 13, some 10]).dropLast ∧
    ¬ ERROR_TERMINATION <:+:
      (received [some 0, some 13, some 10, some 79, some 75, some 13, some 10]).dropLast ∧
    (sequansControllerReadResponse 5 (List.replicate 16 0) 16
      [some 0, some 13, some 10, some 79, some 75, some 13, some 10]).result = .polling ∧
    (sequansControllerReadResponse 5 (List.replicate 16 0) 16
      ([some 0, some 13, some 10, some 79, some 75, some 13, some 10]
        ++ List.replicate 5 none)).result = .returned .TIMEOUT := by
  decide

/-- C3: for every command text without a zero byte, when before each of its
bytes and before the final carriage return the transmitter becomes ready within
the retry budget, `sequansControllerWriteCommand` returns true and the bytes
handed to the serial link are exactly the bytes of the command in order followed
by one carriage return (13) and nothing else. -/
theorem writeCommand_framing (N : Nat) (command gaps : List Nat) (rest : List Bool)
    (hN : N < 256) (hc : ∀ b ∈ command, b ≠ 0 ∧ b < 256)
    (hlen : gaps.length = command.length + 1)
    (hg : ∀ g ∈ gaps, g < retryBudget N) :
    sequansControllerWriteCommand N command (readyAfter gaps ++ rest) []
      = ⟨some true, rest, command ++ [CARRIAGE_RETURN]⟩ := by
  have h1 : command.takeWhile (· ≠ 0) = command := by
    rw [List.takeWhile_eq_self_iff]
    intro b hb
    simpa using (hc b hb).1
  have h2 : command.map (· % 256) = command := by
    conv_rhs => rw [← List.map_id command]
    apply List.map_congr_left
    intro b hb
    simpa using Nat.mod_eq_of_lt (hc b hb).2
  rw [sequansControllerWriteCommand, h1, writeAll_ready N hN rest command gaps [] hlen hg, h2]
  simp

/-- C3, witness: `"AT"` with five retries, the transmitter busy for two polls
before the first byte, none before the second and four before the carriage
return. -/
theorem writeCommand_framing_witness :
    sequansControllerWriteCommand 5 [65, 84]
        ([false, false, true, true, false, false, false, false, true] ++ [false]) []
      = ⟨some true, [false], [65, 84] ++ [CARRIAGE_RETURN]⟩ :=
  writeCommand_framing 5 [65, 84] [2, 0, 4] [false] (by decide) (by decide) (by decide)
    (by decide)

/-- C4, failing input: capacity 2, zero-initialised buffer, stream `"\r\n"`
always available. The first two bytes hold no terminator, but once the buffer is
full it holds no zero either, and the scan for `"OK\r\n"` started by the final
`"\r\n"` runs past its end: the call has no defined result, where the claim
promises BUFFER_OVERFLOW. A stream that does not end the buffer on `"\r\n"`
does give BUFFER_OVERFLOW after two bytes. -/
theorem readResponse_full_buffer_scan_overruns :
    (sequansControllerReadResponse 5 (List.replicate 2 0) 2 [some 13, some 10]).result
      = .undefined ∧
    (sequansControllerReadResponse 5 (List.replicate 2 0) 2 [some 13, some 10]).consumed = 2 ∧
    (sequansControllerReadResponse 5 (List.replicate 2 0) 2 [some 65, some 10]).result
      = .returned .BUFFER_OVERFLOW ∧
    (sequansControllerReadResponse 5 (List.replicate 2 0) 2 [some 65, some 10]).consumed = 2 := by
  decide

/-- C5: for every retry count `N` from 1 to 255, `sequansControllerReadResponse`
and `sequansControllerFlushResponse` return TIMEOUT exactly when the schedule
holds `N` consecutive polls that find no byte, at whose start the call has not
yet returned; so a schedule in which no `N` polls in a row are empty never gives
TIMEOUT. -/
theorem timeout_iff_retries_exhausted (N cap : Nat) (out_buffer : List Nat)
    (sched : List (Option Nat)) (h1 : 1 ≤ N) (hN : N < 256) :
    ((sequansControllerReadResponse N out_buffer cap sched).result = .returned .TIMEOUT ↔
      ∃ pre rest, sched = pre ++ List.replicate N none ++ rest ∧
        (sequansControllerReadResponse N out_buffer cap pre).result = .polling) ∧
    ((sequansControllerFlushResponse N sched).result = .returned .TIMEOUT ↔
      ∃ pre rest, sched = pre ++ List.replicate N none ++ rest ∧
        (sequansControllerFlushResponse N pre).result = .polling) ∧
    (¬ List.replicate N none <:+: sched →
      (sequansControllerReadResponse N out_buffer cap sched).result ≠ .returned .TIMEOUT ∧
      (sequansControllerFlushResponse N sched).result ≠ .returned .TIMEOUT) := by
  have hr := readResponse_timeout_iff N cap out_buffer sched h1 hN
  have hf := flushResponse_timeout_iff N sched h1 hN
  refine ⟨hr, hf, ?_⟩
  intro hq
  constructor
  · intro h
    obtain ⟨pre, rest, hs, _⟩ := hr.mp h
    exact hq ⟨pre, rest, hs.symm⟩
  · intro h
    obtain ⟨pre, rest, hs, _⟩ := hf.mp h
    exact hq ⟨pre, rest, hs.symm⟩

/-- C5, witness: two retries; a byte, one empty poll, a byte, two empty polls.
Both readers return TIMEOUT at the second of the two empty polls in a row, and
neither does while the run of empty polls is shorter. -/
theorem timeout_iff_retries_exhausted_witness :
    (sequansControllerReadResponse 2 (List.replicate 8 0) 8
      [some 65, none, some 66, none, none]).result = .returned .TIMEOUT ∧
    (sequansControllerFlushResponse 2 [some 65, none, some 66, none, none]).result
      = .returned .TIMEOUT ∧
    (sequansControllerReadResponse 2 (List.replicate 8 0) 8
      [some 65, none, some 66, none]).result ≠ .returned .TIMEOUT ∧
    (sequansControllerFlushResponse 2 [some 65, none, some 66, none]).result
      ≠ .returned .TIMEOUT :=
  ⟨(timeout_iff_retries_exhausted 2 8 (List.replicate 8 0)
      [some 65, none, some 66, none, none] (by decide) (by decide)).1.mpr
      ⟨[some 65, none, some 66], [], by decide, by decide⟩,
   (timeout_iff_retries_exhausted 2 8 (List.replicate 8 0)
      [some 65, none, some 66, none, none] (by decide) (by decide)).2.1.mpr
      ⟨[some 65, none, some 66], [], by decide, by decide⟩,
   ((timeout_iff_retries_exhausted 2 8 (List.replicate 8 0)
      [some 65, none, some 66, none] (by decide) (by decide)).2.2 (by decide)).1,
   ((timeout_iff_retries_exhausted 2 8 (List.replicate 8 0)
      [some 65, none, some 66, none] (by decide) (by decide)).2.2 (by decide)).2⟩

/-- C7 (amended): for every retry count from 1 to 255, every modem byte stream
without a zero byte and every availability schedule,
`sequansControllerFlushResponse` gives the same result, having consumed the same
number of bytes, as `sequansControllerReadResponse` run on the same schedule
with a zero-initialised buffer larger than the stream. -/
theorem flushResponse_eq_readResponse (N cap : Nat) (sched : List (Option Nat))
    (h1 : 1 ≤ N) (hN : N < 256) (hz : ∀ x ∈ received sched, x ≠ 0)
    (hcap : (received sched).length < cap) :
    (sequansControllerFlushResponse N sched).result
      = (sequansControllerReadResponse N (List.replicate cap 0) cap sched).result ∧
    (sequansControllerFlushResponse N sched).consumed
      = (sequansControllerReadResponse N (List.replicate cap 0) cap sched).consumed := by
  have h := flushLoop_eq_readLoop N cap h1 hN sched [] 0 (by omega) (by simpa using hz)
    (by simpa using hcap) (by simp) (by simp)
  rw [window_nil, filled_nil] at h
  exact h

/-- C7, witness: `"A\r\nERROR\r\n"` with empty polls in between, three retries:
both readers return ERROR after ten bytes. -/
theorem flushResponse_eq_readResponse_witness :
    (sequansControllerFlushResponse 3
        [some 65, none, none, some 13, some 10, some 69, some 82, none, some 82, some 79,
          some 82, some 13, some 10]).result = .returned .ERROR ∧
    (sequansControllerFlushResponse 3
        [some 65, none, none, some 13, some 10, some 69, some 82, none, some 82, some 79,
          some 82, some 13, some 10]).result
      = (sequansControllerReadResponse 3 (List.replicate 16 0) 16
        [some 65, none, none, some 13, some 10, some 69, some 82, none, some 82, some 79,
          some 82, some 13, some 10]).result ∧
    (sequansControllerFlushResponse 3
        [some 65, none, none, some 13, some 10, some 69, some 82, none, some 82, some 79,
          some 82, some 13, some 10]).consumed
      = (sequansControllerReadResponse 3 (List.replicate 16 0) 16
        [some 65, none, none, some 13, some 10, some 69, some 82, none, some 82, some 79,
          some 82, some 13, some 10]).consumed :=
  ⟨by decide, flushResponse_eq_readResponse 3 16
    [some 65, none, none, some 13, some 10, some 69, some 82, none, some 82, some 79,
      some 82, some 13, some 10] (by decide) (by decide) (by decide) (by decide)⟩

/-- C7, counterexample: with a retry count of 0 the flush reader returns
TIMEOUT before it polls, where the response reader takes `"OK\r\n"` and returns
OK; and with five retries, on `"\0OK\r\nx\r\n"` followed by silence, the flush
reader returns OK once the zero byte has left its window, where the response
reader, whose scan stops at the zero byte, returns TIMEOUT. -/
theorem flushResponse_differs_from_readResponse :
    (sequansControllerFlushResponse 0 [some 79, some 75, some 13, some 10]).result
      = .returned .TIMEOUT ∧
    (sequansControllerFlushResponse 0 [some 79, some 75, some 13, some 10]).consumed = 0 ∧
    (sequansControllerReadResponse 0 (List.replicate 8 0) 8
      [some 79, some 75, some 13, some 10]).result = .returned .OK ∧
    (sequansControllerReadResponse 0 (List.replicate 8 0) 8
      [some 79, some 75, some 13, some 10]).consumed = 4 ∧
    (sequansControllerFlushResponse 5
      ([some 0, some 79, some 75, some 13, some 10, some 120, some 13, some 10]
        ++ List.replicate 5 none)).result = .returned .OK ∧
    (sequansControllerReadResponse 5 (List.replicate 16 0) 16
      ([some 0, some 79, some 75, some 13, some 10, some 120, some 13, some 10]
        ++ List.replicate 5 none)).result = .returned .TIMEOUT := by
  decide

/-- C2 (amended): field indices are 0-based. For every response made of a
header without `':'`, the marker, a run of `':'` and spaces, tokens each
non-empty, free of commas and followed by one comma, the first not beginning
with `':'` or a space, and a rest, where the rest holds a carriage return or
the response holds none: for every index `n ≤ 254` below the number of these
tokens and every output capacity above the length of the result,
`sequansControllerExtractValueFromCommandResponse` succeeds and copies out the
token at 0-based position `n`, the `(n+1)`-th after the marker, whole when it
holds no carriage return (after a write through the null `value_end`, which
the result records) and cut at its last carriage return otherwise. -/
theorem extractField_index_zero_based (hdr skip : List Nat) (toks : List (List Nat))
    (tail : List Nat) (index : Nat) (tok buffer : List Nat) (cap : Nat)
    (hhdr : ∀ x ∈ hdr, x ≠ DATA_START_CHARACTER ∧ x ≠ 0)
    (hskip : ∀ x ∈ skip, x = DATA_START_CHARACTER ∨ x = SPACE_CHARACTER)
    (htoks : ∀ u ∈ toks, u ≠ [] ∧ ∀ x ∈ u, x ≠ RESPONSE_DELIMITER ∧ x ≠ 0)
    (hfirst : ∀ u ∈ toks.head?, ∀ a ∈ u.head?, a ≠ DATA_START_CHARACTER ∧ a ≠ SPACE_CHARACTER)
    (htail : ∀ x ∈ tail, x ≠ 0)
    (hcr : CARRIAGE_RETURN ∈ tail ∨ CARRIAGE_RETURN ∉
      hdr ++ [DATA_START_CHARACTER] ++ skip ++ commaTerminated toks ++ tail)
    (hidx : index < 255) (htok : toks[index]? = some tok)
    (hcap : (cutAtCarriageReturn tok).1.length < cap) :
    sequansControllerExtractValueFromCommandResponse
        (hdr ++ [DATA_START_CHARACTER] ++ skip ++ commaTerminated toks ++ tail)
        index buffer cap
      = some ⟨true, (cutAtCarriageReturn tok).1
          ++ buffer.drop (cutAtCarriageReturn tok).1.length, (cutAtCarriageReturn tok).2⟩ ∧
    (CARRIAGE_RETURN ∉ tok → cutAtCarriageReturn tok = (tok, true)) ∧
    (∀ pre post, tok = pre ++ CARRIAGE_RETURN :: post → CARRIAGE_RETURN ∉ post →
      cutAtCarriageReturn tok = (pre, false)) := by
  have hsel := selectedValue_comma_terminated hdr skip toks tail index tok hhdr hskip htoks
    hfirst htail hcr hidx htok
  refine ⟨?_, fun h => cutAtCarriageReturn_none h, fun pre post hs hp => ?_⟩
  · rw [(extract_of_selectedValue _ index buffer cap tok hsel).2]
    simp [hcap]
  · rw [hs]
    exact cutAtCarriageReturn_split hp

/-- C2, witness: on `"+SQNHTTPRCV: 1,200,35\r\nOK\r\n"` index 0 yields `"1"` and
index 1 yields `"200"`; on `"+A: 1\rx,2,\r\n"` index 0 selects the token
`"1\rx"` and yields `"1"`. -/
theorem extractField_index_zero_based_witness :
    sequansControllerExtractValueFromCommandResponse
        (bytes "+SQNHTTPRCV: 1,200,35\r\nOK\r\n") 0 [0, 0, 0, 0] 4
      = some ⟨true, bytes "1" ++ [0, 0, 0], true⟩ ∧
    sequansControllerExtractValueFromCommandResponse
        (bytes "+SQNHTTPRCV: 1,200,35\r\nOK\r\n") 1 [0, 0, 0, 0] 4
      = some ⟨true, bytes "200" ++ [0], true⟩ ∧
    sequansControllerExtractValueFromCommandResponse
        (bytes "+A: 1\rx,2,\r\n") 0 [0, 0, 0, 0] 4
      = some ⟨true, bytes "1" ++ [0, 0, 0], false⟩ :=
  ⟨(extractField_index_zero_based (bytes "+SQNHTTPRCV") [32] [bytes "1", bytes "200"]
      (bytes "35\r\nOK\r\n") 0 (bytes "1") [0, 0, 0, 0] 4 (by decide) (by decide) (by decide)
      (by decide) (by decide) (by decide) (by decide) (by decide) (by decide)).1,
   (extractField_index_zero_based (bytes "+SQNHTTPRCV") [32] [bytes "1", bytes "200"]
      (bytes "35\r\nOK\r\n") 1 (bytes "200") [0, 0, 0, 0] 4 (by decide) (by decide) (by decide)
      (by decide) (by decide) (by decide) (by decide) (by decide) (by decide)).1,
   (extractField_index_zero_based (bytes "+A") [32] [bytes "1\rx", bytes "2"]
      (bytes "\r\n") 0 (bytes "1\rx") [0, 0, 0, 0] 4 (by decide) (by decide) (by decide)
      (by decide) (by decide) (by decide) (by decide) (by decide) (by decide)).1⟩

/-- C2, counterexample: on `"+SQNHTTPRCV: 1,200,35\r\nOK\r\n"` it is index 1,
not index 2, that yields `"200"`; index 2 selects the third token, whose scan
leaves the unterminated copy, and index 3 does not yield `"35"`. On the same
line without its line ends, where every scan stays inside the copy, index 2
yields `"35"` and index 3 fails. On a marker followed by 256 tokens `"a,"`
index 254 yields a token and index 255 fails: the 8-bit `value_index` wraps to
0 and the loop runs to the end of the text. -/
theorem extractField_index_not_one_based :
    sequansControllerExtractValueFromCommandResponse
        (bytes "+SQNHTTPRCV: 1,200,35\r\nOK\r\n") 1 [0, 0, 0, 0] 4
      = some ⟨true, bytes "200" ++ [0], true⟩ ∧
    sequansControllerExtractValueFromCommandResponse
        (bytes "+SQNHTTPRCV: 1,200,35\r\nOK\r\n") 2 [0, 0, 0, 0] 4 = none ∧
    sequansControllerExtractValueFromCommandResponse
        (bytes "+SQNHTTPRCV: 1,200,35\r\nOK\r\n") 3 [0, 0, 0, 0] 4 = none ∧
    sequansControllerExtractValueFromCommandResponse
        (bytes "+SQNHTTPRCV: 1,200,35") 2 [0, 0, 0, 0] 4
      = some ⟨true, bytes "35" ++ [0, 0], true⟩ ∧
    sequansControllerExtractValueFromCommandResponse
        (bytes "+SQNHTTPRCV: 1,200,35") 3 [0, 0, 0, 0] 4
      = some ⟨false, [0, 0, 0, 0], true⟩ ∧
    sequansControllerExtractValueFromCommandResponse
        ([DATA_START_CHARACTER] ++ commaTerminated (List.replicate 256 (bytes "a")))
        254 [0, 0] 2 = some ⟨true, bytes "a" ++ [0], true⟩ ∧
    sequansControllerExtractValueFromCommandResponse
        ([DATA_START_CHARACTER] ++ commaTerminated (List.replicate 256 (bytes "a")))
        255 [0, 0] 2 = some ⟨false, [0, 0], true⟩ := by
  set_option maxRecDepth 100000 in decide

/-- C8, failing input: the response `"OK\r\n"` has no `':'`. Its copy is
`"OK\r"` without a terminating zero, and the scan for the marker runs past the
end of the copy: the call has no defined result, where the claim promises
false. The same text without a carriage return does give false. -/
theorem extractField_marker_scan_overruns :
    responseCopy (bytes "OK\r\n") = bytes "OK\r" ∧
    sequansControllerExtractValueFromCommandResponse (bytes "OK\r\n") 1 [0, 0, 0, 0] 4
      = none ∧
    sequansControllerExtractValueFromCommandResponse (bytes "OK") 1 [0, 0, 0, 0] 4
      = some ⟨false, [0, 0, 0, 0], false⟩ := by
  decide

/-- C9, failing input: index 5 on `"+SQNHTTPRCV: 1,200,35\r\nOK\r\n"`. The copy
`"+SQNHTTPRCV: 1,200,35\r\nOK\r"` has no terminating zero, so the scan for the
end of its third token runs past the end of the copy: the call has no defined
result, where the claim promises false. On the same line without its line ends
index 5 does give false. -/
theorem extractField_token_scan_overruns :
    responseCopy (bytes "+SQNHTTPRCV: 1,200,35\r\nOK\r\n")
      = bytes "+SQNHTTPRCV: 1,200,35\r\nOK\r" ∧
    sequansControllerExtractValueFromCommandResponse
        (bytes "+SQNHTTPRCV: 1,200,35\r\nOK\r\n") 5 [0, 0, 0, 0] 4 = none ∧
    sequansControllerExtractValueFromCommandResponse
        (bytes "+SQNHTTPRCV: 1,200,35") 5 [0, 0, 0, 0] 4
      = some ⟨false, [0, 0, 0, 0], true⟩ := by
  decide

/-- C10: `sequansControllerExtractValueFromCommandResponse` succeeds only if the
output capacity is at least the length of the selected token plus one; with a
selected token of length `L` it returns false for every capacity `≤ L` and
true, with the token copied out, for every capacity `≥ L + 1`. -/
theorem extractField_capacity_contract (response : List Nat) (index : Nat)
    (buffer : List Nat) (cap : Nat) :
    (∀ run, sequansControllerExtractValueFromCommandResponse response index buffer cap
        = some run → run.ok = true →
      ∃ tok, selectedToken response index = some tok ∧ tok.length + 1 ≤ cap) ∧
    (∀ tok, selectedToken response index = some tok →
      (cap ≤ tok.length →
        ∃ na, sequansControllerExtractValueFromCommandResponse response index buffer cap
          = some ⟨false, buffer, na⟩) ∧
      (tok.length + 1 ≤ cap →
        ∃ na, sequansControllerExtractValueFromCommandResponse response index buffer cap
          = some ⟨true, tok ++ buffer.drop tok.length, na⟩)) := by
  unfold sequansControllerExtractValueFromCommandResponse selectedToken
  constructor
  · intro run hrun hok
    cases h1 : strchr DATA_START_CHARACTER (responseCopy response) with
    | none => simp [h1] at hrun
    | some o =>
      cases o with
      | none =>
        simp [h1] at hrun
        rw [← hrun] at hok
        simp at hok
      | some data =>
        cases h2 : selectValue ((responseCopy response).length + 2) data index with
        | none => simp [h1, h2] at hrun
        | some v =>
          cases v with
          | none =>
            simp [h1, h2] at hrun
            rw [← hrun] at hok
            simp at hok
          | some value =>
            simp only [h1, h2] at hrun ⊢
            refine ⟨_, rfl, ?_⟩
            by_cases hc : (cutAtCarriageReturn value).1.length ≥ cap
            · simp [hc] at hrun
              rw [← hrun] at hok
              simp at hok
            · omega
  · intro tok htok
    cases h1 : strchr DATA_START_CHARACTER (responseCopy response) with
    | none => simp [h1] at htok
    | some o =>
      cases o with
      | none => simp [h1] at htok
      | some data =>
        cases h2 : selectValue ((responseCopy response).length + 2) data index with
        | none => simp [h1, h2] at htok
        | some v =>
          cases v with
          | none => simp [h1, h2] at htok
          | some value =>
            simp only [h1, h2, Option.some.injEq] at htok ⊢
            rw [htok]
            constructor
            · intro hc
              exact ⟨(cutAtCarriageReturn value).2, by simp [hc]⟩
            · intro hc
              have : ¬ tok.length ≥ cap := by omega
              exact ⟨(cutAtCarriageReturn value).2, by simp [this, memcpy]⟩

/-- C10, witness: on `"+SQNHTTPRCV: 1,200,35\r\nOK\r\n"` index 1 selects `"200"`;
capacity 3 gives false and capacity 4 gives true with `"200"` copied out. -/
theorem extractField_capacity_contract_witness :
    selectedToken (bytes "+SQNHTTPRCV: 1,200,35\r\nOK\r\n") 1 = some (bytes "200") ∧
    (∃ na, sequansControllerExtractValueFromCommandResponse
        (bytes "+SQNHTTPRCV: 1,200,35\r\nOK\r\n") 1 [7, 7, 7, 7] 3
      = some ⟨false, [7, 7, 7, 7], na⟩) ∧
    (∃ na, sequansControllerExtractValueFromCommandResponse
        (bytes "+SQNHTTPRCV: 1,200,35\r\nOK\r\n") 1 [7, 7, 7, 7] 4
      = some ⟨true, bytes "200" ++ [7, 7, 7, 7].drop (bytes "200").length, na⟩) :=
  ⟨by decide,
   ((extractField_capacity_contract (bytes "+SQNHTTPRCV: 1,200,35\r\nOK\r\n") 1 [7, 7, 7, 7]
      3).2 (bytes "200") (by decide)).1 (by decide),
   ((extractField_capacity_contract (bytes "+SQNHTTPRCV: 1,200,35\r\nOK\r\n") 1 [7, 7, 7, 7]
      4).2 (bytes "200") (by decide)).2 (by decide)⟩

/-- C12: for every retry count `N` from 1 to 255 and every sequence of
transmit-ready observations, `sequansControllerWriteByte` returns false exactly
when the first `N` observations are all not-ready, and then transmits nothing;
it returns true exactly when one of the first `N` observations is ready, and
then transmits the given byte once. -/
theorem writeByte_retry_bound (N data : Nat) (ready : List Bool) (sent : List Nat)
    (h1 : 1 ≤ N) (hN : N < 256) :
    ((sequansControllerWriteByte N data ready sent).result = some false ↔
      List.replicate N false <+: ready) ∧
    ((sequansControllerWriteByte N data ready sent).result = some false →
      (sequansControllerWriteByte N data ready sent).sent = sent) ∧
    ((sequansControllerWriteByte N data ready sent).result = some true ↔
      ∃ k, k < N ∧ ready[k]? = some true) ∧
    ((sequansControllerWriteByte N data ready sent).result = some true →
      (sequansControllerWriteByte N data ready sent).sent = sent ++ [data % 256]) := by
  unfold sequansControllerWriteByte
  have hs := writeByteLoop_sent N data ready 0 sent
  refine ⟨?_, ?_, ?_, hs.1⟩
  · simpa using writeByteLoop_false_iff N data hN ready 0 sent (by omega)
  · intro h
    exact hs.2 (by rw [h]; simp)
  · simpa using writeByteLoop_true_iff N data hN ready 0 sent (by omega)

/-- C12, witness: three retries. Ready at the third observation: the byte 65
is sent and the call returns true. Not ready three times: nothing is sent and
the call returns false, although the fourth observation would have been ready. -/
theorem writeByte_retry_bound_witness :
    (sequansControllerWriteByte 3 65 [false, false, true] []).result = some true ∧
    (sequansControllerWriteByte 3 65 [false, false, true] []).sent = [] ++ [65 % 256] ∧
    (sequansControllerWriteByte 3 65 [false, false, false, true] []).result = some false ∧
    (sequansControllerWriteByte 3 65 [false, false, false, true] []).sent = [] :=
  ⟨(writeByte_retry_bound 3 65 [false, false, true] [] (by decide) (by decide)).2.2.1.mpr
      ⟨2, by decide, by decide⟩,
   (writeByte_retry_bound 3 65 [false, false, true] [] (by decide) (by decide)).2.2.2
      (by decide),
   (writeByte_retry_bound 3 65 [false, false, false, true] [] (by decide) (by decide)).1.mpr
      (by decide),
   (writeByte_retry_bound 3 65 [false, false, false, true] [] (by decide) (by decide)).2.1
      (by decide)⟩

/-- C13: whenever `sequansControllerWriteCommand` or `sequansControllerWriteBytes`
returns false, the bytes transmitted by the call are a proper prefix of the
data followed by the carriage return; and when the first `gaps.length` bytes
find the transmitter ready within the retry budget and the next one does not,
the call returns false having transmitted exactly those first bytes and none
after them. -/
theorem write_aborts_at_first_failure (N : Nat) (command data : List Nat) (buffer_size : Nat)
    (ready : List Bool) (gaps : List Nat) (rest : List Bool) (sent : List Nat)
    (hN : N < 256) (hg : ∀ g ∈ gaps, g < retryBudget N) :
    ((sequansControllerWriteCommand N command ready sent).result = some false →
      ∃ j, j < ((command.takeWhile (· ≠ 0)).map (· % 256) ++ [CARRIAGE_RETURN]).length ∧
        (sequansControllerWriteCommand N command ready sent).sent
          = sent ++ ((command.takeWhile (· ≠ 0)).map (· % 256) ++ [CARRIAGE_RETURN]).take j) ∧
    ((sequansControllerWriteBytes N data buffer_size ready sent).result = some false →
      ∃ j, j < ((data.take buffer_size).map (· % 256) ++ [CARRIAGE_RETURN]).length ∧
        (sequansControllerWriteBytes N data buffer_size ready sent).sent
          = sent ++ ((data.take buffer_size).map (· % 256) ++ [CARRIAGE_RETURN]).take j) ∧
    (gaps.length ≤ (command.takeWhile (· ≠ 0)).length →
      sequansControllerWriteCommand N command
          (readyAfter gaps ++ (List.replicate (retryBudget N) false ++ rest)) sent
        = ⟨some false, rest, sent ++
            ((command.takeWhile (· ≠ 0)).map (· % 256) ++ [CARRIAGE_RETURN]).take
              gaps.length⟩) ∧
    (gaps.length ≤ (data.take buffer_size).length →
      sequansControllerWriteBytes N data buffer_size
          (readyAfter gaps ++ (List.replicate (retryBudget N) false ++ rest)) sent
        = ⟨some false, rest, sent ++
            ((data.take buffer_size).map (· % 256) ++ [CARRIAGE_RETURN]).take
              gaps.length⟩) := by
  unfold sequansControllerWriteCommand sequansControllerWriteBytes
  exact ⟨writeAll_false_sent_before N _ ready sent, writeAll_false_sent_before N _ ready sent,
    fun h => writeAll_fails_at N hN rest _ gaps sent h hg,
    fun h => writeAll_fails_at N hN rest _ gaps sent h hg⟩

/-- C13, witness: `"AT"` with two retries; the transmitter takes the `'A'`
after one not-ready observation and is then not ready twice: the call returns
false with only `'A'` sent, no `'T'` and no carriage return. The same for the
two raw bytes 65, 84. -/
theorem write_aborts_at_first_failure_witness :
    sequansControllerWriteCommand 2 [65, 84] [false, true, false, false, true, true] []
      = ⟨some false, [true, true], [65]⟩ ∧
    sequansControllerWriteBytes 2 [65, 84] 2 [false, true, false, false, true, true] []
      = ⟨some false, [true, true], [65]⟩ :=
  ⟨(write_aborts_at_first_failure 2 [65, 84] [65, 84] 2 [] [1] [true, true] []
      (by decide) (by decide)).2.2.1 (by decide),
   (write_aborts_at_first_failure 2 [65, 84] [65, 84] 2 [] [1] [true, true] []
      (by decide) (by decide)).2.2.2 (by decide)⟩

/-- C14, failing input: the default retry count is 5, and after
`sequansControllerSetRetryConfiguration(0, 10)` the count is 0. On a link that
never becomes ready the flush reader then returns TIMEOUT without a single
poll, but the response reader is still polling after 255 empty polls and
returns TIMEOUT at the 256th, and the byte writer is still polling after 255
not-ready observations and returns false at the 256th: their 8-bit counter is
compared for equality after the increment and meets 0 only when it wraps. -/
theorem retry_count_zero_not_uniform :
    defaultRetryConfiguration.number_of_retries = 5 ∧
    (sequansControllerSetRetryConfiguration 0 10).number_of_retries = 0 ∧
    (sequansControllerFlushResponse 0 []).result = .returned .TIMEOUT ∧
    (sequansControllerReadResponse 0 [0, 0] 2 (List.replicate 255 none)).result = .polling ∧
    (sequansControllerReadResponse 0 [0, 0] 2 (List.replicate 256 none)).result
      = .returned .TIMEOUT ∧
    (sequansControllerWriteByte 0 65 (List.replicate 255 false) []).result = none ∧
    (sequansControllerWriteByte 0 65 (List.replicate 256 false) []).result = some false := by
  set_option maxRecDepth 100000 in decide

/-- C20: with a zero-initialised buffer, whenever
`sequansControllerReadResponse` returns OK the bytes it has consumed end with
`"OK\r\n"`, and whenever it returns ERROR they end with `"ERROR\r\n"`, so no
byte past the reported terminator is consumed; and at the moment it returns OK
the scan for `"ERROR\r\n"` finds no match in the buffer, as the scan for
`"OK\r\n"` has found none when it returns ERROR, so the order of the two scans
does not decide between OK and ERROR. -/
theorem readResponse_match_at_tail (N cap : Nat) (sched : List (Option Nat)) :
    ((sequansControllerReadResponse N (List.replicate cap 0) cap sched).result
        = .returned .OK →
      (sequansControllerReadResponse N (List.replicate cap 0) cap sched).consumed
        ≤ (received sched).length ∧
      OK_TERMINATION <:+ (received sched).take
        (sequansControllerReadResponse N (List.replicate cap 0) cap sched).consumed ∧
      ∀ k, strstr ERROR_TERMINATION (filled cap ((received sched).take
        (sequansControllerReadResponse N (List.replicate cap 0) cap sched).consumed))
          ≠ some (some k)) ∧
    ((sequansControllerReadResponse N (List.replicate cap 0) cap sched).result
        = .returned .ERROR →
      (sequansControllerReadResponse N (List.replicate cap 0) cap sched).consumed
        ≤ (received sched).length ∧
      ERROR_TERMINATION <:+ (received sched).take
        (sequansControllerReadResponse N (List.replicate cap 0) cap sched).consumed ∧
      strstr OK_TERMINATION (filled cap ((received sched).take
        (sequansControllerReadResponse N (List.replicate cap 0) cap sched).consumed))
          = some none) := by
  have h := readLoop_match_at_tail N cap sched [] 0 (Nat.zero_le _) (by simp) (by simp)
  rw [filled_nil] at h
  simpa [sequansControllerReadResponse] using h

/-- C20, witness: on `"OK\r\nERROR\r\n"` the reader returns OK after four
bytes, which are `"OK\r\n"`; on `"\0OK\r\nxOK\r\n"`, where a zero byte hides
both terminators, it reports none; on `"ERROR\r\nOK\r\n"` it returns ERROR
after seven bytes. -/
theorem readResponse_match_at_tail_witness :
    (sequansControllerReadResponse 5 (List.replicate 16 0) 16
      [some 79, some 75, some 13, some 10, some 69, some 82, some 82, some 79, some 82,
        some 13, some 10]).consumed = 4 ∧
    OK_TERMINATION <:+ (received
      [some 79, some 75, some 13, some 10, some 69, some 82, some 82, some 79, some 82,
        some 13, some 10]).take
      (sequansControllerReadResponse 5 (List.replicate 16 0) 16
        [some 79, some 75, some 13, some 10, some 69, some 82, some 82, some 79, some 82,
          some 13, some 10]).consumed ∧
    (sequansControllerReadResponse 5 (List.replicate 16 0) 16
      [some 0, some 79, some 75, some 13, some 10, some 120, some 79, some 75, some 13,
        some 10]).result = .polling ∧
    ERROR_TERMINATION <:+ (received
      [some 69, some 82, some 82, some 79, some 82, some 13, some 10, some 79, some 75,
        some 13, some 10]).take
      (sequansControllerReadResponse 5 (List.replicate 16 0) 16
        [some 69, some 82, some 82, some 79, some 82, some 13, some 10, some 79, some 75,
          some 13, some 10]).consumed :=
  ⟨by decide,
   ((readResponse_match_at_tail 5 16
      [some 79, some 75, some 13, some 10, some 69, some 82, some 82, some 79, some 82,
        some 13, some 10]).1 (by decide)).2.1,
   by decide,
   ((readResponse_match_at_tail 5 16
      [some 69, some 82, some 82, some 79, some 82, some 13, some 10, some 79, some 75,
        some 13, some 10]).2 (by decide)).2.1⟩

/-- C19 (amended): for every capacity, retry count, byte stream and availability
schedule, two runs of `sequansControllerReadResponse` that differ only in the
prior contents of the caller's buffer return the same result and consume the
same number of bytes, provided the prior contents of both buffers end in a
zero byte (or the capacity is 0) and hold no complete `"OK\r\n"` or `"ERROR\r\n"` from offset 2 on
(the first two bytes of the buffer are overwritten before the first scan). -/
theorem readResponse_prior_contents (N cap : Nat) (sched : List (Option Nat))
    (bufA bufB : List Nat) (hA : bufA.length = cap) (hB : bufB.length = cap)
    (hoA : ¬ OK_TERMINATION <:+: bufA.drop 2) (heA : ¬ ERROR_TERMINATION <:+: bufA.drop 2)
    (hoB : ¬ OK_TERMINATION <:+: bufB.drop 2) (heB : ¬ ERROR_TERMINATION <:+: bufB.drop 2)
    (hzA : bufA = [] ∨ bufA.getLast? = some 0) (hzB : bufB = [] ∨ bufB.getLast? = some 0) :
    (sequansControllerReadResponse N bufA cap sched).result
      = (sequansControllerReadResponse N bufB cap sched).result ∧
    (sequansControllerReadResponse N bufA cap sched).consumed
      = (sequansControllerReadResponse N bufB cap sched).consumed := by
  have h := readLoop_before_stale N cap sched [] bufA bufB 0 (by rw [hA, hB])
    (by simpa using hA) hoA heA hoB heB hzA hzB
  simpa [sequansControllerReadResponse] using h

/-- C19, witness: `"A\r\nOK\r\n"` into eight zero bytes and into a buffer that
still holds `"OK\r\nX\r\n"` and a zero, with line feeds and with an old
terminator at offset 0: both runs return OK after seven bytes. -/
theorem readResponse_prior_contents_witness :
    (sequansControllerReadResponse 5 [79, 75, 13, 10, 88, 13, 10, 0] 8
      [some 65, some 13, some 10, some 79, some 75, some 13, some 10]).result
        = .returned .OK ∧
    (sequansControllerReadResponse 5 [0, 0, 0, 0, 0, 0, 0, 0] 8
        [some 65, some 13, some 10, some 79, some 75, some 13, some 10]).result
      = (sequansControllerReadResponse 5 [79, 75, 13, 10, 88, 13, 10, 0] 8
        [some 65, some 13, some 10, some 79, some 75, some 13, some 10]).result ∧
    (sequansControllerReadResponse 5 [0, 0, 0, 0, 0, 0, 0, 0] 8
        [some 65, some 13, some 10, some 79, some 75, some 13, some 10]).consumed
      = (sequansControllerReadResponse 5 [79, 75, 13, 10, 88, 13, 10, 0] 8
        [some 65, some 13, some 10, some 79, some 75, some 13, some 10]).consumed :=
  ⟨by decide, readResponse_prior_contents 5 8
    [some 65, some 13, some 10, some 79, some 75, some 13, some 10]
    [0, 0, 0, 0, 0, 0, 0, 0] [79, 75, 13, 10, 88, 13, 10, 0] (by decide) (by decide)
    (by decide) (by decide) (by decide) (by decide) (by decide) (by decide)⟩

/-- C19, counterexample: the stream `"\r\nERROR\r\n"`, five retries, sixteen
bytes of buffer. Into a zeroed buffer the call returns ERROR after nine bytes;
into a buffer that still holds `"OK\r\n"` at offsets 2 to 5 it returns OK after
two bytes, because the scan started by the first `"\r\n"` runs on into the old
contents. -/
theorem readResponse_prior_contents_matter :
    (sequansControllerReadResponse 5 (List.replicate 16 0) 16
      [some 13, some 10, some 69, some 82, some 82, some 79, some 82, some 13,
        some 10]).result = .returned .ERROR ∧
    (sequansControllerReadResponse 5 (List.replicate 16 0) 16
      [some 13, some 10, some 69, some 82, some 82, some 79, some 82, some 13,
        some 10]).consumed = 9 ∧
    (sequansControllerReadResponse 5 ([0, 0, 79, 75, 13, 10] ++ List.replicate 10 0) 16
      [some 13, some 10, some 69, some 82, some 82, some 79, some 82, some 13,
        some 10]).result = .returned .OK ∧
    (sequansControllerReadResponse 5 ([0, 0, 79, 75, 13, 10] ++ List.replicate 10 0) 16
      [some 13, some 10, some 69, some 82, some 82, some 79, some 82, some 13,
        some 10]).consumed = 2 := by
  decide

/-- C18 (amended): the token `sequansControllerExtractValueFromCommandResponse`
copies out is the selected comma-delimited token cut at its last carriage
return, that carriage return and everything after it removed, if the token
holds one (so a token that ends in its only carriage return loses just that),
and the whole token if it holds none. -/
theorem extractField_cuts_at_last_cr (response : List Nat) (index : Nat) (buffer : List Nat)
    (cap : Nat) (value : List Nat) (hv : selectedValue response index = some value) :
    (CARRIAGE_RETURN ∉ value →
      selectedToken response index = some value ∧
      (value.length < cap →
        sequansControllerExtractValueFromCommandResponse response index buffer cap
          = some ⟨true, value ++ buffer.drop value.length, true⟩)) ∧
    (∀ pre post, value = pre ++ CARRIAGE_RETURN :: post → CARRIAGE_RETURN ∉ post →
      selectedToken response index = some pre ∧
      (pre.length < cap →
        sequansControllerExtractValueFromCommandResponse response index buffer cap
          = some ⟨true, pre ++ buffer.drop pre.length, false⟩)) := by
  obtain ⟨h1, h2⟩ := extract_of_selectedValue response index buffer cap value hv
  constructor
  · intro hno
    rw [cutAtCarriageReturn_none hno] at h1 h2
    refine ⟨h1, fun hc => ?_⟩
    rw [h2]
    simp [hc]
  · intro pre post hsplit hno
    rw [hsplit, cutAtCarriageReturn_split hno] at h1 h2
    refine ⟨h1, fun hc => ?_⟩
    rw [h2]
    simp [hc]

/-- C18, witness: in `"+A: 1\r\n+B: 2,3\r4,5\r\n"` index 1 selects `"3\r4"`, and
`"3"` is copied out; index 0 on `"+A: 7\r,8\r\n"` selects `"7\r"`, and `"7"` is
copied out; index 0 on `"+A: 7,8\r\n"` selects `"7"`, which is copied out
whole. -/
theorem extractField_cuts_at_last_cr_witness :
    sequansControllerExtractValueFromCommandResponse (bytes "+A: 1\r\n+B: 2,3\r4,5\r\n") 1
        [0, 0, 0, 0] 4 = some ⟨true, bytes "3" ++ [0, 0, 0], false⟩ ∧
    sequansControllerExtractValueFromCommandResponse (bytes "+A: 7\r,8\r\n") 0
        [0, 0, 0, 0] 4 = some ⟨true, bytes "7" ++ [0, 0, 0], false⟩ ∧
    sequansControllerExtractValueFromCommandResponse (bytes "+A: 7,8\r\n") 0
        [0, 0, 0, 0] 4 = some ⟨true, bytes "7" ++ [0, 0, 0], true⟩ :=
  ⟨((extractField_cuts_at_last_cr (bytes "+A: 1\r\n+B: 2,3\r4,5\r\n") 1 [0, 0, 0, 0] 4
      (bytes "3\r4") (by decide)).2 (bytes "3") (bytes "4") (by decide) (by decide)).2
      (by decide),
   ((extractField_cuts_at_last_cr (bytes "+A: 7\r,8\r\n") 0 [0, 0, 0, 0] 4
      (bytes "7\r") (by decide)).2 (bytes "7") [] (by decide) (by decide)).2 (by decide),
   ((extractField_cuts_at_last_cr (bytes "+A: 7,8\r\n") 0 [0, 0, 0, 0] 4
      (bytes "7") (by decide)).1 (by decide)).2 (by decide)⟩

/-- C18, counterexample: in the two-line response `"+A: 1\r\n+B: 2,3\r\n"`
index 0 selects the token `"1\r\n+B: 2"`, which does not end in a carriage
return; it is not copied out whole: the call succeeds with `"1"`. -/
theorem extractField_cut_is_not_trailing_only :
    selectedValue (bytes "+A: 1\r\n+B: 2,3\r\n") 0 = some (bytes "1\r\n+B: 2") ∧
    (bytes "1\r\n+B: 2").getLast? ≠ some CARRIAGE_RETURN ∧
    sequansControllerExtractValueFromCommandResponse (bytes "+A: 1\r\n+B: 2,3\r\n") 0
        (List.replicate 16 0) 16
      = some ⟨true, bytes "1" ++ List.replicate 15 0, false⟩ := by
  decide

/-- C15 (amended): after `sequansControllerBegin` the RTS line is asserted
(driven low) iff the receive-buffer occupancy at that moment is below the
high-water mark `SERIAL_RX_BUFFER_SIZE - 2`; after `sequansControllerReadByte`
it is asserted iff the occupancy the call started with, that is before the
byte was consumed, is below the mark. A read that consumes a byte leaves the
occupancy one lower than it started with; a read of an empty buffer returns
`-1` and consumes nothing. -/
theorem rts_follows_occupancy_before_read (size : Nat) (serial_begin : List Nat → List Nat)
    (s : LinkDriver) :
    ((sequansControllerBegin size serial_begin s).rts_pin = false ↔
      ((sequansControllerBegin size serial_begin s).rx_buffer.length : Int) < (size : Int) - 2) ∧
    ((sequansControllerReadByte size s).2.rts_pin = false ↔
      (s.rx_buffer.length : Int) < (size : Int) - 2) ∧
    (s.rx_buffer ≠ [] →
      (sequansControllerReadByte size s).2.rx_buffer.length + 1 = s.rx_buffer.length ∧
      (sequansControllerReadByte size s).1 = (s.rx_buffer.headD 0 : Int)) ∧
    (s.rx_buffer = [] →
      (sequansControllerReadByte size s).2.rx_buffer = [] ∧
      (sequansControllerReadByte size s).1 = -1) := by
  refine ⟨?_, ?_, ?_, ?_⟩
  · unfold sequansControllerBegin
    simp only []
    rw [(flowControlUpdate_rts size _).2.1]
    exact (flowControlUpdate_rts size _).1
  · exact (flowControlUpdate_rts size s).1
  · intro h
    unfold sequansControllerReadByte
    simp only [(flowControlUpdate_rts size s).2.1]
    exact (serialRead_length s.rx_buffer).1 h
  · intro h
    unfold sequansControllerReadByte
    simp only [(flowControlUpdate_rts size s).2.1]
    exact (serialRead_length s.rx_buffer).2 h

/-- C15, witness: a receive buffer of 64 bytes, so a mark of 62. With 61 bytes
waiting a read leaves RTS asserted, with 62 bytes waiting it leaves RTS
de-asserted, and each read takes the oldest byte. -/
theorem rts_follows_occupancy_before_read_witness :
    (sequansControllerReadByte 64 ⟨List.replicate 61 7, true, false⟩).2.rts_pin = false ∧
    (sequansControllerReadByte 64 ⟨List.replicate 62 7, false, false⟩).2.rts_pin = true ∧
    (sequansControllerReadByte 64 ⟨List.replicate 62 7, false, false⟩).2.rx_buffer.length + 1
      = 62 ∧
    (sequansControllerReadByte 64 ⟨List.replicate 62 7, false, false⟩).1 = 7 :=
  ⟨(rts_follows_occupancy_before_read 64 id ⟨List.replicate 61 7, true, false⟩).2.1.2
      (by decide),
   by
    have h := (rts_follows_occupancy_before_read 64 id
      ⟨List.replicate 62 7, false, false⟩).2.1
    cases hr : (sequansControllerReadByte 64 ⟨List.replicate 62 7, false, false⟩).2.rts_pin
    · exact absurd (h.1 hr) (by decide)
    · rfl,
   ((rts_follows_occupancy_before_read 64 id ⟨List.replicate 62 7, false, false⟩).2.2.1
      (by decide)).1,
   ((rts_follows_occupancy_before_read 64 id ⟨List.replicate 62 7, false, false⟩).2.2.1
      (by decide)).2⟩

/-- C15, counterexample: a receive buffer of 64 bytes, so a mark of 62, with 62
bytes waiting and RTS asserted. After `sequansControllerReadByte` 61 bytes are
waiting, which is below the mark, and RTS is de-asserted (driven high). -/
theorem rts_stale_after_read :
    (sequansControllerReadByte 64 ⟨List.replicate 62 7, false, false⟩).2.rx_buffer.length = 61 ∧
    ((61 : Int) < (64 : Int) - 2) ∧
    (sequansControllerReadByte 64 ⟨List.replicate 62 7, false, false⟩).2.rts_pin = true ∧
    ¬ ((sequansControllerReadByte 64 ⟨List.replicate 62 7, false, false⟩).2.rts_pin = false ↔
      ((sequansControllerReadByte 64
        ⟨List.replicate 62 7, false, false⟩).2.rx_buffer.length : Int) < (64 : Int) - 2) := by
  decide

/-- C16, failing input: a CTS interrupt (`INTFLAGS = 0x40`) with the CTS pin low
(asserted), the flag clear (`CTRLA = 0`) and an empty transmit buffer. The
handler sets the data-register-empty interrupt flag (bit 5, `CTRLA = 0x20`)
although no transmit data is pending; it never reads the transmit buffer, so
on every input the register it leaves is the same with and without pending
data. -/
theorem cts_handler_enables_without_pending_data :
    (PORTC_PORT_vect 5 ⟨0x40, 0, 0, []⟩).tx_buffer = [] ∧
    (PORTC_PORT_vect 5 ⟨0x40, 0, 0, []⟩).ctrla = 0x20 ∧
    dataRegisterEmptyInterruptEnabled 5 ⟨0x40, 0, 0, []⟩ = false ∧
    dataRegisterEmptyInterruptEnabled 5 (PORTC_PORT_vect 5 ⟨0x40, 0, 0, []⟩) = true ∧
    (∀ (bp : Nat) (r : Registers) (pending : List Nat),
      (PORTC_PORT_vect bp ⟨r.intflags, r.port_in, r.ctrla, pending⟩).ctrla
        = (PORTC_PORT_vect bp r).ctrla) := by
  refine ⟨by decide, by decide, by decide, by decide, ?_⟩
  intro bp r pending
  rfl

/-- C17: for every buffer size below 64 or above 1500, every retry count,
buffer and state of the link, `httpClientReadResponseBody` returns `-1`,
writes no byte to the modem, leaves the receive and transmit-ready schedules
untouched (no received byte is consumed) and leaves the caller's buffer as it
was. -/
theorem readResponseBody_size_guard (number_of_retries fuel : Nat) (buffer : List Nat)
    (buffer_size : Nat) (rx : List (Option Nat)) (ready : List Bool) (sent : List Nat)
    (h : buffer_size < 64 ∨ 1500 < buffer_size) :
    (httpClientReadResponseBody number_of_retries fuel buffer buffer_size rx ready sent).result
      = .returned (-1) ∧
    (httpClientReadResponseBody number_of_retries fuel buffer buffer_size rx ready sent).sent
      = sent ∧
    (httpClientReadResponseBody number_of_retries fuel buffer buffer_size rx ready sent).rx
      = rx ∧
    (httpClientReadResponseBody number_of_retries fuel buffer buffer_size rx ready sent).ready
      = ready ∧
    (httpClientReadResponseBody number_of_retries fuel buffer buffer_size rx ready sent).buffer
      = buffer ∧
    (httpClientReadResponseBody number_of_retries fuel buffer buffer_size rx
      ready sent).stored_before_buffer = false := by
  have hg : buffer_size < HTTP_BODY_BUFFER_MIN_SIZE ∨ buffer_size > HTTP_BODY_BUFFER_MAX_SIZE := h
  unfold httpClientReadResponseBody
  rw [if_pos hg]
  exact ⟨rfl, rfl, rfl, rfl, rfl, rfl⟩

/-- C17, witness: sizes 63 and 1501 on a link that holds a complete body
response: the call returns `-1` and nothing moves. With size 64 on the same
link the receive command is sent and the body is read. -/
theorem readResponseBody_size_guard_witness :
    (httpClientReadResponseBody 5 1 (List.replicate 64 7) 63
      ([none] ++ (bytes "<<<hi\r\n\r\nOK\r\n").map some) (List.replicate 20 true) [])
      = ⟨.returned (-1), List.replicate 64 7,
          [none] ++ (bytes "<<<hi\r\n\r\nOK\r\n").map some, List.replicate 20 true, [], false⟩ ∧
    (httpClientReadResponseBody 5 1 (List.replicate 64 7) 1501
      ([none] ++ (bytes "<<<hi\r\n\r\nOK\r\n").map some) (List.replicate 20 true) []).result
      = .returned (-1) ∧
    (httpClientReadResponseBody 5 1 (List.replicate 64 0) 64
      ([none] ++ (bytes "<<<hi\r\n\r\nOK\r\n").map some) (List.replicate 20 true) []).sent
      = bytes "AT+SQNHTTPRCV=0,64\r" ∧
    (httpClientReadResponseBody 5 1 (List.replicate 64 0) 64
      ([none] ++ (bytes "<<<hi\r\n\r\nOK\r\n").map some) (List.replicate 20 true) []).result
      = .returned 4 := by
  refine ⟨?_, ?_, by decide, by decide⟩
  · have h := readResponseBody_size_guard 5 1 (List.replicate 64 7) 63
      ([none] ++ (bytes "<<<hi\r\n\r\nOK\r\n").map some) (List.replicate 20 true) []
      (Or.inl (by decide))
    generalize httpClientReadResponseBody 5 1 (List.replicate 64 7) 63
      ([none] ++ (bytes "<<<hi\r\n\r\nOK\r\n").map some) (List.replicate 20 true) [] = run at h ⊢
    obtain ⟨res, buf, rx, rdy, snt, sb⟩ := run
    obtain ⟨h1, h2, h3, h4, h5, h6⟩ := h
    simp only at h1 h2 h3 h4 h5 h6
    subst h1 h2 h3 h4 h5 h6
    rfl
  · exact (readResponseBody_size_guard 5 1 (List.replicate 64 7) 1501
      ([none] ++ (bytes "<<<hi\r\n\r\nOK\r\n").map some) (List.replicate 20 true) []
      (Or.inr (by decide))).1

/-- C11, failing input: index 2 on `"+SQNHTTPRCV: 1,200,35\r\nOK\r\n"`. The
private copy is the 26 bytes `"+SQNHTTPRCV: 1,200,35\r\nOK\r"` without a
terminating zero, so the scan of `strtok` for the end of the third token runs
past the end of the copy and the call has no result of its own. Followed into
the memory behind the copy, it stores its zero over the first delimiter it
meets there: when two bytes and then the caller's response string follow the
copy, the first comma of the caller's string is overwritten and the call
returns true with `"35\r\nOK"`. -/
theorem extractField_tokenises_past_private_copy :
    responseCopy (bytes "+SQNHTTPRCV: 1,200,35\r\nOK\r\n")
      = bytes "+SQNHTTPRCV: 1,200,35\r\nOK\r" ∧
    sequansControllerExtractValueFromCommandResponse
      (bytes "+SQNHTTPRCV: 1,200,35\r\nOK\r\n") 2 (List.replicate 8 0) 8 = none ∧
    (extractValueInMemory (bytes "+SQNHTTPRCV: 1,200,35\r\nOK\r\n") 2 (List.replicate 8 0) 8
      ([0x34, 0x12] ++ bytes "+SQNHTTPRCV: 1,200,35\r\nOK\r\n" ++ [0])).map
        (fun run => (run.ok, run.buffer, (run.memory.drop (26 + 2)).take 27))
      = some (true, bytes "35\r\nOK" ++ [0, 0],
          bytes "+SQNHTTPRCV: 1" ++ [0] ++ bytes "200,35\r\nOK\r\n") ∧
    bytes "+SQNHTTPRCV: 1" ++ [0] ++ bytes "200,35\r\nOK\r\n"
      ≠ bytes "+SQNHTTPRCV: 1,200,35\r\nOK\r\n" := by
  decide

/-- C25: for every start value and current value of the 32-bit millisecond
counter and every 32-bit interval, `TimeoutTimer::hasTimedOut` is true exactly
when `(now - start) mod 2^32` is strictly greater than the interval. So with
`elapsed` milliseconds gone since the start, fewer than `2^32`, it is true
exactly when `elapsed` exceeds the interval, wherever the counter wraps, and it
is false at exactly `interval` milliseconds. -/
theorem hasTimedOut_wrap_safe (start now interval : Nat)
    (hs : start < 2 ^ 32) (hn : now < 2 ^ 32) (hi : interval < 2 ^ 32) :
    ((TimeoutTimer.create interval start).hasTimedOut now = true ↔
      ((now : Int) - (start : Int)) % 2 ^ 32 > (interval : Int)) ∧
    (∀ elapsed, elapsed < 2 ^ 32 →
      ((TimeoutTimer.create interval start).hasTimedOut ((start + elapsed) % 2 ^ 32) = true ↔
        elapsed > interval)) ∧
    (TimeoutTimer.create interval start).hasTimedOut ((start + interval) % 2 ^ 32) = false := by
  have key : ∀ elapsed, elapsed < 2 ^ 32 →
      ((TimeoutTimer.create interval start).hasTimedOut ((start + elapsed) % 2 ^ 32) = true ↔
        elapsed > interval) := by
    intro elapsed he
    simp only [TimeoutTimer.hasTimedOut, TimeoutTimer.create, decide_eq_true_eq]
    norm_num at hs hn hi he ⊢
    omega
  refine ⟨?_, key, ?_⟩
  · simp only [TimeoutTimer.hasTimedOut, TimeoutTimer.create, decide_eq_true_eq]
    norm_num at hs hn hi ⊢
    omega
  · have h := key interval hi
    cases hb : (TimeoutTimer.create interval start).hasTimedOut ((start + interval) % 2 ^ 32)
    · rfl
    · exact absurd (h.mp hb) (by omega)

/-- C25, witness: a timer of 100 ms started 16 ms before the counter wraps. At
counter value 84, 100 ms after the start, it has not timed out; at 85 it
has. -/
theorem hasTimedOut_wrap_safe_witness :
    (TimeoutTimer.create 100 4294967280).hasTimedOut 84 = false ∧
    (TimeoutTimer.create 100 4294967280).hasTimedOut 85 = true :=
  ⟨by
    have h := (hasTimedOut_wrap_safe 4294967280 84 100 (by decide) (by decide) (by decide)).2.2
    simpa using h,
   ((hasTimedOut_wrap_safe 4294967280 85 100 (by decide) (by decide) (by decide)).2.1 101
      (by decide)).mpr (by decide)⟩

/-- C23: a run of consecutive commas counts as a single delimiter. For every
response, index, output buffer and capacity, replacing a run of commas by one
comma, wherever the run stands and so also in the payload after the marker,
leaves what `sequansControllerExtractValueFromCommandResponse` returns
unchanged: the same success flag and the same bytes copied out, or in both
cases no defined result. -/
theorem extractField_comma_runs (a b : List Nat) (k index : Nat) (buffer : List Nat)
    (cap : Nat) :
    sequansControllerExtractValueFromCommandResponse
        (a ++ List.replicate (k + 1) RESPONSE_DELIMITER ++ b) index buffer cap
      = sequansControllerExtractValueFromCommandResponse
        (a ++ [RESPONSE_DELIMITER] ++ b) index buffer cap := by
  induction k with
  | zero => rfl
  | succ k ih =>
    have e : a ++ List.replicate (k + 1 + 1) RESPONSE_DELIMITER ++ b
        = a ++ RESPONSE_DELIMITER :: RESPONSE_DELIMITER
            :: (List.replicate k RESPONSE_DELIMITER ++ b) := by
      simp [List.replicate_succ]
    have e2 : a ++ List.replicate (k + 1) RESPONSE_DELIMITER ++ b
        = a ++ RESPONSE_DELIMITER :: (List.replicate k RESPONSE_DELIMITER ++ b) := by
      simp [List.replicate_succ]
    rw [e, extract_comma_step, ← e2, ih]

/-- C24, failing input: size 64, a zero-initialised buffer, and after the three
start bytes (a) the stream `"OK\r\n"`, (b) a modem that stays silent, (c) 59
bytes `'a'` followed by `"\r\nOK\r\n"`. In (a) the response read returns OK and
in (b) TIMEOUT, each with an empty text in the buffer: `strlen` gives 0, the
`memset` starts two bytes before the buffer and the call returns `-2`. In (c)
the response read fills the 64 bytes and returns BUFFER_OVERFLOW; the buffer
then holds no zero byte, so `strlen` runs off its end and the call has no
defined result. -/
theorem readResponseBody_stores_outside_buffer :
    (httpClientReadResponseBody 5 1 (List.replicate 64 0) 64
      ([none] ++ (bytes "<<<OK\r\n").map some) (List.replicate 20 true) []).result
      = .returned (-2) ∧
    (httpClientReadResponseBody 5 1 (List.replicate 64 0) 64
      ([none] ++ (bytes "<<<OK\r\n").map some) (List.replicate 20 true)
      []).stored_before_buffer = true ∧
    (httpClientReadResponseBody 5 1 (List.replicate 64 0) 64
      ([none] ++ (bytes "<<<").map some ++ List.replicate 5 none) (List.replicate 20 true)
      []).result = .returned (-2) ∧
    (httpClientReadResponseBody 5 1 (List.replicate 64 0) 64
      ([none] ++ (bytes "<<<").map some ++ List.replicate 5 none) (List.replicate 20 true)
      []).stored_before_buffer = true ∧
    (sequansControllerReadResponse 5 (List.replicate 64 0) 64
      ((List.replicate 59 97 ++ bytes "\r\nOK\r\n").map some)).result
      = .returned .BUFFER_OVERFLOW ∧
    strlen (sequansControllerReadResponse 5 (List.replicate 64 0) 64
      ((List.replicate 59 97 ++ bytes "\r\nOK\r\n").map some)).out_buffer = none ∧
    (httpClientReadResponseBody 5 1 (List.replicate 64 0) 64
      ([none] ++ (bytes "<<<" ++ List.replicate 59 97 ++ bytes "\r\nOK\r\n").map some)
      (List.replicate 20 true) []).result = .undefined := by
  set_option maxRecDepth 100000 in decide

/-- C22, failing input: index 1 on `"+X: 1,2\r\n"` with the output buffer
`"ab,cd"` lying right behind the private copy. The copy `"+X: 1,2\r"` has no
terminating zero, so `strtok` scans on into the buffer and stores its zero
over the buffer's comma. With capacity 1 the call returns false and the
buffer is `"ab\0cd"`; with capacity 5 it returns true with the token `"2"` of
length 1, and position 2 of the buffer is changed as well. On the same line
with the second field ended by a comma the only store into the buffer is the
copy of the token. -/
theorem extractField_stores_into_output_buffer :
    responseCopy (bytes "+X: 1,2\r\n") = bytes "+X: 1,2\r" ∧
    sequansControllerExtractValueFromCommandResponse (bytes "+X: 1,2\r\n") 1 (bytes "ab,cd") 5
      = none ∧
    extractValueBehindCopy (bytes "+X: 1,2\r\n") 1 0 1 (bytes "ab,cd")
      = some ⟨false, bytes "ab" ++ [0] ++ bytes "cd", false⟩ ∧
    extractValueBehindCopy (bytes "+X: 1,2\r\n") 1 0 5 (bytes "ab,cd")
      = some ⟨true, bytes "2b" ++ [0] ++ bytes "cd", false⟩ ∧
    extractValueBehindCopy (bytes "+X: 1,2,\r\n") 1 0 5 (bytes "ab,cd")
      = some ⟨true, bytes "2b,cd", true⟩ := by
  decide

/-- C21, failing input: the line `"+SQNHTTPRING: 0,200,text/plain,35\r\n"`. With
index 1 and capacity 4 the extraction yields `"200"`. With index 3 and
capacity 16 the fourth field is the last token of a private copy that has no
terminating zero, so the scan for its end leaves the copy and the call has no
result of its own. Followed into the memory behind the copy it yields `"35"`
when a zero comes first there, and it fails, leaving the data-size buffer as
it was, when 14 other bytes and a carriage return come first. -/
theorem httpResponse_data_size_scan_leaves_copy :
    responseLine (bytes "+SQNHTTPRING") (bytes "0") (bytes "200") (bytes "text/plain")
        (bytes "35") = bytes "+SQNHTTPRING: 0,200,text/plain,35\r\n" ∧
    responseCopy (bytes "+SQNHTTPRING: 0,200,text/plain,35\r\n")
      = bytes "+SQNHTTPRING: 0,200,text/plain,35\r" ∧
    sequansControllerExtractValueFromCommandResponse
        (bytes "+SQNHTTPRING: 0,200,text/plain,35\r\n") HTTP_RESPONSE_STATUS_CODE_INDEX
        (List.replicate (HTTP_RESPONSE_STATUS_CODE_LENGTH + 1) 0)
        (HTTP_RESPONSE_STATUS_CODE_LENGTH + 1)
      = some ⟨true, bytes "200" ++ [0], true⟩ ∧
    sequansControllerExtractValueFromCommandResponse
        (bytes "+SQNHTTPRING: 0,200,text/plain,35\r\n") HTTP_RESPONSE_DATA_SIZE_INDEX
        (List.replicate HTTP_RESPONSE_DATA_SIZE_LENGTH 0) HTTP_RESPONSE_DATA_SIZE_LENGTH
      = none ∧
    (extractValueInMemory (bytes "+SQNHTTPRING: 0,200,text/plain,35\r\n")
        HTTP_RESPONSE_DATA_SIZE_INDEX (List.replicate HTTP_RESPONSE_DATA_SIZE_LENGTH 0)
        HTTP_RESPONSE_DATA_SIZE_LENGTH [0]).map (fun run => (run.ok, run.buffer))
      = some (true, bytes "35" ++ List.replicate 14 0) ∧
    (extractValueInMemory (bytes "+SQNHTTPRING: 0,200,text/plain,35\r\n")
        HTTP_RESPONSE_DATA_SIZE_INDEX (List.replicate HTTP_RESPONSE_DATA_SIZE_LENGTH 0)
        HTTP_RESPONSE_DATA_SIZE_LENGTH (List.replicate 14 65 ++ [13, 0])).map
          (fun run => (run.ok, run.buffer))
      = some (false, List.replicate 16 0) := by
  decide
end SequansController
